import Mathlib

/-!
# The `bnet` wire codec of bnet-mcp

A shallow embedding of `pkg/encoding/bnet` (vendored `bnet-encoding`) together with the message
schemas of `pkg/mcp` that the properties use, followed by theorems about it.

* bytes are natural numbers (a byte conversion is an explicit `% 256`);
* a Go `string` that travels on the wire is its list of bytes; identifiers and struct tags, which
  are program text, are Lean strings;
* `reflect.Type` is `GoType`, `reflect.Value` is a `Value` read at a `GoType`;
* the destination of `Unmarshal` is a store (`decodeState.root`) addressed by paths, so that the
  references kept in `savedValues` observe later writes, as the `reflect.Value`s of the source do;
* `panic(err)` with an error value is `Outcome.error`; a Go run-time panic, which `marshal` and
  `unmarshal` raise again, is `Outcome.crash`;
* a `Value` that has not the shape of the type it is read at cannot arise in Go; the model
  answers `Outcome.crash` there.
-/

namespace Bnet

/-! ## Types and values -/

mutual
/-- The `reflect.Type`s the codec distinguishes. `other` stands for every kind that has no case of
its own in `newTypeEncoder` and `decodeState.value` (signed integers, floats, maps, ...).
Interface types, which no schema uses, are left out; pointer types are unnamed. -/
inductive GoType where
  | bool
  | uint8
  | uint16
  | uint32
  | uint64
  | string
  | array (len : Nat) (elem : GoType)
  | slice (elem : GoType)
  | ptr (elem : GoType)
  | struct (name : String) (fields : FieldList)
  | other (name : String)
  deriving DecidableEq, Repr
/-- The declared fields of a struct type (`reflect.StructField`): name, whether `PkgPath` is
empty (exported), `Anonymous`, the value of the `bnet` key of the tag, and the type. -/
inductive FieldList where
  | nil
  | cons (name : String) (exported : Bool) (anonymous : Bool) (tag : String) (typ : GoType)
      (rest : FieldList)
  deriving DecidableEq, Repr
end

/-- A Go value as `reflect` sees it; the type it is read at gives the width of a `uint`. -/
inductive Value where
  | bool (b : Bool)
  | uint (x : Nat)
  | str (s : List Nat)
  | array (elems : List Value)
  | nilSlice
  | slice (elems : List Value)
  | nilPtr
  | ptr (elem : Value)
  | struct (fields : List Value)
  | other
  deriving Repr, Inhabited

mutual
/-- Structural equality test on values. -/
def Value.beq : Value → Value → Bool
  | .bool a, .bool b => a == b
  | .uint a, .uint b => a == b
  | .str a, .str b => a == b
  | .array a, .array b => Value.beqList a b
  | .nilSlice, .nilSlice => true
  | .slice a, .slice b => Value.beqList a b
  | .nilPtr, .nilPtr => true
  | .ptr a, .ptr b => Value.beq a b
  | .struct a, .struct b => Value.beqList a b
  | .other, .other => true
  | _, _ => false
/-- Structural equality test on lists of values. -/
def Value.beqList : List Value → List Value → Bool
  | [], [] => true
  | a :: as, b :: bs => Value.beq a b && Value.beqList as bs
  | _, _ => false
end

mutual
theorem Value.beq_iff : ∀ (a b : Value), Value.beq a b = true ↔ a = b
  | .bool a, b => by cases b <;> simp [Value.beq]
  | .uint a, b => by cases b <;> simp [Value.beq]
  | .str a, b => by cases b <;> simp [Value.beq]
  | .array a, b => by cases b <;> simp [Value.beq, Value.beqList_iff a]
  | .nilSlice, b => by cases b <;> simp [Value.beq]
  | .slice a, b => by cases b <;> simp [Value.beq, Value.beqList_iff a]
  | .nilPtr, b => by cases b <;> simp [Value.beq]
  | .ptr a, b => by cases b <;> simp [Value.beq, Value.beq_iff a]
  | .struct a, b => by cases b <;> simp [Value.beq, Value.beqList_iff a]
  | .other, b => by cases b <;> simp [Value.beq]
theorem Value.beqList_iff : ∀ (as bs : List Value), Value.beqList as bs = true ↔ as = bs
  | [], bs => by cases bs <;> simp [Value.beqList]
  | a :: as, bs => by
    cases bs <;> simp [Value.beqList, Value.beq_iff a, Value.beqList_iff as]
end

instance : DecidableEq Value := fun a b =>
  decidable_of_iff (Value.beq a b = true) (Value.beq_iff a b)

/-- One declared field, as a record. -/
structure StructField where
  name : String
  exported : Bool
  anonymous : Bool
  tag : String
  typ : GoType
  deriving DecidableEq, Repr

/-- The declared fields in declaration order. -/
def FieldList.toList : FieldList → List StructField
  | .nil => []
  | .cons n ex an tg t rest => ⟨n, ex, an, tg, t⟩ :: rest.toList

/-- Builds a field list from records. -/
def FieldList.ofList : List StructField → FieldList
  | [] => .nil
  | f :: fs => .cons f.name f.exported f.anonymous f.tag f.typ (FieldList.ofList fs)

/-- An exported, non-embedded field. -/
def fld (name : String) (tag : String) (typ : GoType) : StructField :=
  ⟨name, true, false, tag, typ⟩

/-- A named struct type from its fields. -/
def structOf (name : String) (fs : List StructField) : GoType :=
  .struct name (FieldList.ofList fs)

/-- Go's `t.Name()`: only struct types carry a name in this model. -/
def GoType.name : GoType → String
  | .struct n _ => n
  | _ => ""

/-- Go's `v.Len()`. -/
def Value.len : Value → Nat
  | .array xs => xs.length
  | .slice xs => xs.length
  | .str s => s.length
  | _ => 0

/-- The elements of an array or slice value (`v.Index(i)` for `i < v.Len()`). -/
def Value.elems : Value → List Value
  | .array xs => xs
  | .slice xs => xs
  | _ => []

mutual
/-- Go's `reflect.Zero(t)`. -/
def zeroValue : GoType → Value
  | .bool => .bool false
  | .uint8 => .uint 0
  | .uint16 => .uint 0
  | .uint32 => .uint 0
  | .uint64 => .uint 0
  | .string => .str []
  | .array n t => .array (List.replicate n (zeroValue t))
  | .slice _ => .nilSlice
  | .ptr _ => .nilPtr
  | .struct _ fs => .struct (zeroFields fs)
  | .other _ => .other
/-- The zero values of the fields of a struct. -/
def zeroFields : FieldList → List Value
  | .nil => []
  | .cons _ _ _ _ t rest => zeroValue t :: zeroFields rest
end

/-! ## Struct tags (`tags.go`) -/

/-- A `map[string]string`; the nil map is the empty list. -/
abbrev TagMap := List (String × String)

/-- Map lookup `m[k]` with the comma-ok result. -/
def TagMap.get (m : TagMap) (k : String) : Option String :=
  (m.find? (fun kv => kv.1 == k)).map (fun kv => kv.2)

/-- Map assignment `m[k] = v`. -/
def TagMap.put (m : TagMap) (k v : String) : TagMap :=
  if m.any (fun kv => kv.1 == k) then m.map (fun kv => if kv.1 == k then (k, v) else kv)
  else m ++ [(k, v)]

/-- Go's `strings.Split(s, sep)` for a one-character separator. -/
def splitOn (sep : Char) : List Char → List (List Char)
  | [] => [[]]
  | c :: cs =>
    if c = sep then [] :: splitOn sep cs
    else
      match splitOn sep cs with
      | [] => [[c]]
      | h :: t => (c :: h) :: t

/-- The loop of `parseTag` over the comma-separated tokens. -/
def parseTagLoop : List (List Char) → TagMap → TagMap
  | [], out => out
  | tok :: toks, out =>
    match splitOn '-' tok with
    | [] => parseTagLoop toks out
    | [k] => parseTagLoop toks (out.put (String.mk k) "")
    | k :: v :: _ => parseTagLoop toks (out.put (String.mk k) (String.mk v))

/-- Source: `parseTag`. -/
def parseTag (tag : String) : TagMap :=
  if tag = "-" ∨ tag = "" then []
  else parseTagLoop (splitOn ',' tag.data) []

/-! ## Errors (`errors.go`) and outcomes -/

/-- The text `v.String()` of a saved value: the string itself for a string, `<T Value>` else. -/
inductive SavedText where
  | text (s : List Nat)
  | typeValue (t : GoType)
  deriving DecidableEq, Repr

/-- The error values of the package. -/
inductive BnetError where
  | IndexOutOfRangeError (N : Nat) (Offset : Nat) (Struct Field : String)
  | InvalidSavedValueError (Expected : String) (Value : SavedText) (Struct Field : String)
  | InvalidTagValueError (Expected Value : String) (Struct Field : String)
  | InvalidValueError (Struct Field : String) (Value : List Nat)
  | NilPointerError
  | TagDefinitionRequiredError (Tag : String) (Struct Field : String)
  | UndefinedSavedValueError (Name : String) (Struct Field : String)
  | UnmarshalTypeError (Value : String) (Typ : GoType) (Offset : Nat) (Struct Field : String)
  | InvalidUnmarshalError (Typ : Option GoType)
  | UnsupportedTypeError (Typ : GoType)
  | errorString (msg : String)
  deriving DecidableEq, Repr

/-- How a call of the engine ends: normally, by `panic` with an error value (which `marshal`
and `unmarshal` recover and return), or by a run-time panic (which they raise again). -/
inductive Outcome (α : Type) where
  | ok (a : α)
  | error (err : BnetError)
  | crash (msg : String)
  deriving DecidableEq, Repr


/-! ## The type descriptor (`encode.go`: `field`, `byIndex`, `dominantField`, `typeFields`) -/

/-- Source: `field`. -/
structure field where
  name : String
  tags : TagMap
  index : List Nat
  typ : GoType
  deriving DecidableEq, Repr

/-- Source: `byIndex.Less`, on the two index sequences. -/
def byIndexLess : List Nat → List Nat → Bool
  | [], ys => decide (0 < ys.length)
  | _ :: _, [] => false
  | x :: xs, y :: ys => if x ≠ y then decide (x < y) else byIndexLess xs ys

/-- Go's `<` on strings: bytewise lexicographic, which on UTF-8 text is the order of the
code points. -/
def stringLess (a b : String) : Bool :=
  decide (a.data.map Char.toNat < b.data.map Char.toNat)

/-- The comparison given to `sort.Slice` in `typeFields`: by name, then depth, then index. -/
def nameLess (a b : field) : Bool :=
  if a.name ≠ b.name then stringLess a.name b.name
  else if a.index.length ≠ b.index.length then decide (a.index.length < b.index.length)
  else byIndexLess a.index b.index

/-- Go's `sort.Slice` and `sort.Sort`. Both comparisons of `typeFields` order any two records
that differ, so every sorting algorithm returns the same slice. -/
def sortBy (less : field → field → Bool) (xs : List field) : List field :=
  List.insertionSort (fun a b => less a b = true) xs

/-- Source: `dominantField`. -/
def dominantField (fields : List field) : Option field :=
  match fields with
  | [] => none
  | f0 :: _ =>
    let length := f0.index.length
    let kept := fields.takeWhile (fun f => !decide (f.index.length > length))
    if kept.length > 1 then none else some f0

/-- The fields kept for one run of equal names in `typeFields`. -/
def keepRun (run : List field) : List field :=
  match run with
  | [] => []
  | [fi] => [fi]
  | _ =>
    match dominantField run with
    | some dominant => [dominant]
    | none => []

/-- The loop of `typeFields` that deletes hidden fields: `run` is the run of equal names being
collected (`fields[i : i+advance]`). -/
def hideFields : List field → List field → List field
  | [], run => keepRun run
  | f :: fs, [] => hideFields fs [f]
  | f :: fs, r :: run =>
    if f.name ≠ r.name then keepRun (r :: run) ++ hideFields fs [f]
    else hideFields fs (r :: run ++ [f])

/-- The variables updated by the scan of `typeFields`. -/
structure scanState where
  visited : List GoType
  fields : List field
  next : List field
  nextCount : List (GoType × Nat)

/-- Lookup in a `map[reflect.Type]int`. -/
def countOf (m : List (GoType × Nat)) (t : GoType) : Nat :=
  ((m.find? (fun kv => kv.1 == t)).map (fun kv => kv.2)).getD 0

/-- The increment `m[t]++`. -/
def countIncr (m : List (GoType × Nat)) (t : GoType) : List (GoType × Nat) :=
  (t, countOf m t + 1) :: m.filter (fun kv => !(kv.1 == t))

/-- Go's `t.NumField()` and `t.Field(i)` together. -/
def GoType.structFields : GoType → List StructField
  | .struct _ fs => fs.toList
  | _ => []

/-- Whether the kind of the type is `reflect.Struct`. -/
def GoType.isStruct : GoType → Bool
  | .struct _ _ => true
  | _ => false

/-- The element type of a pointer type, the type itself otherwise. -/
def GoType.derefPtr : GoType → GoType
  | .ptr t => t
  | t => t

/-- The body of the loop over the fields `sf` (number `i`) of `f.typ` in `typeFields`. -/
def scanField (count : List (GoType × Nat)) (f : field) (i : Nat) (sf : StructField)
    (s : scanState) : scanState :=
  let isUnexported := !sf.exported
  if sf.anonymous && isUnexported && !sf.typ.derefPtr.isStruct then s
  else if !sf.anonymous && isUnexported then s
  else
    let index := f.index ++ [i]
    let ft := sf.typ.derefPtr
    if !sf.anonymous || !ft.isStruct then
      let fd : field := ⟨sf.name, parseTag sf.tag, index, ft⟩
      if countOf count f.typ > 1 then { s with fields := s.fields ++ [fd, fd] }
      else { s with fields := s.fields ++ [fd] }
    else
      let nextCount := countIncr s.nextCount ft
      if countOf nextCount ft = 1 then
        { s with nextCount := nextCount, next := s.next ++ [⟨ft.name, [], index, ft⟩] }
      else { s with nextCount := nextCount }

/-- The loop over the fields of `f.typ`. -/
def scanFields (count : List (GoType × Nat)) (f : field) :
    Nat → List StructField → scanState → scanState
  | _, [], s => s
  | i, sf :: sfs, s => scanFields count f (i + 1) sfs (scanField count f i sf s)

/-- The loop over `current`. -/
def scanLevel (count : List (GoType × Nat)) : List field → scanState → scanState
  | [], s => s
  | f :: fs, s =>
    if s.visited.contains f.typ then scanLevel count fs s
    else
      scanLevel count fs
        (scanFields count f 0 f.typ.structFields { s with visited := f.typ :: s.visited })

/-- The loop `for len(next) > 0`; `fuel` bounds the number of levels. -/
def scanLevels : Nat → List GoType → List field → List field → List (GoType × Nat) → List field
  | 0, _, fields, _, _ => fields
  | fuel + 1, visited, fields, next, nextCount =>
    if next.length > 0 then
      let s := scanLevel nextCount next ⟨visited, fields, [], []⟩
      scanLevels fuel s.visited s.fields s.next s.nextCount
    else fields

mutual
/-- How deeply struct types are nested in a type: a bound on the levels `typeFields` explores. -/
def GoType.nesting : GoType → Nat
  | .array _ t => t.nesting
  | .slice t => t.nesting
  | .ptr t => t.nesting
  | .struct _ fs => fs.nesting + 1
  | _ => 0
/-- The deepest nesting among the field types. -/
def FieldList.nesting : FieldList → Nat
  | .nil => 0
  | .cons _ _ _ _ t rest => max t.nesting rest.nesting
end

/-- Source: `typeFields` (and `cachedTypeFields`, which only memoises it). -/
def typeFields (t : GoType) : List field :=
  let fields := scanLevels (t.nesting + 1) [] [] [⟨"", [], [], t⟩] []
  let fields := sortBy nameLess fields
  let out := hideFields fields []
  sortBy (fun a b => byIndexLess a.index b.index) out

/-! ## The encoder (`encode.go`) -/

/-- Source: `encodeState`; `buf` is the content of the `bytes.Buffer`. -/
structure encodeState where
  buf : List Nat
  tagCache : TagMap
  deriving DecidableEq, Repr

/-- Source: `encoderFunc`. -/
abbrev encoderFunc := encodeState → Value → Outcome encodeState

/-- Go's conversion `byte(x)`. -/
def byte (x : Nat) : Nat := x % 256

/-- Go's `binary.LittleEndian.PutUint16`. -/
def LittleEndian.PutUint16 (v : Nat) : List Nat := [byte v, byte (v >>> 8)]

/-- Go's `binary.LittleEndian.PutUint32`. -/
def LittleEndian.PutUint32 (v : Nat) : List Nat :=
  [byte v, byte (v >>> 8), byte (v >>> 16), byte (v >>> 24)]

/-- Go's `binary.LittleEndian.PutUint64`. -/
def LittleEndian.PutUint64 (v : Nat) : List Nat :=
  [byte v, byte (v >>> 8), byte (v >>> 16), byte (v >>> 24),
   byte (v >>> 32), byte (v >>> 40), byte (v >>> 48), byte (v >>> 56)]

/-- Go's `binary.BigEndian.PutUint16`. -/
def BigEndian.PutUint16 (v : Nat) : List Nat := [byte (v >>> 8), byte v]

/-- Go's `binary.BigEndian.PutUint32`. -/
def BigEndian.PutUint32 (v : Nat) : List Nat :=
  [byte (v >>> 24), byte (v >>> 16), byte (v >>> 8), byte v]

/-- Go's `binary.BigEndian.PutUint64`. -/
def BigEndian.PutUint64 (v : Nat) : List Nat :=
  [byte (v >>> 56), byte (v >>> 48), byte (v >>> 40), byte (v >>> 32),
   byte (v >>> 24), byte (v >>> 16), byte (v >>> 8), byte v]

/-- Go's `v.Uint()`; `reflect` panics on another kind. -/
def Value.Uint : Value → Option Nat
  | .uint x => some x
  | _ => none

/-- Source: `isEmptyValue`. -/
def isEmptyValue : Value → Bool
  | .array xs => xs.length == 0
  | .slice xs => xs.length == 0
  | .nilSlice => true
  | .nilPtr => true
  | _ => false

/-- Source: `invalidValueEncoder`. -/
def invalidValueEncoder : encoderFunc := fun _ _ =>
  .error (.InvalidValueError "" "" [])

/-- Source: `uintEncoder`; `k` is `v.Kind()`. -/
def uintEncoder (k : GoType) : encoderFunc := fun e v =>
  let bigendian := (e.tagCache.get "bigendian").isSome
  match v.Uint with
  | none => .crash "reflect: call of reflect.Value.Uint on a value of another kind"
  | some x =>
    match k with
    | .uint8 => .ok { e with buf := e.buf ++ [x % 2 ^ 8] }
    | .uint16 =>
      let b := if bigendian then BigEndian.PutUint16 (x % 2 ^ 16)
        else LittleEndian.PutUint16 (x % 2 ^ 16)
      .ok { e with buf := e.buf ++ b }
    | .uint32 =>
      let b := if bigendian then BigEndian.PutUint32 (x % 2 ^ 32)
        else LittleEndian.PutUint32 (x % 2 ^ 32)
      .ok { e with buf := e.buf ++ b }
    | .uint64 =>
      let b := if bigendian then BigEndian.PutUint64 x else LittleEndian.PutUint64 x
      .ok { e with buf := e.buf ++ b }
    | _ => .ok e

/-- Source: `boolEncoder`. -/
def boolEncoder : encoderFunc := fun e v =>
  match e.tagCache.get "size" with
  | some size =>
    match v with
    | .bool b =>
      if size = "uint8" then
        if b then uintEncoder .uint8 e (.uint 1) else uintEncoder .uint8 e (.uint 0)
      else if size = "uint32" then
        if b then uintEncoder .uint32 e (.uint 1) else uintEncoder .uint32 e (.uint 0)
      else .error (.InvalidTagValueError "uint8 or uint32" size "" "")
    | _ =>
      if size = "uint8" ∨ size = "uint32" then
        .crash "reflect: call of reflect.Value.Bool on a value of another kind"
      else .error (.InvalidTagValueError "uint8 or uint32" size "" "")
  | none => .error (.TagDefinitionRequiredError "size" "" "")

/-- Source: `stringEncoder`. -/
def stringEncoder : encoderFunc := fun e v =>
  match v with
  | .str s => .ok { e with buf := e.buf ++ s ++ [0] }
  | _ => .crash "a value of another kind read as a string"

/-- Source: `unsupportedTypeEncoder`. -/
def unsupportedTypeEncoder (t : GoType) : encoderFunc := fun _ _ =>
  .error (.UnsupportedTypeError t)

/-- A loop that applies one encoder to the elements in index order. -/
def encodeElems (enc : encoderFunc) : List Value → encodeState → Outcome encodeState
  | [], e => .ok e
  | x :: xs, e =>
    match enc e x with
    | .ok e1 => encodeElems enc xs e1
    | .error err => .error err
    | .crash msg => .crash msg

/-- Source: `encodeStringSlice`. -/
def encodeStringSlice : encoderFunc := fun e v =>
  match encodeElems stringEncoder v.elems e with
  | .ok e1 => .ok { e1 with buf := e1.buf ++ [0] }
  | .error err => .error err
  | .crash msg => .crash msg

/-- Source: `arrayEncoder.encode`. -/
def arrayEncoder.encode (elemEnc : encoderFunc) : encoderFunc := fun e v =>
  encodeElems elemEnc v.elems e

/-- Source: `sliceEncoder.encode`. -/
def sliceEncoder.encode (arrayEnc : encoderFunc) : encoderFunc := fun e v =>
  match v with
  | .nilSlice => .ok e
  | _ => arrayEnc e v

/-- Source: `ptrEncoder.encode`. -/
def ptrEncoder.encode (ptrEnc : encoderFunc) : encoderFunc := fun e v =>
  match v with
  | .nilPtr => .ok e
  | .ptr x => ptrEnc e x
  | _ => .crash "reflect: call of reflect.Value.Elem on a value of another kind"

/-- Go's `v.Field(i)`. -/
def Value.Field (v : Value) (i : Nat) : Option Value :=
  match v with
  | .struct fs => fs[i]?
  | _ => none

/-- Source: `fieldByIndex`. -/
def fieldByIndex : Value → List Nat → Outcome Value
  | v, [] => .ok v
  | v, i :: index =>
    match v with
    | .nilPtr => .error .NilPointerError
    | .ptr x =>
      match x.Field i with
      | some y => fieldByIndex y index
      | none => .crash "reflect: Field of a value that is no struct or has no such field"
    | _ =>
      match v.Field i with
      | some y => fieldByIndex y index
      | none => .crash "reflect: Field of a value that is no struct or has no such field"

/-- Source: `typeByIndex`; `none` where `reflect` panics. -/
def typeByIndex : GoType → List Nat → Option GoType
  | t, [] => some t
  | t, i :: index =>
    match t.derefPtr.structFields[i]? with
    | some sf => typeByIndex sf.typ index
    | none => none

/-- Source: `structEncoder.encode`, over the pairs of `se.fields[i]` and `se.fieldEncs[i]`. -/
def structEncoder.encode : List (field × encoderFunc) → encoderFunc
  | [], e, _ => .ok e
  | (f, enc) :: rest, e, v =>
    match fieldByIndex v f.index with
    | .error err => .error err
    | .crash msg => .crash msg
    | .ok fv =>
      if isEmptyValue fv then .error (.InvalidValueError "" "" [])
      else
        match enc { e with tagCache := f.tags } fv with
        | .ok e1 => structEncoder.encode rest { e1 with tagCache := [] } v
        | .error err => .error err
        | .crash msg => .crash msg

mutual
/-- Source: `typeEncoder(typeByIndex(t, index))`, that is `newTypeEncoder` after the descent of
`typeByIndex`; the cache of `typeEncoder` only memoises. With the empty index it is the encoder
of `t` itself. -/
def encoderByIndex : GoType → List Nat → encoderFunc
  | .bool, [] => boolEncoder
  | .uint8, [] => uintEncoder .uint8
  | .uint16, [] => uintEncoder .uint16
  | .uint32, [] => uintEncoder .uint32
  | .uint64, [] => uintEncoder .uint64
  | .string, [] => stringEncoder
  | .struct name fs, [] =>
    structEncoder.encode
      ((typeFields (.struct name fs)).map (fun f => (f, fieldEncoderByIndex fs f.index)))
  | .slice t, [] =>
    if t = .string then encodeStringSlice
    else sliceEncoder.encode (arrayEncoder.encode (encoderByIndex t []))
  | .array _ t, [] => arrayEncoder.encode (encoderByIndex t [])
  | .ptr t, [] => ptrEncoder.encode (encoderByIndex t [])
  | .other name, [] => unsupportedTypeEncoder (.other name)
  | .struct _ fs, i :: index => fieldEncoderByIndex fs (i :: index)
  | .ptr (.struct _ fs), i :: index => fieldEncoderByIndex fs (i :: index)
  | _, _ :: _ => fun _ _ => .crash "reflect: Field of a type that is no struct"
/-- The encoder of the field that the index reaches from a struct with these fields. -/
def fieldEncoderByIndex : FieldList → List Nat → encoderFunc
  | .cons _ _ _ _ t _, 0 :: index => encoderByIndex t index
  | .cons _ _ _ _ _ rest, (i + 1) :: index => fieldEncoderByIndex rest (i :: index)
  | _, _ => fun _ _ => .crash "reflect: Field index out of range"
end

/-- Source: `typeEncoder` (with `newTypeEncoder`). -/
def typeEncoder (t : GoType) : encoderFunc := encoderByIndex t []

/-- Source: `encodeState.reflectValue` with `valueEncoder`; `none` is the invalid
`reflect.Value` of a nil interface. -/
def encodeState.reflectValue (e : encodeState) (v : Option (GoType × Value)) :
    Outcome encodeState :=
  match v with
  | none => invalidValueEncoder e .other
  | some (t, x) => typeEncoder t e x

/-- Source: `encodeState.marshal`: an error value is recovered, a run-time panic is not. -/
def encodeState.marshal (e : encodeState) (v : Option (GoType × Value)) : Outcome encodeState :=
  e.reflectValue v

/-- Source: `Marshal`. `.ok b` is the return `(b, nil)`, `.error err` the return `(nil, err)`. -/
def Marshal (v : Option (GoType × Value)) : Outcome (List Nat) :=
  match encodeState.marshal ⟨[], []⟩ v with
  | .ok e => .ok e.buf
  | .error err => .error err
  | .crash msg => .crash msg

/-! ## The decoder (`decode.go`) -/

/-- One step from a `reflect.Value` to a part of it: `v.Field(i)`, `v.Index(i)`, `v.Elem()`. -/
inductive Step where
  | field (i : Nat)
  | index (i : Nat)
  | elem
  deriving DecidableEq, Repr

/-- A storage location of the destination, from the value given to `Unmarshal`. -/
abbrev Path := List Step

/-- The part of a value one step away. -/
def Value.child (v : Value) (s : Step) : Option Value :=
  match s, v with
  | .field i, .struct fs => fs[i]?
  | .index i, .array xs => xs[i]?
  | .index i, .slice xs => xs[i]?
  | .elem, .ptr x => some x
  | _, _ => none

/-- The value with the part one step away replaced. -/
def Value.setChild (v : Value) (s : Step) (c : Value) : Value :=
  match s, v with
  | .field i, .struct fs => .struct (fs.set i c)
  | .index i, .array xs => .array (xs.set i c)
  | .index i, .slice xs => .slice (xs.set i c)
  | .elem, .ptr _ => .ptr c
  | _, _ => v

/-- Reads the location `p` of the store `v`. -/
def Value.read : Value → Path → Option Value
  | v, [] => some v
  | v, s :: p =>
    match v.child s with
    | some c => c.read p
    | none => none

/-- Writes `x` to the location `p` of the store `v` (`reflect.Value.Set`). -/
def Value.write : Value → Path → Value → Value
  | _, [], x => x
  | v, s :: p, x =>
    match v.child s with
    | some c => v.setChild s (c.write p x)
    | none => v

/-- The `errorContext` of `decodeState`. -/
structure ErrorContext where
  Struct : String
  Field : String
  deriving DecidableEq, Repr

/-- Source: `decodeState`. `root` is the storage reachable from the argument of `Unmarshal`;
a `reflect.Value` kept in `savedValues` is the type and the location of the field. -/
structure decodeState where
  data : List Nat
  off : Nat
  errorContext : ErrorContext
  structs : List String
  savedValues : List (String × GoType × Path)
  tagCache : TagMap
  root : Value
  deriving DecidableEq, Repr

/-- A method of `decodeState`: the outcome and the state it leaves. -/
def Dec (α : Type) : Type := decodeState → Outcome α × decodeState

/-- Sequencing: a panic ends the call and keeps the state at that point. -/
def Dec.bind {α β : Type} (m : Dec α) (f : α → Dec β) : Dec β := fun d =>
  match m d with
  | (.ok a, d1) => f a d1
  | (.error err, d1) => (.error err, d1)
  | (.crash msg, d1) => (.crash msg, d1)

instance : Monad Dec where
  pure a := fun d => (.ok a, d)
  bind := Dec.bind

/-- An assignment to variables of the state. -/
def Dec.modify (f : decodeState → decodeState) : Dec Unit := fun d => (.ok (), f d)

/-- A run-time panic. -/
def Dec.crash {α : Type} (msg : String) : Dec α := fun d => (.crash msg, d)

/-- Source: `decodeState.init`. -/
def decodeState.init (data : List Nat) (root : Value) : decodeState :=
  { data := data, off := 0, errorContext := ⟨"", ""⟩, structs := [], savedValues := [],
    tagCache := [], root := root }

/-- Source: `decodeState.addErrorContext`. -/
def decodeState.addErrorContext (d : decodeState) (err : BnetError) : BnetError :=
  if d.errorContext.Struct ≠ "" ∨ d.errorContext.Field ≠ "" then
    match err with
    | .IndexOutOfRangeError n off _ _ =>
      .IndexOutOfRangeError n off d.errorContext.Struct d.errorContext.Field
    | .InvalidSavedValueError ex v _ _ =>
      .InvalidSavedValueError ex v d.errorContext.Struct d.errorContext.Field
    | .InvalidTagValueError ex v _ _ =>
      .InvalidTagValueError ex v d.errorContext.Struct d.errorContext.Field
    | .InvalidValueError _ _ v =>
      .InvalidValueError d.errorContext.Struct d.errorContext.Field v
    | .TagDefinitionRequiredError tag _ _ =>
      .TagDefinitionRequiredError tag d.errorContext.Struct d.errorContext.Field
    | .UndefinedSavedValueError name _ _ =>
      .UndefinedSavedValueError name d.errorContext.Struct d.errorContext.Struct
    | .UnmarshalTypeError v t off _ _ =>
      .UnmarshalTypeError v t off d.errorContext.Struct d.errorContext.Field
    | other => other
  else err

/-- Source: `decodeState.error`. -/
def decodeState.error {α : Type} (err : BnetError) : Dec α := fun d =>
  (.error (d.addErrorContext err), d)

/-- Source: `decodeState.unreadBytes`. -/
def unreadBytes (n : Nat) : Dec Unit := fun d =>
  if d.off < n then decodeState.error (.IndexOutOfRangeError n d.off "" "") d
  else (.ok (), { d with off := d.off - n })

/-- Source: `decodeState.readBytes`. -/
def readBytes (n : Nat) : Dec (List Nat) := fun d =>
  if d.off + n > d.data.length then decodeState.error (.IndexOutOfRangeError n d.off "" "") d
  else (.ok ((d.data.drop d.off).take n), { d with off := d.off + n })

/-- The `for` loop of `readString`: `left` is `len(d.data) - n`. The result is the final `n`,
or `none` when `d.data[d.off+n]` is out of range. -/
def readStringScan (data : List Nat) (off : Nat) : Nat → Nat → Option Nat
  | 0, n => some n
  | left + 1, n =>
    match data[off + n]? with
    | none => none
    | some b => if b = 0 then some n else readStringScan data off left (n + 1)

/-- Source: `decodeState.readString`. -/
def readString : Dec (List Nat) := fun d =>
  match readStringScan d.data d.off d.data.length 0 with
  | none => (.crash "runtime error: index out of range", d)
  | some n =>
    if d.off + n > d.data.length then
      decodeState.error (.errorString "attempting to read past buffer") d
    else (.ok ((d.data.drop d.off).take n), { d with off := d.off + n + 1 })

/-- The loop of `readStringList`. Every turn that goes on has read a non-empty string inside
the buffer, so `len(d.data) + 1` turns are never used up; `fuel` counts them. -/
def readStringListLoop : Nat → List (List Nat) → Dec (List (List Nat))
  | 0, _ => Dec.crash "readStringList: more turns than bytes"
  | fuel + 1, items => do
    let item ← readString
    if item.length ≠ 0 then readStringListLoop fuel (items ++ [item])
    else pure items

/-- Source: `decodeState.readStringList`. -/
def readStringList : Dec (List (List Nat)) := fun d =>
  readStringListLoop (d.data.length + 1) [] d

/-- Source: `decodeState.decodeUint8`. -/
def decodeUint8 : Dec Nat := do
  let b ← readBytes 1
  pure (b.getD 0 0)

/-- Go's `binary.LittleEndian.Uint16`, `Uint32` and `Uint64`. -/
def LittleEndian.Uint : List Nat → Nat
  | [] => 0
  | b :: bs => b + 256 * LittleEndian.Uint bs

/-- Go's `binary.BigEndian.Uint16`, `Uint32` and `Uint64`. -/
def BigEndian.Uint (b : List Nat) : Nat := LittleEndian.Uint b.reverse

/-- Source: `decodeState.decodeUint16`, `decodeUint32`, `decodeUint64`, for `n` bytes. -/
def decodeUintN (n : Nat) : Dec Nat := fun d =>
  if (d.tagCache.get "bigendian").isSome then
    (do let b ← readBytes n; pure (BigEndian.Uint b)) d
  else (do let b ← readBytes n; pure (LittleEndian.Uint b)) d

/-- Source: `decodeState.decodeUint16`. -/
def decodeUint16 : Dec Nat := decodeUintN 2

/-- Source: `decodeState.decodeUint32`. -/
def decodeUint32 : Dec Nat := decodeUintN 4

/-- Source: `decodeState.decodeUint64`. -/
def decodeUint64 : Dec Nat := decodeUintN 8

/-- Source: `decodeState.decodeBool`. -/
def decodeBool : Dec Bool := fun d =>
  match d.tagCache.get "size" with
  | none => decodeState.error (.TagDefinitionRequiredError "size" "" "") d
  | some size =>
    let read : Dec (Nat × Nat) :=
      if size = "uint8" then do let i ← decodeUint8; pure (i, 1)
      else if size = "uint32" then do let i ← decodeUint32; pure (i, 4)
      else decodeState.error (.InvalidTagValueError "uint8 or uint32" size "" "")
    (do
      let (i, unread) ← read
      if i ≠ 0 ∧ i ≠ 1 then
        unreadBytes unread
        let raw ← readBytes unread
        decodeState.error (.InvalidValueError "" "" raw)
      else pure (decide (i = 1))) d

/-- Source: `decodeState.decodeString`. -/
def decodeString : Dec (List Nat) := readString

/-- Source: `decodeState.saveTag`; `v` is the field of type `t` at `p`. The newest binding of a
name stands first and is the one found. -/
def saveTag (t : GoType) (p : Path) : Dec Unit := fun d =>
  match d.tagCache.get "save" with
  | some name => (.ok (), { d with savedValues := (name, t, p) :: d.savedValues })
  | none => (.ok (), d)

/-- Go's conversion `int(x)` of a `uint64` on a 64-bit platform. -/
def toInt (x : Nat) : Int :=
  if x % 2 ^ 64 < 2 ^ 63 then (x % 2 ^ 64 : Nat) else (x % 2 ^ 64 : Nat) - 2 ^ 64

/-- The value of a string of decimal digits, `none` when a byte is no digit. -/
def digitsValue : List Nat → Nat → Option Nat
  | [], acc => some acc
  | c :: cs, acc => if 48 ≤ c ∧ c ≤ 57 then digitsValue cs (acc * 10 + (c - 48)) else none

/-- Go's `strconv.Atoi`; `none` when it returns an error. -/
def Atoi (s : List Nat) : Option Int :=
  match s with
  | [] => none
  | c :: rest =>
    let neg := c = 45
    let ds := if c = 45 ∨ c = 43 then rest else s
    if ds = [] then none
    else
      match digitsValue ds 0 with
      | none => none
      | some n =>
        if neg then (if n ≤ 2 ^ 63 then some (-(n : Int)) else none)
        else (if n < 2 ^ 63 then some (n : Int) else none)

/-- Source: `decodeState.getSavedValueAsInt`. -/
def getSavedValueAsInt (name : String) : Dec Int := fun d =>
  match (d.savedValues.find? (fun kv => kv.1 == name)).map (fun kv => kv.2) with
  | none => decodeState.error (.UndefinedSavedValueError name "" "") d
  | some (t, p) =>
    match t, d.root.read p with
    | .uint8, some (.uint x) => (.ok (toInt x), d)
    | .uint16, some (.uint x) => (.ok (toInt x), d)
    | .uint32, some (.uint x) => (.ok (toInt x), d)
    | .uint64, some (.uint x) => (.ok (toInt x), d)
    | .string, some (.str s) =>
      match Atoi s with
      | some i => (.ok i, d)
      | none => decodeState.error (.InvalidSavedValueError "int type" (.text s) "" "") d
    | .uint8, _ => (.crash "saved location holds a value of another kind", d)
    | .uint16, _ => (.crash "saved location holds a value of another kind", d)
    | .uint32, _ => (.crash "saved location holds a value of another kind", d)
    | .uint64, _ => (.crash "saved location holds a value of another kind", d)
    | .string, _ => (.crash "saved location holds a value of another kind", d)
    | _, _ => decodeState.error (.InvalidSavedValueError "int type" (.typeValue t) "" "") d

/-- Go's `v.Set(x)` on the value at `p`; `ro` tells that the value was reached through an
unexported field, on which `reflect` panics. -/
def setValue (ro : Bool) (p : Path) (x : Value) : Dec Unit := fun d =>
  if ro then (.crash "reflect: value obtained using unexported field", d)
  else (.ok (), { d with root := d.root.write p x })

/-- A counting loop `for i := from; i < from + count; i++`. -/
def forRange (f : Nat → Dec Unit) : Nat → Nat → Dec Unit
  | 0, _ => pure ()
  | count + 1, i => do
    f i
    forRange f count (i + 1)

/-- The statement `v.Set(reflect.Append(v, reflect.Zero(sliceType)))` of `decodeSlice` for the
slice at `p` with elements of type `elem`. -/
def appendZero (ro : Bool) (elem : GoType) (p : Path) : Dec Unit := fun d =>
  match elem with
  | .ptr _ => (.crash "reflect.Set: value is not assignable to the pointer type", d)
  | _ =>
    match d.root.read p with
    | some cur => setValue ro p (.slice (cur.elems ++ [zeroValue elem])) d
    | none => (.crash "no such location", d)

mutual
/-- Source: `decodeState.value` (with `decodeSlice` and `decodeStruct` in their cases), for the
value of type `t` at `p`. -/
def value : GoType → Path → Bool → Dec Unit
  | .array n t, p, ro => forRange (fun i => value t (p ++ [Step.index i]) ro) n 0
  | .bool, p, ro => do
    let b ← decodeBool
    setValue ro p (.bool b)
  | .uint8, p, ro => do
    let x ← decodeUint8
    setValue ro p (.uint x)
  | .uint16, p, ro => do
    let x ← decodeUint16
    setValue ro p (.uint x)
  | .uint32, p, ro => do
    let x ← decodeUint32
    setValue ro p (.uint x)
  | .uint64, p, ro => do
    let x ← decodeUint64
    setValue ro p (.uint x)
  | .ptr t, p, ro => fun d =>
    match d.root.read p with
    | some .nilPtr =>
      Dec.bind (setValue ro p (.ptr (zeroValue t))) (fun _ => value t (p ++ [Step.elem]) ro) d
    | _ => value t (p ++ [Step.elem]) ro d
  | .slice t, p, ro =>
    -- decodeSlice
    if t = .string then do
      let items ← readStringList
      setValue ro p (if items = [] then .nilSlice else .slice (items.map .str))
    else fun d =>
      if d.tagCache.length = 0 then
        decodeState.error (.TagDefinitionRequiredError "len" "" "") d
      else
        match d.tagCache.get "len" with
        | none => decodeState.error (.TagDefinitionRequiredError "save-" "" "") d
        | some name =>
          Dec.bind (getSavedValueAsInt name) (fun len =>
            forRange (fun i => Dec.bind (appendZero ro t p)
              (fun _ => value t (p ++ [Step.index i]) ro)) len.toNat 0) d
  | .string, p, ro => do
    let s ← decodeString
    setValue ro p (.str s)
  | .struct name fs, p, ro => fun d =>
    -- decodeStruct
    if name = "" then (.crash "panic called with nil argument", d)
    else
      let d1 := { d with errorContext := { d.errorContext with Struct := name },
                         structs := d.structs ++ [name] }
      if ro then (.crash "reflect.Value.Interface: value obtained from unexported field", d1)
      else
        Dec.bind (decodeFields fs 0 p ro)
          (fun _ => Dec.modify (fun d2 => { d2 with structs := d2.structs.dropLast })) d1
  | .other name, _, _ => fun d =>
    decodeState.error (.UnmarshalTypeError "" (.other name) d.off "" "") d
/-- The loop of `decodeStruct` over the fields from number `i` on, of the struct at `p`. -/
def decodeFields : FieldList → Nat → Path → Bool → Dec Unit
  | .nil, _, _, _ => pure ()
  | .cons fname exported _ tag t rest, i, p, ro => fun d =>
    let d1 := { d with tagCache := parseTag tag,
                       errorContext := { d.errorContext with Field := fname } }
    Dec.bind (saveTag t (p ++ [Step.field i])) (fun _ =>
      Dec.bind (value t (p ++ [Step.field i]) (ro || !exported)) (fun _ =>
        Dec.bind (Dec.modify (fun d2 => { d2 with tagCache := [] })) (fun _ =>
          decodeFields rest (i + 1) p ro))) d1
end

/-- Source: `decodeState.unmarshal`; `none` is the nil interface. An error value is recovered
and returned, a run-time panic is raised again. -/
def decodeState.unmarshal (d : decodeState) (v : Option (GoType × Value)) :
    Outcome Unit × decodeState :=
  match v with
  | some (.ptr t, .ptr x) => value (.ptr t) [] false { d with root := .ptr x }
  | some (t, _) => (.error (.InvalidUnmarshalError (some t)), d)
  | none => (.error (.InvalidUnmarshalError none), d)

/-- Source: `Unmarshal`. The outcome `.ok ()` is the return `nil`; the state holds the
destination in `root` (the pointer given, so the value pointed to is one `elem` step away). -/
def Unmarshal (data : List Nat) (v : Option (GoType × Value)) : Outcome Unit × decodeState :=
  (decodeState.init data .nilPtr).unmarshal v

/-! ## Definitions used to state the properties -/

/-- The claim's byte layout: `w` bytes of `x`, least-significant byte first. -/
def leastFirst (w x : Nat) : List Nat := (List.range w).map (fun i => x / 256 ^ i % 256)

/-- The width in bytes of an unsigned integer kind. -/
def uintWidth : GoType → Option Nat
  | .uint8 => some 1
  | .uint16 => some 2
  | .uint32 => some 4
  | .uint64 => some 8
  | _ => none

/-- The error a boolean field meets when the `size` tag is `size` (absent, or another value than
`uint8` and `uint32`), reported for the struct `s` and field `f`. -/
def sizeTagError (size : Option String) (s f : String) : BnetError :=
  match size with
  | none => .TagDefinitionRequiredError "size" s f
  | some val => .InvalidTagValueError "uint8 or uint32" val s f

/-- The field list that `typeFields` computes for a struct without embedded or unexported
fields: the declared fields, field `i` with the index `[i]`. -/
def plainFields : Nat → List StructField → List field
  | _, [] => []
  | i, sf :: sfs => ⟨sf.name, parseTag sf.tag, [i], sf.typ.derefPtr⟩ :: plainFields (i + 1) sfs

/-- Every field is exported and not embedded. -/
def allPlain (sfs : List StructField) : Bool :=
  sfs.all (fun sf => sf.exported && !sf.anonymous)

/-- The position of a field reached by a one-step index. -/
def field.key (f : field) : Nat := f.index.headD 0

mutual
/-- Go's typing of values: `v` is a value of type `t` (an unsigned integer fits its width, an
array has its length, a struct its fields). -/
def hasType : GoType → Value → Bool
  | .bool, .bool _ => true
  | .uint8, .uint x => decide (x < 2 ^ 8)
  | .uint16, .uint x => decide (x < 2 ^ 16)
  | .uint32, .uint x => decide (x < 2 ^ 32)
  | .uint64, .uint x => decide (x < 2 ^ 64)
  | .string, .str _ => true
  | .array n t, .array xs => decide (xs.length = n) && xs.all (fun x => hasType t x)
  | .slice _, .nilSlice => true
  | .slice t, .slice xs => xs.all (fun x => hasType t x)
  | .ptr _, .nilPtr => true
  | .ptr t, .ptr x => hasType t x
  | .struct _ fs, .struct vs => hasFieldTypes fs vs
  | .other _, .other => true
  | _, _ => false
/-- The values of the fields of a struct, in declaration order. -/
def hasFieldTypes : FieldList → List Value → Bool
  | .nil, [] => true
  | .cons _ _ _ _ t rest, v :: vs => hasType t v && hasFieldTypes rest vs
  | _, _ => false
end

mutual
/-- No string inside the value (read at type `t`) holds a zero byte. -/
def zeroFree : GoType → Value → Bool
  | .string, .str s => !s.contains 0
  | .array _ t, .array xs => xs.all (fun x => zeroFree t x)
  | .slice t, .slice xs => xs.all (fun x => zeroFree t x)
  | .ptr t, .ptr x => zeroFree t x
  | .struct _ fs, .struct vs => zeroFreeFields fs vs
  | _, _ => true
/-- No string inside the field values holds a zero byte. -/
def zeroFreeFields : FieldList → List Value → Bool
  | .cons _ _ _ _ t rest, v :: vs => zeroFree t v && zeroFreeFields rest vs
  | _, _ => true
end

mutual
/-- The fixed-shape types of the round-trip property, read with the tags `m` of the enclosing
field: unsigned integers, booleans whose tags give `size` as `uint8` or `uint32`, strings,
non-empty arrays of these, and named structs whose fields are exported, not embedded, of
distinct names and of such types. -/
def fixedShape : GoType → TagMap → Bool
  | .bool, m => m.get "size" == some "uint8" || m.get "size" == some "uint32"
  | .uint8, _ => true
  | .uint16, _ => true
  | .uint32, _ => true
  | .uint64, _ => true
  | .string, _ => true
  | .array n t, m => decide (0 < n) && fixedShape t m
  | .struct name fs, _ =>
    name != "" && fixedFields fs && decide ((fs.toList.map (fun sf => sf.name)).Nodup)
  | _, _ => false
/-- Every field is exported, not embedded and of fixed shape under its own tags. -/
def fixedFields : FieldList → Bool
  | .nil => true
  | .cons _ exported anonymous tag t rest =>
    exported && !anonymous && fixedShape t (parseTag tag) && fixedFields rest
end

/-- The tag cache left behind by the loop over the fields of a struct, when it started with
`m`: it is cleared after each field. -/
def tagsAfterFields : FieldList → TagMap → TagMap
  | .nil, m => m
  | .cons _ _ _ _ _ _, _ => []

/-- The tag cache that encoding or decoding a value of type `t` leaves behind, when it started
with `m`: a struct that has fields clears it after each field. -/
def tagsAfter : GoType → TagMap → TagMap
  | .array n t, m => if n = 0 then m else tagsAfter t m
  | .struct _ fs, m => tagsAfterFields fs m
  | _, m => m

/-- Encoding `v` at type `t` with tags `m` appends exactly the bytes `bs`. -/
def EncodesTo (t : GoType) (m : TagMap) (v : Value) (bs : List Nat) : Prop :=
  ∀ buf : List Nat, encoderByIndex t [] ⟨buf, m⟩ v = .ok ⟨buf ++ bs, tagsAfter t m⟩

/-- Decoding a value of type `t` with tags `m` from the bytes `bs` at the cursor, into any
location that holds a value of type `t`, consumes exactly `bs` and stores `v` there. -/
def DecodesTo (t : GoType) (m : TagMap) (bs : List Nat) (v : Value) : Prop :=
  ∀ (d : decodeState) (p : Path) (pre post : List Nat) (cur : Value),
    d.data = pre ++ (bs ++ post) → d.off = pre.length → d.tagCache = m →
    d.root.read p = some cur → hasType t cur = true →
    ∃ d1, value t p false d = (.ok (), d1) ∧ d1.data = d.data ∧
      d1.off = pre.length + bs.length ∧ d1.tagCache = tagsAfter t m ∧
      d1.root = d.root.write p v

/-- What `uintEncoder` writes for `x` at a kind of `n` bytes. -/
def uintBytes (n : Nat) (big : Bool) (x : Nat) : List Nat :=
  match n, big with
  | 1, _ => [x % 2 ^ 8]
  | 2, false => LittleEndian.PutUint16 (x % 2 ^ 16)
  | 2, true => BigEndian.PutUint16 (x % 2 ^ 16)
  | 4, false => LittleEndian.PutUint32 (x % 2 ^ 32)
  | 4, true => BigEndian.PutUint32 (x % 2 ^ 32)
  | 8, false => LittleEndian.PutUint64 x
  | 8, true => BigEndian.PutUint64 x
  | _, _ => []

/-- What `boolEncoder` writes for `b` under the tags `m`. -/
def boolBytes (m : TagMap) (b : Bool) : List Nat :=
  if m.get "size" = some "uint8" then [if b then 1 else 0]
  else uintBytes 4 (m.get "bigendian").isSome (if b then 1 else 0)

/-- The fixed-shape round trip at one type: what the induction carries. -/
def RoundTrips (t : GoType) : Prop :=
  ∀ (m : TagMap) (v : Value), fixedShape t m = true → hasType t v = true →
    zeroFree t v = true → ∃ bs, EncodesTo t m v bs ∧ DecodesTo t m bs v

/-- The loop of `structEncoder.encode` over the fields `rest`, which stand from position `i` on
in a struct with fields `fsAll`, appends exactly `bs` for the field values `vs`. -/
def FieldsEncodeTo (rest : FieldList) (vs : List Value) (bs : List Nat) : Prop :=
  ∀ (fsAll : FieldList) (i : Nat) (vsAll : List Value) (buf : List Nat) (m0 : TagMap),
    (∀ k, fieldEncoderByIndex fsAll [i + k] = fieldEncoderByIndex rest [k]) →
    vsAll.drop i = vs →
    structEncoder.encode
        ((plainFields i rest.toList).map (fun f => (f, fieldEncoderByIndex fsAll f.index)))
        ⟨buf, m0⟩ (.struct vsAll)
      = .ok ⟨buf ++ bs, tagsAfterFields rest m0⟩

/-- The loop of `decodeStruct` over the fields `rest`, from position `i` on, consumes exactly
`bs` and stores the field values `vs`. -/
def FieldsDecodeTo (rest : FieldList) (bs : List Nat) (vs : List Value) : Prop :=
  ∀ (d : decodeState) (p : Path) (pre post : List Nat) (cs : List Value) (i : Nat),
    d.data = pre ++ (bs ++ post) → d.off = pre.length →
    d.root.read p = some (.struct cs) → hasFieldTypes rest (cs.drop i) = true →
    ∃ d1, decodeFields rest i p false d = (.ok (), d1) ∧ d1.data = d.data ∧
      d1.off = pre.length + bs.length ∧ d1.tagCache = tagsAfterFields rest d.tagCache ∧
      d1.root = d.root.write p (.struct (cs.take i ++ vs))

/-- A struct type with one field of every fixed-shape kind, for the witness. -/
def sampleFixed : FieldList :=
  FieldList.ofList [fld "Flag" "size-uint8" .bool, fld "Port" "bigendian" .uint16,
    fld "IP" "" (.array 4 .uint8), fld "Name" "" .string,
    fld "Inner" "" (structOf "Inner" [fld "A" "" .uint32, fld "B" "size-uint32" .bool])]

/-- A value of the sample struct type. -/
def sampleFixedValue : Value :=
  .struct [.bool true, .uint 6112, .array [.uint 10, .uint 0, .uint 0, .uint 1],
    .str [0x61, 0x62], .struct [.uint 7, .bool false]]

/-- The binding that `saveTag` adds for a field with tags `m`. -/
def savedAfter (m : TagMap) (t : GoType) (p : Path) (saved : List (String × GoType × Path)) :
    List (String × GoType × Path) :=
  match m.get "save" with
  | some name => (name, t, p) :: saved
  | none => saved

/-- The struct of the saved/len property: a count field, tagged to save its value, followed by
a sequence field, tagged to take its length from a saved value. -/
def countedStruct (sname cname iname ctag itag : String) (ct elem : GoType) : GoType :=
  .struct sname (.cons cname true false ctag ct
    (.cons iname true false itag (.slice elem) .nil))

/-- Source: `server.CharListCharacter` (`pkg/mcp/server/charlist.go`), the type. -/
def tCharListCharacter : GoType :=
  structOf "CharListCharacter" [fld "Name" "" .string, fld "Statstring" "" .string]

/-- Source: `server.CharList` (`pkg/mcp/server/charlist.go`), the type. -/
def tCharList : GoType :=
  structOf "CharList" [fld "RequestCount" "" .uint16, fld "ExistCount" "" .uint32,
    fld "ReturnedCount" "save-CLReturned" .uint16,
    fld "Characters" "len-CLReturned" (.slice tCharListCharacter)]

/-- A value of `server.CharListCharacter`. -/
structure CharListCharacter where
  Name : List Nat
  Statstring : List Nat
  deriving DecidableEq, Repr

/-- A value of `server.CharList`. -/
structure CharList where
  RequestCount : Nat
  ExistCount : Nat
  ReturnedCount : Nat
  Characters : List CharListCharacter
  deriving DecidableEq, Repr

/-- The `reflect.Value` of a `CharListCharacter`. -/
def CharListCharacter.toValue (c : CharListCharacter) : Value :=
  .struct [.str c.Name, .str c.Statstring]

/-- The `reflect.Value` of a `CharList` with at least one character. -/
def CharList.toValue (v : CharList) : Value :=
  .struct [.uint v.RequestCount, .uint v.ExistCount, .uint v.ReturnedCount,
    .slice (v.Characters.map CharListCharacter.toValue)]

/-- The bytes of the characters on the wire: the two terminated strings of each, nothing else. -/
def charactersWire (cs : List CharListCharacter) : List Nat :=
  (cs.map (fun c => c.Name ++ [0] ++ (c.Statstring ++ [0]))).flatten

/-- The bytes of a `CharList` on the wire: the three counts, little-endian, and the characters;
no other element count. -/
def CharList.wire (v : CharList) : List Nat :=
  leastFirst 2 v.RequestCount ++ leastFirst 4 v.ExistCount ++ leastFirst 2 v.ReturnedCount
    ++ charactersWire v.Characters

/-- A `CharList` that announces one returned character and carries two, for the witness. -/
def sampleCharList : CharList :=
  { RequestCount := 8, ExistCount := 2, ReturnedCount := 1,
    Characters := [⟨[0x41], [0x42, 0x43]⟩, ⟨[0x44], []⟩] }

/-- The integer that the bytes `raw` stand for at the byte order of the field. -/
def wireValue (big : Bool) (raw : List Nat) : Nat :=
  if big then BigEndian.Uint raw else LittleEndian.Uint raw

/-- The method that decodes an unsigned integer of `w` bytes. -/
def decodeUintOfWidth : Nat → Dec Nat
  | 1 => decodeUint8
  | 2 => decodeUint16
  | 4 => decodeUint32
  | 8 => decodeUint64
  | _ => pure 0

/-- The binding of `name` in `savedValues`: the type and the location of the bound field. -/
def decodeState.saved (d : decodeState) (name : String) : Option (GoType × Path) :=
  (d.savedValues.find? (fun kv => kv.1 == name)).map (fun kv => kv.2)

/-- The loop of `decodeSlice` that appends and decodes `n` elements of type `t` to the slice at
`p`. -/
def decodeElems (ro : Bool) (t : GoType) (p : Path) (n : Nat) : Dec Unit :=
  forRange (fun i => Dec.bind (appendZero ro t p) (fun _ => value t (p ++ [Step.index i]) ro)) n 0

/-- The method never ends with `InvalidUnmarshalError`. -/
def NoTargetError {α : Type} (m : Dec α) : Prop :=
  ∀ (d : decodeState) (ty : Option GoType), (m d).1 ≠ .error (.InvalidUnmarshalError ty)

/-- The error is made by `decodeState.error` somewhere in the engine: it is no
`InvalidUnmarshalError`. -/
def BnetError.isTarget : BnetError → Bool
  | .InvalidUnmarshalError _ => true
  | _ => false

/-- The text of a token before its first `-` (the whole token when it has none). -/
def tokenKey (tok : List Char) : String := String.mk (tok.takeWhile (· != '-'))

/-- The text of a token after its first `-` (empty when it has none). -/
def tokenAfter (tok : List Char) : List Char := (tok.dropWhile (· != '-')).drop 1

/-- The last of the tokens whose key is `k`: the one that decides in a map filled token by
token. -/
def lastToken (toks : List (List Char)) (k : String) : Option (List Char) :=
  toks.reverse.find? (fun tok => tokenKey tok == k)

/-- The map of the parsing rule on annotations whose tokens hold at most one `-`, as its lookup:
the comma-separated tokens send their text before the `-` to their text after the `-`, a later
token overriding an earlier one. -/
def annotationMap (tag : String) (k : String) : Option String :=
  (lastToken (tag.data.splitOn ',') k).map (fun tok => String.mk (tokenAfter tok))

/-- The map that `parseTag` builds for any annotation, as its lookup: the value of a token is its
text between the first and the second `-`; the annotations `-` and the empty one have no
key. -/
def annotationMapCut (tag : String) (k : String) : Option String :=
  if tag = "-" ∨ tag = "" then none
  else (lastToken (tag.data.splitOn ',') k).map
    (fun tok => String.mk ((tokenAfter tok).takeWhile (· != '-')))

/-- An embedded (anonymous) field of a named struct type with the fields `fs`. -/
def embedded (name : String) (fs : List StructField) : StructField :=
  ⟨name, true, true, "", structOf name fs⟩

/-- A struct type `S` that embeds `A` and `B`, which both embed `C`, which embeds `E` with the
field `G`: `G` is reachable at depth 4 through `A` and through `B`. -/
def twiceEmbedded : GoType :=
  structOf "S"
    [embedded "A" [embedded "C" [embedded "E" [fld "G" "" .uint8]]],
     embedded "B" [embedded "C" [embedded "E" [fld "G" "" .uint8]]]]

/-- The exported fields among the declared ones, in declaration order, the field declared at
position `i` with the index path `[i]`. -/
def exportedFields : Nat → List StructField → List field
  | _, [] => []
  | i, sf :: sfs =>
    if sf.exported then
      ⟨sf.name, parseTag sf.tag, [i], sf.typ.derefPtr⟩ :: exportedFields (i + 1) sfs
    else exportedFields (i + 1) sfs

/-- The bytes of a name, by which Go orders strings. -/
def nameKey (s : String) : List Nat := s.data.map Char.toNat

/-- The record stands for a declared field of the type tree of `t`: its index leads, through
`typeByIndex`, to a struct type of which it names the field. -/
def Located (t : GoType) (f : field) : Prop :=
  ∃ (pre : List Nat) (i : Nat) (ty : GoType) (sf : StructField),
    f.index = pre ++ [i] ∧ typeByIndex t pre = some ty ∧
    ty.derefPtr.structFields[i]? = some sf ∧ f.name = sf.name

/-- The queue entry stands for the struct type that its index leads to in the type tree of
`t`. -/
def Queued (t : GoType) (g : field) : Prop :=
  ∃ ty : GoType, typeByIndex t g.index = some ty ∧ g.typ = ty.derefPtr

/-- What the scan of `typeFields` maintains: the fields found stand for declared fields, the
entries queued for struct types, of the type tree of `t`. -/
def ScanInv (t : GoType) (s : scanState) : Prop :=
  (∀ f ∈ s.fields, Located t f) ∧ (∀ g ∈ s.next, Queued t g)

/-- The struct types queued for the next level are nested less deeply than `b`. -/
def NestInv (b : Nat) (s : scanState) : Prop :=
  ∀ g ∈ s.next, 1 ≤ g.typ.nesting ∧ g.typ.nesting < b

/-- The encoder only appends to the buffer. -/
def Appends (enc : encoderFunc) : Prop :=
  ∀ (e : encodeState) (v : Value) (e1 : encodeState), enc e v = .ok e1 →
    ∃ bs : List Nat, e1.buf = e.buf ++ bs

/-- The loop of `structEncoder.encode` over the fields `l`, started on the buffer `buf`, writes
the chunks `bss`, one for each field in the order of the list: the encoder of a field meets
the buffer that holds the chunks of the fields before it, and appends its own. -/
def WritesInOrder : List (field × encoderFunc) → Value → List Nat → List (List Nat) → Prop
  | [], _, _, [] => True
  | (f, enc) :: rest, v, buf, bs :: bss =>
    (∃ (fv : Value) (tags : TagMap), fieldByIndex v f.index = .ok fv ∧
      enc ⟨buf, f.tags⟩ fv = .ok ⟨buf ++ bs, tags⟩) ∧
    WritesInOrder rest v (buf ++ bs) bss
  | _, _, _, _ => False

/-- A struct type with an unexported field between exported ones, for the witness. -/
def sampleMixed : FieldList :=
  FieldList.ofList [fld "A" "" .uint8, ⟨"b", false, false, "", .uint8⟩,
    fld "C" "bigendian" .uint16, fld "D" "" .string]

/-- A struct type `T` whose field `B` is declared after the nested-struct field `Inner` of the
named type `I`. -/
def nestedThenField : GoType :=
  structOf "T" [fld "Inner" "" (structOf "I" [fld "A" "" .uint8]), fld "B" "" .uint32]

/-- A struct type `S` whose sequence field `Items` takes its length from the name `N`, which no
field binds. -/
def unboundLen : GoType := structOf "S" [fld "Items" "len-N" (.slice .uint8)]

/-- A struct type with an unsigned 8-bit field `A` followed by a string field `B`. -/
def byteThenString : GoType := structOf "P" [fld "A" "" .uint8, fld "B" "" .string]

/-- Modelled from the spec: the type `mcp.Header` that the examples use, whose declaration is
missing from the sources: a 16-bit `Length` followed by an 8-bit `MessageID` (of the type
`mcp.MessageID`, a `uint8`), without annotations. -/
def tHeader : GoType := structOf "Header" [fld "Length" "" .uint16, fld "MessageID" "" .uint8]

/-- Modelled from the spec: the type `server.CharLogon` that the example decodes into, whose
declaration is missing from the sources: a body whose first and only field is a `uint32`. -/
def tCharLogon : GoType := structOf "CharLogon" [fld "Result" "" .uint32]

/-- The buffer of `examples/unmarshal-server-charlogon`. -/
def charLogonData : List Nat := [0x09, 0x00, 0x07, 0x01, 0x00, 0x00, 0x00]

/-- Source: `server.LogonRealmEx` (bnet-bncs, `pkg/bncs/server/logonrealmex.go`), the type. -/
def tLogonRealmEx : GoType :=
  structOf "LogonRealmEx" [fld "MCPCookie" "" .uint32, fld "MCPStatus" "" .uint32,
    fld "Chunk1" "" (.array 2 .uint32), fld "IP" "" (.array 4 .uint8),
    fld "Port" "bigendian" .uint16, fld "Unknown1" "" (.array 2 .uint8),
    fld "Chunk2" "" (.array 12 .uint32), fld "Name" "" .string]

/-- A value of `server.LogonRealmEx`. -/
structure LogonRealmEx where
  MCPCookie : Nat
  MCPStatus : Nat
  Chunk1 : List Nat
  IP : List Nat
  Port : Nat
  Unknown1 : List Nat
  Chunk2 : List Nat
  Name : List Nat
  deriving DecidableEq, Repr

/-- The `reflect.Value` of a `LogonRealmEx`. -/
def LogonRealmEx.toValue (v : LogonRealmEx) : Value :=
  .struct [.uint v.MCPCookie, .uint v.MCPStatus, .array (v.Chunk1.map .uint),
    .array (v.IP.map .uint), .uint v.Port, .array (v.Unknown1.map .uint),
    .array (v.Chunk2.map .uint), .str v.Name]

/-- The claim's layout of a `LogonRealmEx` on the wire: the fields in declaration order, the
32-bit integers least-significant byte first, `Port` most-significant byte first, the bytes of
`Name` and one zero byte; nothing between the fields. -/
def LogonRealmEx.wire (v : LogonRealmEx) : List Nat :=
  leastFirst 4 v.MCPCookie ++ leastFirst 4 v.MCPStatus ++ (v.Chunk1.map (leastFirst 4)).flatten
    ++ v.IP ++ [v.Port / 256, v.Port % 256] ++ v.Unknown1
    ++ (v.Chunk2.map (leastFirst 4)).flatten ++ v.Name ++ [0]

/-- A `LogonRealmEx` for the witness: port 6112 (`0x17E0`). -/
def sampleLogonRealmEx : LogonRealmEx :=
  { MCPCookie := 0x01020304, MCPStatus := 5, Chunk1 := [6, 7], IP := [10, 0, 0, 1],
    Port := 6112, Unknown1 := [8, 9], Chunk2 := [1, 2, 3, 4, 5, 6, 7, 8, 9, 10, 11, 0x0A0B0C0D],
    Name := [0x61, 0x62] }

/-! ## Basic facts about the decoder monad and the leaf functions -/

theorem Dec.bind_eq {α β : Type} (m : Dec α) (f : α → Dec β) (d : decodeState) :
    (m >>= f) d = Dec.bind m f d := rfl

theorem Dec.pure_eq {α : Type} (a : α) (d : decodeState) :
    (pure a : Dec α) d = (.ok a, d) := rfl

theorem leastFirst_length (w x : Nat) : (leastFirst w x).length = w := by
  simp [leastFirst]

theorem encodeElems_string (ss : List (List Nat)) (e : encodeState) :
    encodeElems stringEncoder (ss.map Value.str) e
      = .ok { e with buf := e.buf ++ (ss.map (fun s => s ++ [0])).flatten } := by
  induction ss generalizing e with
  | nil => simp [encodeElems]
  | cons s ss ih => simp [encodeElems, stringEncoder, ih, List.append_assoc]

theorem readStringScan_found (data : List Nat) (off k : Nat)
    (hzero : data[off + k]? = some 0)
    (hfirst : ∀ j, j < k → data[off + j]? ≠ some 0) :
    ∀ (left n : Nat), n ≤ k → k < n + left → readStringScan data off left n = some k := by
  intro left
  induction left with
  | zero => intro n h1 h2; omega
  | succ left ih =>
    intro n h1 h2
    rw [readStringScan]
    by_cases hn : n = k
    · subst hn
      simp [hzero]
    · have hlt : n < k := by omega
      have hlen : off + k < data.length := by
        by_contra hc
        rw [List.getElem?_eq_none (by omega)] at hzero
        exact absurd hzero (by simp)
      have hin : off + n < data.length := by omega
      have hne := hfirst n hlt
      rw [List.getElem?_eq_getElem hin] at hne ⊢
      have hb : data[off + n] ≠ 0 := fun h => hne (by rw [h])
      simp only [hb, if_false]
      exact ih (n + 1) (by omega) (by omega)

theorem readString_found (d : decodeState) (k : Nat)
    (hzero : d.data[d.off + k]? = some 0)
    (hfirst : ∀ j, j < k → d.data[d.off + j]? ≠ some 0) :
    readString d = (.ok ((d.data.drop d.off).take k), { d with off := d.off + k + 1 }) := by
  have hlen : d.off + k < d.data.length := by
    by_contra hc
    rw [List.getElem?_eq_none (by omega)] at hzero
    exact absurd hzero (by simp)
  have hscan := readStringScan_found d.data d.off k hzero hfirst d.data.length 0
    (by omega) (by omega)
  unfold readString
  rw [hscan]
  simp only [show ¬ (d.off + k > d.data.length) by omega, if_false]

/-- Reading a string that stands, terminated, at the cursor. -/
theorem readString_at (d : decodeState) (pre s rest : List Nat)
    (hd : d.data = pre ++ (s ++ 0 :: rest)) (hoff : d.off = pre.length) (hs : 0 ∉ s) :
    readString d = (.ok s, { d with off := pre.length + s.length + 1 }) := by
  have h := readString_found d s.length
    (by rw [hd, hoff, List.getElem?_append_right (by omega)]
        simp only [Nat.add_sub_cancel_left]
        rw [List.getElem?_append_right (le_refl _)]
        simp)
    (by
      intro j hj
      rw [hd, hoff, List.getElem?_append_right (by omega)]
      simp only [Nat.add_sub_cancel_left]
      rw [List.getElem?_append_left hj, List.getElem?_eq_getElem hj]
      intro hc
      simp only [Option.some.injEq] at hc
      exact hs (hc ▸ List.getElem_mem hj))
  rw [h, hd, hoff]
  simp

theorem readStringListLoop_encoded (ss : List (List Nat)) :
    ∀ (fuel : Nat) (items : List (List Nat)) (d : decodeState) (pre post : List Nat),
      (∀ s ∈ ss, s ≠ [] ∧ 0 ∉ s) → ss.length < fuel →
      d.data = pre ++ ((ss.map (fun s => s ++ [0])).flatten ++ 0 :: post) →
      d.off = pre.length →
      readStringListLoop fuel items d
        = (.ok (items ++ ss),
           { d with off := pre.length + ((ss.map (fun s => s ++ [0])).flatten ++ [0]).length }) := by
  induction ss with
  | nil =>
    intro fuel items d pre post _ hfuel hd hoff
    obtain ⟨fuel, rfl⟩ : ∃ f, fuel = f + 1 := ⟨fuel - 1, by simp at hfuel; omega⟩
    have h := readString_at d pre [] post (by simpa using hd) hoff (by simp)
    simp [readStringListLoop, bind, Dec.bind, h, pure]
  | cons s ss ih =>
    intro fuel items d pre post hall hfuel hd hoff
    obtain ⟨fuel, rfl⟩ : ∃ f, fuel = f + 1 := ⟨fuel - 1, by simp at hfuel; omega⟩
    have hs := hall s (by simp)
    have h := readString_at d pre s ((ss.map (fun s => s ++ [0])).flatten ++ 0 :: post)
      (by simpa [List.append_assoc] using hd) hoff hs.2
    have hlen : s.length ≠ 0 := by
      intro hc; exact hs.1 (List.length_eq_zero.mp hc)
    have ih2 := ih fuel (items ++ [s]) { d with off := pre.length + s.length + 1 } (pre ++ s ++ [0])
      post (fun t ht => hall t (by simp [ht])) (by simp at hfuel; omega)
      (by simp [hd, List.append_assoc]) (by simp; omega)
    simp only [readStringListLoop, bind, Dec.bind, h, hlen, ne_eq, not_false_eq_true, if_true]
    rw [ih2]
    simp [List.append_assoc]
    omega

theorem addErrorContext_sizeTagError (d : decodeState) (size : Option String) :
    d.addErrorContext (sizeTagError size "" "")
      = sizeTagError size d.errorContext.Struct d.errorContext.Field := by
  cases size <;> simp only [decodeState.addErrorContext, sizeTagError] <;> split
  · rfl
  · rename_i h
    simp only [not_or, not_not] at h
    rw [h.1, h.2]
  · rfl
  · rename_i h
    simp only [not_or, not_not] at h
    rw [h.1, h.2]

/-! ## `typeFields` on structs without embedded fields -/

theorem scanFields_plain (count : List (GoType × Nat)) (f : field)
    (hcount : countOf count f.typ = 0) (hidx : f.index = []) :
    ∀ (sfs : List StructField) (i : Nat) (s : scanState), allPlain sfs = true →
      scanFields count f i sfs s = { s with fields := s.fields ++ plainFields i sfs } := by
  intro sfs
  induction sfs with
  | nil => intro i s _; simp [scanFields, plainFields]
  | cons sf sfs ih =>
    intro i s h
    simp only [allPlain, List.all_cons, Bool.and_eq_true, Bool.not_eq_true'] at h
    obtain ⟨⟨hex, han⟩, hrest⟩ := h
    have hstep : scanField count f i sf s
        = { s with fields := s.fields ++ [⟨sf.name, parseTag sf.tag, [i], sf.typ.derefPtr⟩] } := by
      simp [scanField, hex, han, hcount, hidx]
    rw [scanFields, hstep, ih (i + 1) _ (by simpa [allPlain] using hrest)]
    simp [plainFields]

theorem scanLevels_plain (name : String) (fs : FieldList) (fuel : Nat)
    (h : allPlain fs.toList = true) :
    scanLevels (fuel + 1) [] [] [⟨"", [], [], .struct name fs⟩] [] = plainFields 0 fs.toList := by
  have hs := scanFields_plain [] ⟨"", [], [], .struct name fs⟩ (by simp [countOf]) rfl
    fs.toList 0 ⟨[.struct name fs], [], [], []⟩ h
  simp only [scanLevels, List.length_singleton, Nat.lt_one_iff, gt_iff_lt, zero_lt_one, if_true,
    scanLevel, List.contains_nil, Bool.false_eq_true, if_false, GoType.structFields]
  rw [hs]
  cases fuel <;> simp [scanLevels]

theorem plainFields_names (sfs : List StructField) (i : Nat) :
    (plainFields i sfs).map (fun f => f.name) = sfs.map (fun sf => sf.name) := by
  induction sfs generalizing i with
  | nil => rfl
  | cons sf sfs ih => simp [plainFields, ih]

theorem hideFields_nodup : ∀ (fs : List field) (r : field),
    ((r :: fs).map (fun f => f.name)).Nodup → hideFields fs [r] = r :: fs := by
  intro fs
  induction fs with
  | nil => intro r _; simp [hideFields, keepRun]
  | cons f fs ih =>
    intro r h
    have hne : f.name ≠ r.name := by
      intro hc
      simp only [List.map_cons, List.nodup_cons, List.mem_cons, not_or] at h
      exact h.1.1 hc.symm
    have h2 : ((f :: fs).map (fun f => f.name)).Nodup := by
      simp only [List.map_cons, List.nodup_cons] at h ⊢
      exact h.2
    simp [hideFields, hne, keepRun, ih f h2]

theorem hideFields_nodup_nil (fs : List field) (h : (fs.map (fun f => f.name)).Nodup) :
    hideFields fs [] = fs := by
  cases fs with
  | nil => simp [hideFields, keepRun]
  | cons f fs => simp [hideFields, hideFields_nodup fs f h]

theorem byIndexLess_singleton (i j : Nat) : byIndexLess [i] [j] = decide (i < j) := by
  by_cases h : i = j
  · subst h; simp [byIndexLess]
  · simp [byIndexLess, h]

theorem orderedInsert_keys (a : field) : ∀ (s : List field),
    (∀ x ∈ a :: s, x.index = [x.key]) →
    (s.map field.key).Pairwise (· < ·) → a.key ∉ s.map field.key →
    ((List.orderedInsert (fun a b => byIndexLess a.index b.index = true) a s).map
      field.key).Pairwise (· < ·) := by
  intro s
  induction s with
  | nil => intro _ _ _; simp
  | cons b s ih =>
    intro hidx hs hnot
    have ha := hidx a (by simp)
    have hb := hidx b (by simp)
    have hlt : byIndexLess a.index b.index = decide (a.key < b.key) := by
      rw [ha, hb, byIndexLess_singleton]
    simp only [List.map_cons, List.pairwise_cons] at hs
    simp only [List.map_cons, List.mem_cons, not_or] at hnot
    rw [List.orderedInsert]
    by_cases hab : a.key < b.key
    · simp only [hlt, hab, decide_True, if_true, List.map_cons, List.pairwise_cons]
      refine ⟨?_, hs.1, hs.2⟩
      intro k hk
      simp only [List.mem_cons] at hk
      rcases hk with rfl | hk
      · exact hab
      · exact lt_trans hab (hs.1 k hk)
    · simp only [hlt, hab, decide_False, Bool.false_eq_true, if_false, List.map_cons,
        List.pairwise_cons]
      refine ⟨?_, ih (fun x hx => hidx x (by
        simp only [List.mem_cons] at hx ⊢
        rcases hx with h | h
        · exact Or.inl h
        · exact Or.inr (Or.inr h))) hs.2 hnot.2⟩
      intro k hk
      have hperm := (List.perm_orderedInsert
        (fun a b => byIndexLess a.index b.index = true) a s).map field.key
      have hk2 := hperm.mem_iff.mp hk
      simp only [List.map_cons, List.mem_cons] at hk2
      rcases hk2 with rfl | hk2
      · have := hnot.1
        omega
      · exact hs.1 k hk2

theorem sortBy_keys : ∀ (l : List field),
    (∀ x ∈ l, x.index = [x.key]) → (l.map field.key).Nodup →
    ((sortBy (fun a b => byIndexLess a.index b.index) l).map field.key).Pairwise (· < ·) := by
  intro l
  induction l with
  | nil => intro _ _; simp [sortBy]
  | cons a l ih =>
    intro hidx hnd
    simp only [List.map_cons, List.nodup_cons] at hnd
    have hperm : (List.insertionSort (fun a b => byIndexLess a.index b.index = true) l).Perm l :=
      List.perm_insertionSort _ l
    simp only [sortBy, List.insertionSort] at ih ⊢
    apply orderedInsert_keys
    · intro x hx
      simp only [List.mem_cons] at hx
      rcases hx with rfl | hx
      · exact hidx _ (by simp)
      · exact hidx x (by simp [hperm.mem_iff.mp hx])
    · exact ih (fun x hx => hidx x (by simp [hx])) hnd.2
    · intro hc
      exact hnd.1 ((hperm.map field.key).mem_iff.mp hc)

theorem sortBy_perm (less : field → field → Bool) (l : List field) : (sortBy less l).Perm l :=
  List.perm_insertionSort _ l

theorem plainFields_keys (sfs : List StructField) (i : Nat) :
    (∀ x ∈ plainFields i sfs, x.index = [x.key]) ∧
    (∀ k ∈ (plainFields i sfs).map field.key, i ≤ k) ∧
    ((plainFields i sfs).map field.key).Pairwise (· < ·) := by
  induction sfs generalizing i with
  | nil => simp [plainFields]
  | cons sf sfs ih =>
    obtain ⟨h1, h2, h3⟩ := ih (i + 1)
    refine ⟨?_, ?_, ?_⟩
    · intro x hx
      simp only [plainFields, List.mem_cons] at hx
      rcases hx with rfl | hx
      · simp [field.key]
      · exact h1 x hx
    · intro k hk
      simp only [plainFields, List.map_cons, List.mem_cons] at hk
      rcases hk with rfl | hk
      · simp [field.key]
      · have := h2 k hk
        omega
    · simp only [plainFields, List.map_cons, List.pairwise_cons]
      refine ⟨?_, h3⟩
      intro k hk
      have := h2 k hk
      simp only [field.key, List.headD_cons]
      omega

theorem field_key_antisymm : IsAntisymm field (fun a b => a.key < b.key) :=
  ⟨fun _ _ h1 h2 => absurd h1 (by omega)⟩

/-- For a struct whose fields are all exported and not embedded and carry distinct names,
`typeFields` returns the declared fields in declaration order, field `i` with index `[i]`. -/
theorem typeFields_plain (name : String) (fs : FieldList)
    (hplain : allPlain fs.toList = true)
    (hnames : (fs.toList.map (fun sf => sf.name)).Nodup) :
    typeFields (.struct name fs) = plainFields 0 fs.toList := by
  have hscan := scanLevels_plain name fs (GoType.struct name fs).nesting hplain
  obtain ⟨hkey, _, hsorted⟩ := plainFields_keys fs.toList 0
  unfold typeFields
  simp only [hscan]
  have hp1 := sortBy_perm nameLess (plainFields 0 fs.toList)
  have hn1 : ((sortBy nameLess (plainFields 0 fs.toList)).map (fun f => f.name)).Nodup := by
    rw [(hp1.map _).nodup_iff, plainFields_names]
    exact hnames
  rw [hideFields_nodup_nil _ hn1]
  have hp2 := sortBy_perm (fun a b => byIndexLess a.index b.index)
    (sortBy nameLess (plainFields 0 fs.toList))
  have hs2 := sortBy_keys (sortBy nameLess (plainFields 0 fs.toList))
    (fun x hx => hkey x (hp1.mem_iff.mp hx))
    (by rw [(hp1.map _).nodup_iff]; exact hsorted.imp (fun h => Nat.ne_of_lt h))
  haveI := field_key_antisymm
  exact List.eq_of_perm_of_sorted (r := fun a b : field => a.key < b.key) (hp2.trans hp1)
    (List.pairwise_map.mp hs2) (List.pairwise_map.mp hsorted)

/-! ## The destination store -/

theorem Value.read_append (p q : Path) : ∀ (r : Value),
    r.read (p ++ q) = (r.read p).bind (fun c => c.read q) := by
  induction p with
  | nil => intro r; simp [Value.read]
  | cons s p ih =>
    intro r
    simp only [List.cons_append, Value.read]
    cases r.child s with
    | none => simp
    | some c => simp [ih c]

theorem Value.child_setChild (r : Value) (s : Step) (c x : Value) (h : r.child s = some c) :
    (r.setChild s x).child s = some x := by
  cases s <;> cases r <;> simp_all [Value.child, Value.setChild] <;>
    (rename_i i xs; exact List.getElem?_set_self (List.getElem?_eq_some.mp h).1)

theorem Value.setChild_setChild (r : Value) (s : Step) (c x y : Value)
    (h : r.child s = some c) : (r.setChild s x).setChild s y = r.setChild s y := by
  cases s <;> cases r <;> simp_all [Value.child, Value.setChild]

theorem Value.read_write (p : Path) : ∀ (r c x : Value), r.read p = some c →
    (r.write p x).read p = some x := by
  induction p with
  | nil => intro r c x _; simp [Value.read, Value.write]
  | cons s p ih =>
    intro r c x h
    simp only [Value.read] at h
    cases hc : r.child s with
    | none => simp [hc] at h
    | some c1 =>
      simp only [hc] at h
      simp only [Value.write, hc, Value.read]
      rw [Value.child_setChild r s c1 _ hc]
      exact ih c1 c x h

theorem Value.write_write (p : Path) : ∀ (r c x y : Value), r.read p = some c →
    (r.write p x).write p y = r.write p y := by
  induction p with
  | nil => intro r c x y _; simp [Value.write]
  | cons s p ih =>
    intro r c x y h
    simp only [Value.read] at h
    cases hc : r.child s with
    | none => simp [hc] at h
    | some c1 =>
      simp only [hc] at h
      simp only [Value.write, hc]
      rw [Value.child_setChild r s c1 _ hc]
      simp only [Value.setChild_setChild r s c1 _ _ hc, ih c1 c x y h]

theorem Value.write_append (p q : Path) : ∀ (r c y : Value), r.read p = some c →
    r.write (p ++ q) y = r.write p (c.write q y) := by
  induction p with
  | nil => intro r c y h; simp [Value.read] at h; simp [Value.write, h]
  | cons s p ih =>
    intro r c y h
    simp only [Value.read] at h
    cases hc : r.child s with
    | none => simp [hc] at h
    | some c1 =>
      simp only [hc] at h
      have := ih c1 c y h
      show (r.write (s :: (p ++ q)) y) = _
      simp only [Value.write, hc, this]

/-! ## Scalars: what is written is what is read -/

theorem readBytes_at (d : decodeState) (pre bs post : List Nat)
    (hd : d.data = pre ++ (bs ++ post)) (hoff : d.off = pre.length) :
    readBytes bs.length d = (.ok bs, { d with off := pre.length + bs.length }) := by
  unfold readBytes
  have h : ¬ (d.off + bs.length > d.data.length) := by
    rw [hd, hoff]; simp
  simp only [h, if_false, hd, hoff]
  simp

theorem uint_round_trip (x : Nat) :
    (x < 2 ^ 16 → LittleEndian.Uint (LittleEndian.PutUint16 x) = x ∧
      BigEndian.Uint (BigEndian.PutUint16 x) = x) ∧
    (x < 2 ^ 32 → LittleEndian.Uint (LittleEndian.PutUint32 x) = x ∧
      BigEndian.Uint (BigEndian.PutUint32 x) = x) ∧
    (x < 2 ^ 64 → LittleEndian.Uint (LittleEndian.PutUint64 x) = x ∧
      BigEndian.Uint (BigEndian.PutUint64 x) = x) := by
  refine ⟨fun h => ⟨?_, ?_⟩, fun h => ⟨?_, ?_⟩, fun h => ⟨?_, ?_⟩⟩ <;>
    simp [LittleEndian.Uint, BigEndian.Uint, LittleEndian.PutUint16, LittleEndian.PutUint32,
      LittleEndian.PutUint64, BigEndian.PutUint16, BigEndian.PutUint32, BigEndian.PutUint64,
      byte, Nat.shiftRight_eq_div_pow] <;> omega

theorem decodeUintN_at (n : Nat) (hn : n = 2 ∨ n = 4 ∨ n = 8) (x : Nat) (hx : x < 2 ^ (8 * n))
    (d : decodeState) (pre post : List Nat)
    (hd : d.data = pre ++ (uintBytes n (d.tagCache.get "bigendian").isSome x ++ post))
    (hoff : d.off = pre.length) :
    decodeUintN n d = (.ok x, { d with off := pre.length + n }) := by
  have hr := uint_round_trip x
  cases hb : (d.tagCache.get "bigendian").isSome <;> rw [hb] at hd <;>
    rcases hn with rfl | rfl | rfl <;>
    simp only [uintBytes, Nat.mod_eq_of_lt hx] at hd <;>
    simp only [decodeUintN, hb, Bool.false_eq_true, if_false, if_true, bind, Dec.bind] <;>
    first
    | rw [show (2 : Nat) = (LittleEndian.PutUint16 x).length from rfl, readBytes_at d pre _ post hd hoff]
    | rw [show (4 : Nat) = (LittleEndian.PutUint32 x).length from rfl, readBytes_at d pre _ post hd hoff]
    | rw [show (8 : Nat) = (LittleEndian.PutUint64 x).length from rfl, readBytes_at d pre _ post hd hoff]
    | rw [show (2 : Nat) = (BigEndian.PutUint16 x).length from rfl, readBytes_at d pre _ post hd hoff]
    | rw [show (4 : Nat) = (BigEndian.PutUint32 x).length from rfl, readBytes_at d pre _ post hd hoff]
    | rw [show (8 : Nat) = (BigEndian.PutUint64 x).length from rfl, readBytes_at d pre _ post hd hoff]
  all_goals simp only [pure, Prod.mk.injEq, Outcome.ok.injEq, and_true]
  all_goals first
    | exact (hr.1 hx).1 | exact (hr.1 hx).2 | exact (hr.2.1 hx).1 | exact (hr.2.1 hx).2
    | exact (hr.2.2 hx).1

theorem uintN_encodes_decodes (t : GoType) (n : Nat)
    (hk : (t = .uint16 ∧ n = 2) ∨ (t = .uint32 ∧ n = 4) ∨ (t = .uint64 ∧ n = 8))
    (m : TagMap) (x : Nat) (hx : x < 2 ^ (8 * n)) :
    EncodesTo t m (.uint x) (uintBytes n (m.get "bigendian").isSome x) ∧
    DecodesTo t m (uintBytes n (m.get "bigendian").isSome x) (.uint x) := by
  have hn : n = 2 ∨ n = 4 ∨ n = 8 := by
    rcases hk with h | h | h
    · exact Or.inl h.2
    · exact Or.inr (Or.inl h.2)
    · exact Or.inr (Or.inr h.2)
  have hlen : (uintBytes n (m.get "bigendian").isSome x).length = n := by
    rcases hn with rfl | rfl | rfl <;> cases (m.get "bigendian").isSome <;> rfl
  constructor
  · intro buf
    rcases hk with ⟨rfl, rfl⟩ | ⟨rfl, rfl⟩ | ⟨rfl, rfl⟩ <;>
      cases hb : (m.get "bigendian").isSome <;>
      simp [encoderByIndex, uintEncoder, Value.Uint, hb, uintBytes, tagsAfter]
  · intro d p pre post cur hd hoff htag _ _
    have hdec := decodeUintN_at n hn x hx d pre post (by rw [htag]; exact hd) hoff
    refine ⟨{ d with off := pre.length + n, root := d.root.write p (.uint x) }, ?_, rfl, ?_, ?_,
      rfl⟩
    · rcases hk with ⟨rfl, rfl⟩ | ⟨rfl, rfl⟩ | ⟨rfl, rfl⟩ <;>
        simp [value, bind, Dec.bind, decodeUint16, decodeUint32, decodeUint64, hdec, setValue]
    · simp [hlen]
    · rcases hk with ⟨rfl, rfl⟩ | ⟨rfl, rfl⟩ | ⟨rfl, rfl⟩ <;> simp [tagsAfter, htag]

theorem uint8_encodes_decodes (m : TagMap) (x : Nat) (hx : x < 2 ^ 8) :
    EncodesTo .uint8 m (.uint x) [x] ∧ DecodesTo .uint8 m [x] (.uint x) := by
  constructor
  · intro buf
    have hx2 : x < 256 := hx
    simp [encoderByIndex, uintEncoder, Value.Uint, tagsAfter, Nat.mod_eq_of_lt hx2]
  · intro d p pre post cur hd hoff htag _ _
    have hr := readBytes_at d pre [x] post hd hoff
    refine ⟨{ d with off := pre.length + 1, root := d.root.write p (.uint x) }, ?_, rfl, rfl, ?_,
      rfl⟩
    · simp only [List.length_singleton] at hr
      simp [value, bind, Dec.bind, decodeUint8, hr, setValue, pure]
    · simp [tagsAfter, htag]

theorem string_encodes_decodes (m : TagMap) (s : List Nat) (hs : 0 ∉ s) :
    EncodesTo .string m (.str s) (s ++ [0]) ∧ DecodesTo .string m (s ++ [0]) (.str s) := by
  constructor
  · intro buf
    simp [encoderByIndex, stringEncoder, tagsAfter]
  · intro d p pre post cur hd hoff htag _ _
    have hr := readString_at d pre s post (by simpa using hd) hoff hs
    refine ⟨{ d with off := pre.length + s.length + 1, root := d.root.write p (.str s) }, ?_, rfl,
      ?_, ?_, rfl⟩
    · simp [value, bind, Dec.bind, decodeString, hr, setValue]
    · simp; omega
    · simp [tagsAfter, htag]

theorem bool_encodes_decodes (m : TagMap) (b : Bool) (hm : fixedShape .bool m = true) :
    EncodesTo .bool m (.bool b) (boolBytes m b) ∧ DecodesTo .bool m (boolBytes m b) (.bool b) := by
  simp only [fixedShape, Bool.or_eq_true, beq_iff_eq] at hm
  constructor
  · intro buf
    rcases hm with h | h <;> cases b <;> cases hb : (m.get "bigendian").isSome <;>
      simp [encoderByIndex, boolEncoder, h, uintEncoder, Value.Uint, hb, boolBytes, uintBytes,
        tagsAfter]
  · intro d p pre post cur hd hoff htag _ _
    rcases hm with h | h
    · have hbytes : boolBytes m b = [if b then 1 else 0] := by simp [boolBytes, h]
      rw [hbytes] at hd
      have hr := readBytes_at d pre [if b then 1 else 0] post hd hoff
      simp only [List.length_singleton] at hr
      refine ⟨{ d with off := pre.length + 1, root := d.root.write p (.bool b) }, ?_, rfl, ?_, ?_,
        rfl⟩
      · cases b <;>
          simp [value, bind, Dec.bind, decodeBool, htag, h, decodeUint8, hr, setValue, pure]
      · simp [hbytes]
      · simp [tagsAfter, htag]
    · have hbytes : boolBytes m b
          = uintBytes 4 (m.get "bigendian").isSome (if b then 1 else 0) := by
        simp [boolBytes, h]
      rw [hbytes] at hd
      have hx : (if b then 1 else 0) < 2 ^ (8 * 4) := by cases b <;> simp
      have hr := decodeUintN_at 4 (by simp) (if b then 1 else 0) hx d pre post
        (by rw [htag]; exact hd) hoff
      refine ⟨{ d with off := pre.length + 4, root := d.root.write p (.bool b) }, ?_, rfl, ?_, ?_,
        rfl⟩
      · cases b <;>
          simp [value, bind, Dec.bind, decodeBool, htag, h, decodeUint32, hr, setValue, pure]
      · rw [hbytes]
        cases b <;> cases (m.get "bigendian").isSome <;> rfl
      · simp [tagsAfter, htag]

/-! ## Facts used by the induction over types -/

theorem Value.setChild_child (r : Value) (s : Step) (c : Value) (h : r.child s = some c) :
    r.setChild s c = r := by
  cases s <;> cases r <;> simp_all [Value.child, Value.setChild] <;>
    (rename_i i xs
     apply List.ext_getElem? 
     intro j
     by_cases hj : i = j
     · subst hj; rw [List.getElem?_set_self (List.getElem?_eq_some.mp h).1, h]
     · rw [List.getElem?_set_ne hj])

theorem Value.write_read (p : Path) : ∀ (r c : Value), r.read p = some c → r.write p c = r := by
  induction p with
  | nil => intro r c h; simp [Value.read] at h; simp [Value.write, h]
  | cons s p ih =>
    intro r c h
    simp only [Value.read] at h
    cases hc : r.child s with
    | none => simp [hc] at h
    | some c1 =>
      simp only [hc] at h
      simp only [Value.write, hc, ih c1 c h, Value.setChild_child r s c1 hc]

theorem take_set_succ {α : Type} (cs : List α) (i : Nat) (v : α) (h : i < cs.length) :
    (cs.set i v).take (i + 1) = cs.take i ++ [v] := by
  rw [List.take_succ, List.getElem?_set_self h]
  have : (cs.set i v).take i = cs.take i := by
    apply List.ext_getElem?
    intro j
    by_cases hj : j < i
    · rw [List.getElem?_take_of_lt hj, List.getElem?_take_of_lt hj,
        List.getElem?_set_ne (by omega)]
    · rw [List.getElem?_take_eq_none (by omega), List.getElem?_take_eq_none (by omega)]
  simp [this]

theorem tagsAfter_idem : ∀ (t : GoType) (m : TagMap),
    tagsAfter t (tagsAfter t m) = tagsAfter t m
  | .array n t, m => by
    by_cases h : n = 0
    · simp [tagsAfter, h]
    · simp [tagsAfter, h, tagsAfter_idem t m]
  | .struct _ fs, m => by cases fs <;> simp [tagsAfter, tagsAfterFields]
  | .bool, _ => rfl
  | .uint8, _ => rfl
  | .uint16, _ => rfl
  | .uint32, _ => rfl
  | .uint64, _ => rfl
  | .string, _ => rfl
  | .slice _, _ => rfl
  | .ptr _, _ => rfl
  | .other _, _ => rfl

theorem fixedShape_tagsAfter : ∀ (t : GoType) (m : TagMap), fixedShape t m = true →
    fixedShape t (tagsAfter t m) = true
  | .array n t, m => by
    intro h
    simp only [fixedShape, Bool.and_eq_true, decide_eq_true_eq] at h ⊢
    have hn : n ≠ 0 := by omega
    simp only [tagsAfter, hn, if_false]
    exact ⟨h.1, fixedShape_tagsAfter t m h.2⟩
  | .struct _ fs, m => by intro h; simpa [fixedShape] using h
  | .bool, _ => fun h => h
  | .uint8, _ => fun h => h
  | .uint16, _ => fun h => h
  | .uint32, _ => fun h => h
  | .uint64, _ => fun h => h
  | .string, _ => fun h => h
  | .slice _, _ => fun h => by simp [fixedShape] at h
  | .ptr _, _ => fun h => by simp [fixedShape] at h
  | .other _, _ => fun h => by simp [fixedShape] at h

theorem isEmptyValue_fixed (t : GoType) (m : TagMap) (v : Value)
    (hf : fixedShape t m = true) (hv : hasType t v = true) : isEmptyValue v = false := by
  cases t <;> cases v <;> simp_all [fixedShape, hasType, isEmptyValue]
  omega

mutual
theorem hasType_zeroValue : ∀ (t : GoType), hasType t (zeroValue t) = true
  | .bool => rfl
  | .uint8 => by simp [zeroValue, hasType]
  | .uint16 => by simp [zeroValue, hasType]
  | .uint32 => by simp [zeroValue, hasType]
  | .uint64 => by simp [zeroValue, hasType]
  | .string => rfl
  | .array n t => by
    simp only [zeroValue, hasType, List.length_replicate, decide_True, Bool.true_and,
      List.all_eq_true]
    intro x hx
    rw [List.eq_of_mem_replicate hx]
    exact hasType_zeroValue t
  | .slice _ => rfl
  | .ptr _ => rfl
  | .struct _ fs => by simp [zeroValue, hasType, hasFieldTypes_zeroFields fs]
  | .other _ => rfl
theorem hasFieldTypes_zeroFields : ∀ (fs : FieldList), hasFieldTypes fs (zeroFields fs) = true
  | .nil => rfl
  | .cons _ _ _ _ t rest => by
    simp [zeroFields, hasFieldTypes, hasType_zeroValue t, hasFieldTypes_zeroFields rest]
end

theorem saveTag_spec (t : GoType) (p : Path) (d : decodeState) :
    ∃ d1, saveTag t p d = (.ok (), d1) ∧ d1.data = d.data ∧ d1.off = d.off ∧
      d1.tagCache = d.tagCache ∧ d1.root = d.root := by
  unfold saveTag
  cases d.tagCache.get "save" <;> simp

theorem fixedFields_allPlain : ∀ (fs : FieldList), fixedFields fs = true →
    allPlain fs.toList = true
  | .nil => fun _ => rfl
  | .cons _ ex an _ _ rest => by
    intro h
    simp only [fixedFields, Bool.and_eq_true, Bool.not_eq_true'] at h
    have ih := fixedFields_allPlain rest h.2
    simp only [allPlain] at ih
    simp [FieldList.toList, allPlain, h.1.1.1, h.1.1.2, ih]

/-! ## Arrays and structs of fixed shape -/

theorem array_elems_round_trip (t : GoType) (ih : RoundTrips t) :
    ∀ (vs : List Value) (m : TagMap), fixedShape t m = true →
      (∀ x ∈ vs, hasType t x = true ∧ zeroFree t x = true) →
      ∃ bs,
        (∀ buf : List Nat, encodeElems (encoderByIndex t []) vs ⟨buf, m⟩
          = .ok ⟨buf ++ bs, if vs = [] then m else tagsAfter t m⟩) ∧
        (∀ (d : decodeState) (p : Path) (pre post : List Nat) (cs : List Value) (i : Nat),
          d.data = pre ++ (bs ++ post) → d.off = pre.length → d.tagCache = m →
          d.root.read p = some (.array cs) → cs.length = i + vs.length →
          (∀ c ∈ cs, hasType t c = true) →
          ∃ d1, forRange (fun j => value t (p ++ [Step.index j]) false) vs.length i d
              = (.ok (), d1) ∧ d1.data = d.data ∧
            d1.off = pre.length + bs.length ∧
            d1.tagCache = (if vs = [] then m else tagsAfter t m) ∧
            d1.root = d.root.write p (.array (cs.take i ++ vs))) := by
  intro vs
  induction vs with
  | nil =>
    intro m _ _
    refine ⟨[], fun buf => by simp [encodeElems], ?_⟩
    intro d p pre post cs i hd hoff htag hread hlen _
    refine ⟨d, by simp [forRange, pure], rfl, by simp [hoff], by simp [htag], ?_⟩
    have : cs.take i = cs := List.take_of_length_le (by simp at hlen; omega)
    simp only [List.append_nil, this]
    exact (Value.write_read p d.root _ hread).symm
  | cons v vs ihvs =>
    intro m hm hall
    obtain ⟨hv, hz⟩ := hall v (by simp)
    obtain ⟨bs1, henc1, hdec1⟩ := ih m v hm hv hz
    obtain ⟨bs2, henc2, hdec2⟩ := ihvs (tagsAfter t m) (fixedShape_tagsAfter t m hm)
      (fun x hx => hall x (by simp [hx]))
    have htags : (if vs = [] then tagsAfter t m else tagsAfter t (tagsAfter t m))
        = tagsAfter t m := by
      split
      · rfl
      · exact tagsAfter_idem t m
    refine ⟨bs1 ++ bs2, ?_, ?_⟩
    · intro buf
      simp only [encodeElems, henc1 buf, henc2 (buf ++ bs1), htags]
      simp [List.append_assoc]
    · intro d p pre post cs i hd hoff htag hread hlen hcs
      simp only [List.length_cons] at hlen
      have hi : i < cs.length := by omega
      have hci : (Value.array cs).read [Step.index i] = some cs[i] := by
        simp [Value.read, Value.child, List.getElem?_eq_getElem hi]
      obtain ⟨d1, hrun1, hdata1, hoff1, htag1, hroot1⟩ := hdec1 d (p ++ [Step.index i]) pre
        (bs2 ++ post) cs[i] (by simpa [List.append_assoc] using hd) hoff htag
        (by rw [Value.read_append, hread]; exact hci) (hcs _ (List.getElem_mem hi))
      have hroot1b : d1.root = d.root.write p (.array (cs.set i v)) := by
        rw [hroot1, Value.write_append p _ d.root _ v hread]
        simp [Value.write, Value.child, List.getElem?_eq_getElem hi, Value.setChild]
      obtain ⟨d2, hrun2, hdata2, hoff2, htag2, hroot2⟩ := hdec2 d1 p (pre ++ bs1) post
        (cs.set i v) (i + 1)
        (by rw [hdata1, hd]; simp [List.append_assoc])
        (by rw [hoff1]; simp) htag1
        (by rw [hroot1b]; exact Value.read_write p d.root _ _ hread)
        (by simp; omega)
        (by
          intro c hc
          rcases List.mem_or_eq_of_mem_set hc with h | h
          · exact hcs c h
          · rw [h]; exact hv)
      refine ⟨d2, ?_, by rw [hdata2, hdata1], ?_, ?_, ?_⟩
      · simp only [List.length_cons, forRange, bind, Dec.bind, hrun1]
        exact hrun2
      · rw [hoff2]; simp; omega
      · rw [htag2, htags]; simp
      · rw [hroot2, hroot1b, Value.write_write p d.root _ _ _ hread, take_set_succ cs i v hi]
        simp [List.append_assoc]

theorem fields_nil_round_trip : FieldsEncodeTo .nil [] [] ∧ FieldsDecodeTo .nil [] [] := by
  constructor
  · intro fsAll i vsAll buf m0 _ _
    simp [FieldList.toList, plainFields, structEncoder.encode, tagsAfterFields]
  · intro d p pre post cs i hd hoff hread hty
    refine ⟨d, by simp [decodeFields, pure], rfl, by simp [hoff], by simp [tagsAfterFields], ?_⟩
    have hnil : cs.drop i = [] := by
      cases h : cs.drop i with
      | nil => rfl
      | cons a l => rw [h] at hty; simp [hasFieldTypes] at hty
    have : cs.take i = cs := List.take_of_length_le (List.drop_eq_nil_iff.mp hnil)
    simp only [List.append_nil, this]
    exact (Value.write_read p d.root _ hread).symm

theorem fields_cons_round_trip (fname : String) (an : Bool) (tag : String) (t : GoType)
    (rest : FieldList) (v : Value) (vs : List Value) (bs1 bs2 : List Nat)
    (hfix : fixedShape t (parseTag tag) = true) (hv : hasType t v = true)
    (henc1 : EncodesTo t (parseTag tag) v bs1) (hdec1 : DecodesTo t (parseTag tag) bs1 v)
    (henc2 : FieldsEncodeTo rest vs bs2) (hdec2 : FieldsDecodeTo rest bs2 vs) :
    FieldsEncodeTo (.cons fname true an tag t rest) (v :: vs) (bs1 ++ bs2) ∧
    FieldsDecodeTo (.cons fname true an tag t rest) (bs1 ++ bs2) (v :: vs) := by
  constructor
  · intro fsAll i vsAll buf m0 hlook hdrop
    have hi : i < vsAll.length := by
      by_contra hc
      rw [List.drop_eq_nil_of_le (by omega)] at hdrop
      exact absurd hdrop (by simp)
    have hvi : vsAll[i]? = some v := by
      rw [List.drop_eq_getElem_cons hi] at hdrop
      rw [List.getElem?_eq_getElem hi]
      simp only [List.cons.injEq] at hdrop
      rw [hdrop.1]
    have henc0 : fieldEncoderByIndex fsAll [i] = encoderByIndex t [] := by
      have := hlook 0
      simpa [fieldEncoderByIndex] using this
    have hrest := henc2 fsAll (i + 1) vsAll (buf ++ bs1) []
      (by
        intro k
        have := hlook (k + 1)
        rw [show i + (k + 1) = i + 1 + k by omega] at this
        rw [this]
        simp [fieldEncoderByIndex])
      (by
        rw [List.drop_eq_getElem_cons hi] at hdrop
        simp only [List.cons.injEq] at hdrop
        exact hdrop.2)
    simp only [FieldList.toList, plainFields, List.map_cons, structEncoder.encode, fieldByIndex,
      Value.Field, hvi, isEmptyValue_fixed t _ v hfix hv, Bool.false_eq_true, if_false, henc0,
      henc1 buf]
    rw [hrest]
    cases rest <;> simp [tagsAfterFields, List.append_assoc]
  · intro d p pre post cs i hd hoff hread hty
    have hi : i < cs.length := by
      by_contra hc
      rw [List.drop_eq_nil_of_le (by omega)] at hty
      simp [hasFieldTypes] at hty
    rw [List.drop_eq_getElem_cons hi] at hty
    simp only [hasFieldTypes, Bool.and_eq_true] at hty
    have hci : (Value.struct cs).read [Step.field i] = some cs[i] := by
      simp [Value.read, Value.child, List.getElem?_eq_getElem hi]
    obtain ⟨d0, hsave, hdata0, hoff0, htag0, hroot0⟩ := saveTag_spec t (p ++ [Step.field i])
      { d with tagCache := parseTag tag,
               errorContext := { d.errorContext with Field := fname } }
    obtain ⟨d1, hrun1, hdata1, hoff1, _, hroot1⟩ := hdec1 d0 (p ++ [Step.field i]) pre
      (bs2 ++ post) cs[i] (by rw [hdata0]; simpa [List.append_assoc] using hd)
      (by rw [hoff0]; exact hoff) htag0
      (by rw [hroot0, Value.read_append]; simp only [hread]; exact hci) hty.1
    have hroot1b : d1.root = d.root.write p (.struct (cs.set i v)) := by
      rw [hroot1, hroot0]
      simp only
      rw [Value.write_append p _ d.root _ v hread]
      simp [Value.write, Value.child, List.getElem?_eq_getElem hi, Value.setChild]
    obtain ⟨d2, hrun2, hdata2, hoff2, htag2, hroot2⟩ := hdec2 { d1 with tagCache := [] } p
      (pre ++ bs1) post (cs.set i v) (i + 1)
      (by simp only; rw [hdata1, hdata0]; simp [hd, List.append_assoc])
      (by simp only; rw [hoff1]; simp)
      (by simp only; rw [hroot1b]; exact Value.read_write p d.root _ _ hread)
      (by rw [List.drop_set_of_lt _ _ (by omega)]; exact hty.2)
    refine ⟨d2, ?_, ?_, ?_, ?_, ?_⟩
    · simp only [decodeFields, Dec.bind, hsave, Bool.not_true, Bool.or_false, hrun1, Dec.modify]
      exact hrun2
    · rw [hdata2]; simp only; rw [hdata1, hdata0]
    · rw [hoff2]; simp; omega
    · rw [htag2]; cases rest <;> simp [tagsAfterFields]
    · rw [hroot2]
      simp only
      rw [hroot1b, Value.write_write p d.root _ _ _ hread, take_set_succ cs i v hi]
      simp [List.append_assoc]

theorem array_round_trips (n : Nat) (t : GoType) (ih : RoundTrips t) :
    RoundTrips (.array n t) := by
  intro m v hf hv hz
  cases v <;> simp only [hasType, Bool.false_eq_true] at hv
  rename_i xs
  simp only [Bool.and_eq_true, decide_eq_true_eq, List.all_eq_true] at hv
  simp only [zeroFree, List.all_eq_true] at hz
  simp only [fixedShape, Bool.and_eq_true, decide_eq_true_eq] at hf
  obtain ⟨bs, henc, hdec⟩ := array_elems_round_trip t ih xs m hf.2
    (fun x hx => ⟨hv.2 x hx, hz x hx⟩)
  have hne : xs ≠ [] := by
    intro hc; rw [hc] at hv; simp at hv; omega
  have hn : n ≠ 0 := by omega
  refine ⟨bs, ?_, ?_⟩
  · intro buf
    simp only [encoderByIndex, arrayEncoder.encode, Value.elems, henc buf, hne, if_false,
      tagsAfter, hn]
  · intro d p pre post cur hd hoff htag hread hcur
    cases cur <;> simp only [hasType, Bool.false_eq_true] at hcur
    rename_i cs
    simp only [Bool.and_eq_true, decide_eq_true_eq, List.all_eq_true] at hcur
    obtain ⟨d1, hrun, hdata, hoff1, htag1, hroot⟩ := hdec d p pre post cs 0 hd hoff htag hread
      (by rw [hcur.1, hv.1]; simp) hcur.2
    refine ⟨d1, ?_, hdata, hoff1, ?_, ?_⟩
    · simp only [value]
      rw [← hv.1]
      exact hrun
    · rw [htag1]; simp [hne, tagsAfter, hn]
    · rw [hroot]; simp

theorem struct_round_trips (name : String) (fs : FieldList)
    (ih : fixedFields fs = true → ∀ vs, hasFieldTypes fs vs = true →
      zeroFreeFields fs vs = true → ∃ bs, FieldsEncodeTo fs vs bs ∧ FieldsDecodeTo fs bs vs) :
    RoundTrips (.struct name fs) := by
  intro m v hf hv hz
  cases v <;> simp only [hasType, Bool.false_eq_true] at hv
  rename_i vs
  simp only [zeroFree] at hz
  simp only [fixedShape, Bool.and_eq_true, bne_iff_ne, ne_eq, decide_eq_true_eq] at hf
  obtain ⟨⟨hname, hfields⟩, hnodup⟩ := hf
  obtain ⟨bs, henc, hdec⟩ := ih hfields vs hv hz
  refine ⟨bs, ?_, ?_⟩
  · intro buf
    have := henc fs 0 vs buf m (by intro k; simp) (by simp)
    simp only [encoderByIndex, typeFields_plain name fs (fixedFields_allPlain fs hfields) hnodup,
      this, tagsAfter]
  · intro d p pre post cur hd hoff htag hread hcur
    cases cur <;> simp only [hasType, Bool.false_eq_true] at hcur
    rename_i cs
    obtain ⟨d1, hrun, hdata, hoff1, htag1, hroot⟩ := hdec
      { d with errorContext := { d.errorContext with Struct := name },
               structs := d.structs ++ [name] } p pre post cs 0 hd hoff hread
      (by simpa using hcur)
    refine ⟨{ d1 with structs := d1.structs.dropLast }, ?_, hdata, hoff1, ?_, ?_⟩
    · simp only [value, hname, if_false, Bool.false_eq_true, Dec.bind, hrun, Dec.modify]
    · simp only [htag1, tagsAfter, htag]
    · simp only [hroot]; simp

mutual
/-- Every fixed-shape type round-trips: encoding appends some bytes that decoding, wherever they
stand in the buffer, consumes exactly and turns back into the value. -/
theorem fixed_round_trips : ∀ (t : GoType), RoundTrips t
  | .bool => fun m v hf hv _ => by
    cases v <;> simp only [hasType, Bool.false_eq_true] at hv
    exact ⟨_, bool_encodes_decodes m _ hf⟩
  | .uint8 => fun m v _ hv _ => by
    cases v <;> simp only [hasType, Bool.false_eq_true, decide_eq_true_eq] at hv
    exact ⟨_, uint8_encodes_decodes m _ hv⟩
  | .uint16 => fun m v _ hv _ => by
    cases v <;> simp only [hasType, Bool.false_eq_true, decide_eq_true_eq] at hv
    exact ⟨_, uintN_encodes_decodes .uint16 2 (Or.inl ⟨rfl, rfl⟩) m _ hv⟩
  | .uint32 => fun m v _ hv _ => by
    cases v <;> simp only [hasType, Bool.false_eq_true, decide_eq_true_eq] at hv
    exact ⟨_, uintN_encodes_decodes .uint32 4 (Or.inr (Or.inl ⟨rfl, rfl⟩)) m _ hv⟩
  | .uint64 => fun m v _ hv _ => by
    cases v <;> simp only [hasType, Bool.false_eq_true, decide_eq_true_eq] at hv
    exact ⟨_, uintN_encodes_decodes .uint64 8 (Or.inr (Or.inr ⟨rfl, rfl⟩)) m _ hv⟩
  | .string => fun m v _ hv hz => by
    cases v <;> simp only [hasType, Bool.false_eq_true] at hv
    simp only [zeroFree] at hz
    exact ⟨_, string_encodes_decodes m _ (by simpa using hz)⟩
  | .array n t => array_round_trips n t (fixed_round_trips t)
  | .struct name fs => struct_round_trips name fs (fields_round_trip fs)
  | .slice _ => fun m v hf _ _ => by simp [fixedShape] at hf
  | .ptr _ => fun m v hf _ _ => by simp [fixedShape] at hf
  | .other _ => fun m v hf _ _ => by simp [fixedShape] at hf
/-- The same for the fields of a struct, in declaration order. -/
theorem fields_round_trip : ∀ (fs : FieldList), fixedFields fs = true →
    ∀ vs, hasFieldTypes fs vs = true → zeroFreeFields fs vs = true →
    ∃ bs, FieldsEncodeTo fs vs bs ∧ FieldsDecodeTo fs bs vs
  | .nil => fun _ vs hv _ => by
    cases vs <;> simp only [hasFieldTypes, Bool.false_eq_true] at hv
    exact ⟨[], fields_nil_round_trip⟩
  | .cons fname ex an tag t rest => fun hf vs hv hz => by
    cases vs with
    | nil => simp [hasFieldTypes] at hv
    | cons v vs =>
      simp only [hasFieldTypes, Bool.and_eq_true] at hv
      simp only [zeroFreeFields, Bool.and_eq_true] at hz
      simp only [fixedFields, Bool.and_eq_true, Bool.not_eq_true'] at hf
      obtain ⟨⟨⟨hex, _⟩, hft⟩, hfrest⟩ := hf
      subst hex
      obtain ⟨bs1, henc1, hdec1⟩ := fixed_round_trips t (parseTag tag) v hft hv.1 hz.1
      obtain ⟨bs2, henc2, hdec2⟩ := fields_round_trip rest hfrest vs hv.2 hz.2
      exact ⟨bs1 ++ bs2, fields_cons_round_trip fname an tag t rest v vs bs1 bs2 hft hv.1
        henc1 hdec1 henc2 hdec2⟩
end

/-! ## Round trip of fixed-shape values -/

/-- C1. A value of a named struct type whose fields are exported, not embedded, and are
unsigned integers, booleans tagged `size-uint8` or `size-uint32`, strings without a zero byte,
non-empty arrays of these or nested named structs of these: `Marshal` succeeds, and `Unmarshal`
of its bytes into a zero value of the type succeeds and leaves exactly that value. -/
theorem fixed_shape_round_trip (name : String) (fs : FieldList) (v : Value)
    (hshape : fixedShape (.struct name fs) [] = true)
    (hty : hasType (.struct name fs) v = true)
    (hzero : zeroFree (.struct name fs) v = true) :
    ∃ bytes, Marshal (some (.struct name fs, v)) = .ok bytes ∧
      ∃ d, Unmarshal bytes
          (some (.ptr (.struct name fs), .ptr (zeroValue (.struct name fs)))) = (.ok (), d) ∧
        d.root = .ptr v := by
  obtain ⟨bs, henc, hdec⟩ := fixed_round_trips (.struct name fs) [] v hshape hty hzero
  refine ⟨bs, ?_, ?_⟩
  · simp [Marshal, encodeState.marshal, encodeState.reflectValue, typeEncoder, henc []]
  · obtain ⟨d1, hrun, _, _, _, hroot⟩ := hdec
      { decodeState.init bs .nilPtr with root := .ptr (zeroValue (.struct name fs)) }
      [Step.elem] [] [] (zeroValue (.struct name fs)) (by simp [decodeState.init])
      (by simp [decodeState.init]) (by simp [decodeState.init])
      (by simp [Value.read, Value.child]) (hasType_zeroValue _)
    refine ⟨d1, ?_, ?_⟩
    · simp only [Unmarshal, decodeState.unmarshal, value, Value.read]
      exact hrun
    · rw [hroot]; simp [Value.write, Value.child, Value.setChild]

theorem fixed_shape_round_trip_witness :
    ∃ bytes, Marshal (some (.struct "Sample" sampleFixed, sampleFixedValue)) = .ok bytes ∧
      ∃ d, Unmarshal bytes
          (some (.ptr (.struct "Sample" sampleFixed),
            .ptr (zeroValue (.struct "Sample" sampleFixed)))) = (.ok (), d) ∧
        d.root = .ptr sampleFixedValue :=
  fixed_shape_round_trip "Sample" sampleFixed sampleFixedValue (by decide!) (by decide!)
    (by decide!)

/-! ## Sequences bound to a saved count -/

theorem encodeElems_append (enc : encoderFunc) (xs ys : List Value) (e : encodeState) :
    encodeElems enc (xs ++ ys) e
      = match encodeElems enc xs e with
        | .ok e1 => encodeElems enc ys e1
        | .error err => .error err
        | .crash msg => .crash msg := by
  induction xs generalizing e with
  | nil => simp [encodeElems]
  | cons x xs ih =>
    simp only [List.cons_append, encodeElems]
    cases enc e x <;> simp [ih]

theorem appendZero_spec (t : GoType) (p : Path) (d : decodeState) (cur : Value)
    (ht : ∀ e, t ≠ .ptr e) (hread : d.root.read p = some cur) :
    appendZero false t p d
      = (.ok (), { d with root := d.root.write p (.slice (cur.elems ++ [zeroValue t])) }) := by
  cases t <;> first
    | (exfalso; exact ht _ rfl)
    | simp [appendZero, hread, setValue]

theorem fixedShape_not_ptr (t : GoType) (m : TagMap) (h : fixedShape t m = true) :
    ∀ e, t ≠ .ptr e := by
  intro e hc; subst hc; simp [fixedShape] at h

theorem slice_elems_round_trip (t : GoType) (ih : RoundTrips t) :
    ∀ (vs : List Value) (m : TagMap), fixedShape t m = true →
      (∀ x ∈ vs, hasType t x = true ∧ zeroFree t x = true) →
      ∃ bs,
        (∀ buf : List Nat, encodeElems (encoderByIndex t []) vs ⟨buf, m⟩
          = .ok ⟨buf ++ bs, if vs = [] then m else tagsAfter t m⟩) ∧
        (∀ (d : decodeState) (p : Path) (pre post : List Nat) (cur : Value),
          d.data = pre ++ (bs ++ post) → d.off = pre.length → d.tagCache = m →
          d.root.read p = some cur →
          ∃ d1, forRange (fun j => Dec.bind (appendZero false t p)
                (fun _ => value t (p ++ [Step.index j]) false)) vs.length cur.elems.length d
              = (.ok (), d1) ∧ d1.data = d.data ∧
            d1.off = pre.length + bs.length ∧
            d1.root = (if vs = [] then d.root
              else d.root.write p (.slice (cur.elems ++ vs)))) := by
  intro vs
  induction vs with
  | nil =>
    intro m _ _
    refine ⟨[], fun buf => by simp [encodeElems], ?_⟩
    intro d p pre post cur hd hoff htag hread
    exact ⟨d, by simp [forRange, pure], rfl, by simp [hoff], by simp⟩
  | cons v vs ihvs =>
    intro m hm hall
    obtain ⟨hv, hz⟩ := hall v (by simp)
    obtain ⟨bs1, henc1, hdec1⟩ := ih m v hm hv hz
    obtain ⟨bs2, henc2, hdec2⟩ := ihvs (tagsAfter t m) (fixedShape_tagsAfter t m hm)
      (fun x hx => hall x (by simp [hx]))
    have htags : (if vs = [] then tagsAfter t m else tagsAfter t (tagsAfter t m))
        = tagsAfter t m := by
      split
      · rfl
      · exact tagsAfter_idem t m
    refine ⟨bs1 ++ bs2, ?_, ?_⟩
    · intro buf
      simp only [encodeElems, henc1 buf, henc2 (buf ++ bs1), htags]
      simp [List.append_assoc]
    · intro d p pre post cur hd hoff htag hread
      have happ := appendZero_spec t p d cur (fixedShape_not_ptr t m hm) hread
      have hread0 : (d.root.write p (.slice (cur.elems ++ [zeroValue t]))).read p
          = some (.slice (cur.elems ++ [zeroValue t])) := Value.read_write p d.root _ _ hread
      have hci : (Value.slice (cur.elems ++ [zeroValue t])).read [Step.index cur.elems.length]
          = some (zeroValue t) := by
        simp [Value.read, Value.child]
      obtain ⟨d1, hrun1, hdata1, hoff1, htag1, hroot1⟩ := hdec1
        { d with root := d.root.write p (.slice (cur.elems ++ [zeroValue t])) }
        (p ++ [Step.index cur.elems.length]) pre (bs2 ++ post) (zeroValue t)
        (by simpa [List.append_assoc] using hd) hoff htag
        (by rw [Value.read_append]; simp only [hread0]; exact hci) (hasType_zeroValue t)
      have hroot1b : d1.root = d.root.write p (.slice (cur.elems ++ [v])) := by
        rw [hroot1]
        simp only
        rw [Value.write_append p _ _ _ v hread0, Value.write_write p d.root _ _ _ hread]
        simp [Value.write, Value.child, Value.setChild]
      obtain ⟨d2, hrun2, hdata2, hoff2, hroot2⟩ := hdec2 d1 p (pre ++ bs1) post
        (.slice (cur.elems ++ [v]))
        (by rw [hdata1]; simp [hd, List.append_assoc])
        (by rw [hoff1]; simp) htag1
        (by rw [hroot1b]; exact Value.read_write p d.root _ _ hread)
      refine ⟨d2, ?_, by rw [hdata2, hdata1], ?_, ?_⟩
      · simp only [List.length_cons, forRange, bind, Dec.bind, happ, hrun1]
        simpa [Value.elems] using hrun2
      · rw [hoff2]; simp; omega
      · rw [hroot2, hroot1b]
        simp only [Value.elems, List.append_assoc, List.singleton_append, reduceCtorEq, if_false]
        split
        · rename_i h; simp [h]
        · exact Value.write_write p d.root _ _ _ hread

theorem value_uint_at (ct : GoType) (w : Nat) (hk : uintWidth ct = some w) (x : Nat)
    (hx : x < 256 ^ w) (d : decodeState) (p : Path) (pre post : List Nat)
    (hd : d.data = pre ++ (uintBytes w (d.tagCache.get "bigendian").isSome x ++ post))
    (hoff : d.off = pre.length) :
    value ct p false d
      = (.ok (), { d with off := pre.length + w, root := d.root.write p (.uint x) }) := by
  cases ct <;> simp only [uintWidth, Option.some.injEq, reduceCtorEq] at hk <;> subst hk
  · have hr := readBytes_at d pre [x] post
      (by have hx2 : x < 256 := by simpa using hx
          simpa [uintBytes, Nat.mod_eq_of_lt hx2] using hd) hoff
    simp only [List.length_singleton] at hr
    simp [value, bind, Dec.bind, decodeUint8, hr, setValue, pure]
  · have := decodeUintN_at 2 (by simp) x (by simpa using hx) d pre post hd hoff
    simp [value, bind, Dec.bind, decodeUint16, this, setValue]
  · have := decodeUintN_at 4 (by simp) x (by simpa using hx) d pre post hd hoff
    simp [value, bind, Dec.bind, decodeUint32, this, setValue]
  · have := decodeUintN_at 8 (by simp) x (by simpa using hx) d pre post hd hoff
    simp [value, bind, Dec.bind, decodeUint64, this, setValue]

theorem uintEncoder_bytes (ct : GoType) (w : Nat) (hk : uintWidth ct = some w) (x : Nat)
    (e : encodeState) :
    encoderByIndex ct [] e (.uint x)
      = .ok { e with buf := e.buf ++ uintBytes w (e.tagCache.get "bigendian").isSome x } := by
  cases ct <;> simp only [uintWidth, Option.some.injEq, reduceCtorEq] at hk <;> subst hk <;>
    cases hb : (e.tagCache.get "bigendian").isSome <;>
    simp [encoderByIndex, uintEncoder, Value.Uint, hb, uintBytes]

theorem getSavedValueAsInt_uint (name : String) (d : decodeState) (ct : GoType) (w : Nat)
    (hk : uintWidth ct = some w) (p : Path) (x : Nat)
    (hfind : (d.savedValues.find? (fun kv => kv.1 == name)).map (fun kv => kv.2) = some (ct, p))
    (hread : d.root.read p = some (.uint x)) :
    getSavedValueAsInt name d = (.ok (toInt x), d) := by
  unfold getSavedValueAsInt
  rw [hfind]
  cases ct <;> simp only [uintWidth, Option.some.injEq, reduceCtorEq] at hk <;> simp [hread]

theorem toInt_small (x : Nat) (h : x < 2 ^ 63) : (toInt x).toNat = x := by
  unfold toInt
  split <;> omega

/-- The case `reflect.Slice` of `decodeState.value` for elements of a fixed-shape type: with the
count `n` bound to the `len` name, the first `n` encoded elements are read and stored. -/
theorem slice_counted_decode (t : GoType) (m : TagMap) (name : String) (ct : GoType) (w : Nat)
    (cp : Path) (n : Nat) (vs : List Value) (bs : List Nat)
    (hstr : t ≠ .string) (hlen : m.get "len" = some name)
    (hk : uintWidth ct = some w) (hn : n < 2 ^ 63) (hvs : vs.length = n)
    (hdec : ∀ (d : decodeState) (p : Path) (pre post : List Nat) (cur : Value),
          d.data = pre ++ (bs ++ post) → d.off = pre.length → d.tagCache = m →
          d.root.read p = some cur →
          ∃ d1, forRange (fun j => Dec.bind (appendZero false t p)
                (fun _ => value t (p ++ [Step.index j]) false)) vs.length cur.elems.length d
              = (.ok (), d1) ∧ d1.data = d.data ∧
            d1.off = pre.length + bs.length ∧
            d1.root = (if vs = [] then d.root
              else d.root.write p (.slice (cur.elems ++ vs))))
    (d : decodeState) (p : Path) (pre post : List Nat) (cur : Value)
    (hd : d.data = pre ++ (bs ++ post)) (hoff : d.off = pre.length) (htag : d.tagCache = m)
    (hfind : (d.savedValues.find? (fun kv => kv.1 == name)).map (fun kv => kv.2) = some (ct, cp))
    (hcount : d.root.read cp = some (.uint n))
    (hread : d.root.read p = some cur) (hempty : cur.elems = []) :
    ∃ d1, value (.slice t) p false d = (.ok (), d1) ∧ d1.data = d.data ∧
      d1.off = pre.length + bs.length ∧
      d1.root = (if vs = [] then d.root else d.root.write p (.slice vs)) := by
  have hm : m.length ≠ 0 := by
    intro hc
    rw [List.length_eq_zero.mp hc] at hlen
    simp [TagMap.get] at hlen
  obtain ⟨d1, hrun, hdata, hoff1, hroot⟩ := hdec d p pre post cur hd hoff htag hread
  refine ⟨d1, ?_, hdata, hoff1, ?_⟩
  · simp only [value, hstr, if_false, hm, htag, hlen, Dec.bind,
      getSavedValueAsInt_uint name d ct w hk cp n hfind hcount, toInt_small n hn]
    rw [hempty] at hrun
    rw [← hvs]
    simpa using hrun
  · rw [hroot, hempty]; simp

theorem decodeFields_uint_step (fname : String) (an : Bool) (tag : String) (ct : GoType)
    (rest : FieldList) (i : Nat) (p : Path) (d : decodeState) (w n : Nat) (pre post : List Nat)
    (hk : uintWidth ct = some w) (hn : n < 256 ^ w)
    (hd : d.data = pre ++ (uintBytes w ((parseTag tag).get "bigendian").isSome n ++ post))
    (hoff : d.off = pre.length) :
    decodeFields (.cons fname true an tag ct rest) i p false d
      = decodeFields rest (i + 1) p false
          { d with off := pre.length + w, tagCache := [],
                   errorContext := { d.errorContext with Field := fname },
                   savedValues := savedAfter (parseTag tag) ct (p ++ [Step.field i]) d.savedValues,
                   root := d.root.write (p ++ [Step.field i]) (.uint n) } := by
  have hsave : saveTag ct (p ++ [Step.field i])
      { d with tagCache := parseTag tag, errorContext := { d.errorContext with Field := fname } }
      = (.ok (), { d with tagCache := parseTag tag,
                          errorContext := { d.errorContext with Field := fname },
                          savedValues := savedAfter (parseTag tag) ct (p ++ [Step.field i])
                            d.savedValues }) := by
    unfold saveTag savedAfter
    cases (parseTag tag).get "save" <;> simp
  have hval := value_uint_at ct w hk n hn
    { d with tagCache := parseTag tag, errorContext := { d.errorContext with Field := fname },
             savedValues := savedAfter (parseTag tag) ct (p ++ [Step.field i]) d.savedValues }
    (p ++ [Step.field i]) pre post hd hoff
  simp only [decodeFields, Dec.bind, hsave, Bool.not_true, Bool.or_false, hval, Dec.modify]

theorem decodeFields_slice_last (fname : String) (an : Bool) (tag : String) (t : GoType)
    (i : Nat) (p : Path) (d : decodeState) (name : String) (ct : GoType) (w : Nat) (cp : Path)
    (n : Nat) (vs : List Value) (bs pre post : List Nat) (cur : Value)
    (hstr : t ≠ .string) (hlen : (parseTag tag).get "len" = some name)
    (hnosave : (parseTag tag).get "save" = none)
    (hk : uintWidth ct = some w) (hn : n < 2 ^ 63) (hvs : vs.length = n)
    (hdec : ∀ (d : decodeState) (p : Path) (pre post : List Nat) (cur : Value),
          d.data = pre ++ (bs ++ post) → d.off = pre.length → d.tagCache = parseTag tag →
          d.root.read p = some cur →
          ∃ d1, forRange (fun j => Dec.bind (appendZero false t p)
                (fun _ => value t (p ++ [Step.index j]) false)) vs.length cur.elems.length d
              = (.ok (), d1) ∧ d1.data = d.data ∧
            d1.off = pre.length + bs.length ∧
            d1.root = (if vs = [] then d.root
              else d.root.write p (.slice (cur.elems ++ vs))))
    (hd : d.data = pre ++ (bs ++ post)) (hoff : d.off = pre.length)
    (hfind : (d.savedValues.find? (fun kv => kv.1 == name)).map (fun kv => kv.2) = some (ct, cp))
    (hcount : d.root.read cp = some (.uint n))
    (hread : d.root.read (p ++ [Step.field i]) = some cur) (hempty : cur.elems = []) :
    ∃ d1, decodeFields (.cons fname true an tag (.slice t) .nil) i p false d = (.ok (), d1) ∧
      d1.data = d.data ∧ d1.off = pre.length + bs.length ∧
      d1.root = (if vs = [] then d.root
        else d.root.write (p ++ [Step.field i]) (.slice vs)) := by
  have hsave : saveTag (.slice t) (p ++ [Step.field i])
      { d with tagCache := parseTag tag, errorContext := { d.errorContext with Field := fname } }
      = (.ok (), { d with tagCache := parseTag tag,
                          errorContext := { d.errorContext with Field := fname } }) := by
    unfold saveTag
    simp [hnosave]
  obtain ⟨d1, hrun, hdata, hoff1, hroot⟩ := slice_counted_decode t (parseTag tag) name ct w cp n
    vs bs hstr hlen hk hn hvs hdec
    { d with tagCache := parseTag tag, errorContext := { d.errorContext with Field := fname } }
    (p ++ [Step.field i]) pre post cur hd hoff rfl hfind hcount hread hempty
  refine ⟨{ d1 with tagCache := [] }, ?_, hdata, hoff1, hroot⟩
  simp only [decodeFields, Dec.bind, hsave, Bool.not_true, Bool.or_false, hrun, Dec.modify, pure]

theorem take_eq_nil_iff_zero {α : Type} (l : List α) (n : Nat) (h : n ≤ l.length) :
    l.take n = [] ↔ n = 0 := by
  constructor
  · intro hc
    have := congrArg List.length hc
    rw [List.length_take, List.length_nil] at this
    omega
  · intro hc; simp [hc]

/-- The saved count of a sequence of fixed-shape elements. In a struct whose unsigned-integer
field `Count` is tagged `save-C` and whose sequence field `Items`, declared after it, is tagged
`len-C`: from a buffer that holds the encoding of `Count = n` followed by the encodings of at
least `n` elements, `Unmarshal` into a destination whose `Items` is empty stores `n` in `Count`
and makes `Items` exactly the first `n` encoded elements in wire order, whatever `Count` held in
the destination before (`c0`). The elements are of a fixed-shape type other than `string`,
`Items` carries no `save` tag of its own, and `n` is below `2 ^ 63`, as the length of every Go
slice is. With `Count = 2` and the elements `[0x11,0x22]`, `[0x33,0x44]` the result is exactly
these two elements in this order. -/
theorem counted_elements_decode (sname cname iname ctag itag name : String) (ct elem : GoType)
    (w n c0 : Nat) (elems : List Value) (items0 : Value) (post : List Nat)
    (hsname : sname ≠ "") (hct : uintWidth ct = some w)
    (hsave : (parseTag ctag).get "save" = some name)
    (hlen : (parseTag itag).get "len" = some name)
    (hnosave : (parseTag itag).get "save" = none)
    (helem : fixedShape elem (parseTag itag) = true) (hstr : elem ≠ .string)
    (hn : n < 256 ^ w) (hn63 : n < 2 ^ 63)
    (helems : ∀ x ∈ elems, hasType elem x = true ∧ zeroFree elem x = true)
    (hcount : n ≤ elems.length) (hitems0 : items0.elems = []) :
    ∃ cbytes ebytes e1 e2,
      encoderByIndex ct [] ⟨[], parseTag ctag⟩ (.uint n) = .ok e1 ∧ e1.buf = cbytes ∧
      encodeElems (encoderByIndex elem []) elems ⟨[], parseTag itag⟩ = .ok e2 ∧
      e2.buf = ebytes ∧
      ∃ d, Unmarshal (cbytes ++ ebytes ++ post)
          (some (.ptr (countedStruct sname cname iname ctag itag ct elem),
            .ptr (.struct [.uint c0, items0]))) = (.ok (), d) ∧
        d.root = .ptr (.struct [.uint n, if n = 0 then items0 else .slice (elems.take n)]) ∧
        (Unmarshal [2, 0x11, 0x22, 0x33, 0x44]
          (some (.ptr (countedStruct "T" "Count" "Items" "save-C" "len-C" .uint8
              (.array 2 .uint8)), .ptr (.struct [.uint 0, .nilSlice])))).2.root
          = .ptr (.struct [.uint 2, .slice [.array [.uint 0x11, .uint 0x22],
              .array [.uint 0x33, .uint 0x44]]]) := by
  obtain ⟨bs1, henc1, hdec1⟩ := slice_elems_round_trip elem (fixed_round_trips elem)
    (elems.take n) (parseTag itag) helem
    (fun x hx => helems x (List.mem_of_mem_take hx))
  have hm1 : fixedShape elem
      (if elems.take n = [] then parseTag itag else tagsAfter elem (parseTag itag)) = true := by
    split
    · exact helem
    · exact fixedShape_tagsAfter elem _ helem
  obtain ⟨bs2, henc2, _⟩ := slice_elems_round_trip elem (fixed_round_trips elem)
    (elems.drop n) _ hm1 (fun x hx => helems x (List.mem_of_mem_drop hx))
  obtain ⟨m2, hencAll⟩ : ∃ m2, encodeElems (encoderByIndex elem []) elems ⟨[], parseTag itag⟩
      = .ok ⟨bs1 ++ bs2, m2⟩ := by
    have key : encodeElems (encoderByIndex elem []) (elems.take n ++ elems.drop n)
        ⟨[], parseTag itag⟩
        = encodeElems (encoderByIndex elem []) (elems.drop n)
            ⟨bs1, if elems.take n = [] then parseTag itag
                  else tagsAfter elem (parseTag itag)⟩ := by
      rw [encodeElems_append, henc1 []]
      simp
    rw [List.take_append_drop] at key
    exact ⟨_, key.trans (henc2 bs1)⟩
  refine ⟨uintBytes w ((parseTag ctag).get "bigendian").isSome n, bs1 ++ bs2, _, _,
    uintEncoder_bytes ct w hct n _, by simp, hencAll, rfl, ?_⟩
  -- the struct is entered and the count field is read
  have hstep1 := decodeFields_uint_step cname false ctag ct
    (.cons iname true false itag (.slice elem) .nil) 0 [Step.elem]
    { decodeState.init (uintBytes w ((parseTag ctag).get "bigendian").isSome n
          ++ (bs1 ++ bs2) ++ post) .nilPtr with
      root := .ptr (.struct [.uint c0, items0]),
      errorContext := ⟨sname, ""⟩, structs := [sname] }
    w n [] (bs1 ++ bs2 ++ post) hct hn (by simp [decodeState.init, List.append_assoc])
    (by simp [decodeState.init])
  -- the sequence field is read with the saved count
  obtain ⟨d1, hrun, _, _, hroot⟩ := decodeFields_slice_last iname false itag elem 1 [Step.elem]
    { decodeState.init (uintBytes w ((parseTag ctag).get "bigendian").isSome n
          ++ (bs1 ++ bs2) ++ post) .nilPtr with
      off := 0 + w, tagCache := [], errorContext := ⟨sname, cname⟩, structs := [sname],
      savedValues := [(name, ct, [Step.elem, Step.field 0])],
      root := .ptr (.struct [.uint n, items0]) }
    name ct w [Step.elem, Step.field 0] n (elems.take n) bs1
    (uintBytes w ((parseTag ctag).get "bigendian").isSome n) (bs2 ++ post) items0
    hstr hlen hnosave hct hn63 (by simp [hcount])
    (fun d p pre post cur h1 h2 h3 h4 => hdec1 d p pre post cur h1 h2 h3 h4)
    (by simp [decodeState.init, List.append_assoc])
    (by
      simp only [decodeState.init]
      cases ct <;> simp only [uintWidth, Option.some.injEq, reduceCtorEq] at hct <;> subst hct <;>
        cases ((parseTag ctag).get "bigendian").isSome <;> rfl)
    (by simp)
    (by simp [Value.read, Value.child])
    (by simp [Value.read, Value.child])
    hitems0
  refine ⟨{ d1 with structs := d1.structs.dropLast }, ?_, ?_, by decide!⟩
  · simp only [Unmarshal, decodeState.unmarshal, countedStruct, value, Value.read, hsname,
      if_false, Bool.false_eq_true, Dec.bind, decodeState.init, List.nil_append,
      List.length_nil] at hstep1 ⊢
    rw [hstep1]
    simp only [savedAfter, hsave, List.singleton_append, Value.write, Value.child, Value.setChild,
      List.getElem?_cons_zero, List.set_cons_zero, Dec.modify, decodeState.init,
      Nat.zero_add] at hrun ⊢
    rw [hrun]
  · simp only [hroot]
    by_cases h0 : n = 0
    · have : elems.take n = [] := (take_eq_nil_iff_zero elems n hcount).mpr h0
      simp [this, h0]
    · have : elems.take n ≠ [] := fun hc => h0 ((take_eq_nil_iff_zero elems n hcount).mp hc)
      simp [this, h0, Value.write, Value.child, Value.setChild]

/-! ## `server.CharList` -/

theorem typeFields_tCharListCharacter :
    typeFields tCharListCharacter
      = [⟨"Name", [], [0], .string⟩, ⟨"Statstring", [], [1], .string⟩] := by decide!

theorem typeFields_tCharList :
    typeFields tCharList
      = [⟨"RequestCount", [], [0], .uint16⟩, ⟨"ExistCount", [], [1], .uint32⟩,
         ⟨"ReturnedCount", [("save", "CLReturned")], [2], .uint16⟩,
         ⟨"Characters", [("len", "CLReturned")], [3], .slice tCharListCharacter⟩] := by decide!

theorem encode_character (c : CharListCharacter) (buf : List Nat) (m : TagMap) :
    encoderByIndex tCharListCharacter [] ⟨buf, m⟩ c.toValue
      = .ok ⟨buf ++ (c.Name ++ [0] ++ (c.Statstring ++ [0])), []⟩ := by
  have h := typeFields_tCharListCharacter
  simp only [tCharListCharacter, structOf, FieldList.ofList, fld] at h
  simp only [tCharListCharacter, structOf, FieldList.ofList, fld, encoderByIndex, h, List.map,
    structEncoder.encode, CharListCharacter.toValue, fieldByIndex, Value.Field,
    fieldEncoderByIndex, stringEncoder, isEmptyValue]
  simp [List.append_assoc]

theorem encode_characters (cs : List CharListCharacter) (buf : List Nat) (m : TagMap) :
    encodeElems (encoderByIndex tCharListCharacter []) (cs.map CharListCharacter.toValue)
        ⟨buf, m⟩
      = .ok ⟨buf ++ charactersWire cs, if cs = [] then m else []⟩ := by
  induction cs generalizing buf m with
  | nil => simp [encodeElems, charactersWire]
  | cons c cs ih =>
    simp only [List.map_cons, encodeElems, encode_character, ih]
    simp [charactersWire, List.append_assoc]

theorem uintBytes_leastFirst (x : Nat) :
    (x < 2 ^ 16 → uintBytes 2 false x = leastFirst 2 x) ∧
    (x < 2 ^ 32 → uintBytes 4 false x = leastFirst 4 x) := by
  constructor <;> intro h <;>
    simp [uintBytes, leastFirst, List.range_succ, LittleEndian.PutUint16,
      LittleEndian.PutUint32, byte, Nat.shiftRight_eq_div_pow] <;> omega

theorem character_typed (c : CharListCharacter) (h : 0 ∉ c.Name ∧ 0 ∉ c.Statstring) :
    hasType tCharListCharacter c.toValue = true ∧
    zeroFree tCharListCharacter c.toValue = true := by
  simp [tCharListCharacter, structOf, FieldList.ofList, fld, CharListCharacter.toValue, hasType,
    hasFieldTypes, zeroFree, zeroFreeFields, h.1, h.2]

theorem encode_character_slice (cs : List CharListCharacter) (buf : List Nat) (m : TagMap)
    (hne : cs ≠ []) :
    encoderByIndex (.slice tCharListCharacter) [] ⟨buf, m⟩
        (.slice (cs.map CharListCharacter.toValue))
      = .ok ⟨buf ++ charactersWire cs, []⟩ := by
  rw [encoderByIndex]
  have hns : tCharListCharacter ≠ .string := by decide
  simp only [hns, if_false, sliceEncoder.encode, arrayEncoder.encode, Value.elems,
    encode_characters, hne]

theorem charactersWire_append (xs ys : List CharListCharacter) :
    charactersWire (xs ++ ys) = charactersWire xs ++ charactersWire ys := by
  simp [charactersWire]

theorem decodeFields_uint_step_ex (fname : String) (an : Bool) (tag : String) (ct : GoType)
    (rest : FieldList) (i : Nat) (p : Path) (d : decodeState) (w n : Nat) (pre post : List Nat)
    (hk : uintWidth ct = some w) (hn : n < 256 ^ w)
    (hd : d.data = pre ++ (uintBytes w ((parseTag tag).get "bigendian").isSome n ++ post))
    (hoff : d.off = pre.length) :
    ∃ d1, decodeFields (.cons fname true an tag ct rest) i p false d
        = decodeFields rest (i + 1) p false d1 ∧
      d1.data = d.data ∧ d1.off = pre.length + w ∧
      d1.savedValues = savedAfter (parseTag tag) ct (p ++ [Step.field i]) d.savedValues ∧
      d1.root = d.root.write (p ++ [Step.field i]) (.uint n) :=
  ⟨_, decodeFields_uint_step fname an tag ct rest i p d w n pre post hk hn hd hoff, rfl, rfl, rfl,
    rfl⟩

theorem value_struct_ok (name : String) (fs : FieldList) (p : Path) (d d1 : decodeState)
    (hname : name ≠ "")
    (h : decodeFields fs 0 p false
        { d with errorContext := { d.errorContext with Struct := name },
                 structs := d.structs ++ [name] } = (.ok (), d1)) :
    value (.struct name fs) p false d = (.ok (), { d1 with structs := d1.structs.dropLast }) := by
  simp only [value, hname, if_false, Bool.false_eq_true, Dec.bind, h, Dec.modify]

theorem Unmarshal_ptr (data : List Nat) (t : GoType) (x : Value) :
    Unmarshal data (some (.ptr t, .ptr x))
      = value t [Step.elem] false { decodeState.init data .nilPtr with root := .ptr x } := by
  simp only [Unmarshal, decodeState.unmarshal, value, Value.read, List.nil_append]

/-- The fields of a `CharList` (the loop of `decodeStruct`), from a state whose cursor is at the
start of the bytes of a `CharList` and whose destination is the zero `CharList`. -/
theorem charList_fields_decode (v : CharList)
    (hrq : v.RequestCount < 2 ^ 16) (hex : v.ExistCount < 2 ^ 32)
    (hrc : v.ReturnedCount < 2 ^ 16)
    (hz : ∀ c ∈ v.Characters, 0 ∉ c.Name ∧ 0 ∉ c.Statstring)
    (h1 : 1 ≤ v.ReturnedCount) (h2 : v.ReturnedCount ≤ v.Characters.length)
    (d0 : decodeState) (hdata : d0.data = v.wire) (hoff : d0.off = 0)
    (hroot : d0.root = .ptr (.struct [.uint 0, .uint 0, .uint 0, .nilSlice])) :
    ∃ d1, decodeFields
        (.cons "RequestCount" true false "" .uint16
          (.cons "ExistCount" true false "" .uint32
            (.cons "ReturnedCount" true false "save-CLReturned" .uint16
              (.cons "Characters" true false "len-CLReturned" (.slice tCharListCharacter)
                .nil)))) 0 [Step.elem] false d0 = (.ok (), d1) ∧
      d1.root = .ptr
        ({ v with Characters := v.Characters.take v.ReturnedCount } : CharList).toValue := by
  have hb16 := (uintBytes_leastFirst v.RequestCount).1 hrq
  have hb32 := (uintBytes_leastFirst v.ExistCount).2 hex
  have hc16 := (uintBytes_leastFirst v.ReturnedCount).1 hrc
  have hnb0 : ((parseTag "").get "bigendian").isSome = false := by decide
  have hnb1 : ((parseTag "save-CLReturned").get "bigendian").isSome = false := by decide
  have hfix : fixedShape tCharListCharacter (parseTag "len-CLReturned") = true := by decide!
  obtain ⟨bs1, henc1, hdec1⟩ := slice_elems_round_trip tCharListCharacter
    (fixed_round_trips tCharListCharacter)
    ((v.Characters.take v.ReturnedCount).map CharListCharacter.toValue)
    (parseTag "len-CLReturned") hfix
    (by
      intro x hx
      obtain ⟨c, hc, rfl⟩ := List.mem_map.mp hx
      exact character_typed c (hz c (List.mem_of_mem_take hc)))
  have hbs1 : bs1 = charactersWire (v.Characters.take v.ReturnedCount) := by
    have := (henc1 []).symm.trans (encode_characters _ [] _)
    simp only [Outcome.ok.injEq, encodeState.mk.injEq, List.nil_append] at this
    exact this.1
  subst hbs1
  have hw : v.wire = uintBytes 2 false v.RequestCount ++ (uintBytes 4 false v.ExistCount ++
      (uintBytes 2 false v.ReturnedCount ++
        (charactersWire (v.Characters.take v.ReturnedCount) ++
          charactersWire (v.Characters.drop v.ReturnedCount)))) := by
    rw [← charactersWire_append, List.take_append_drop, hb16, hb32, hc16]
    simp [CharList.wire, List.append_assoc]
  have htake : (v.Characters.take v.ReturnedCount) ≠ [] := by
    intro hc
    have := congrArg List.length hc
    rw [List.length_take, List.length_nil] at this
    omega
  obtain ⟨da, hra, hda, hoa, hsa, hrta⟩ := decodeFields_uint_step_ex "RequestCount" false ""
    .uint16 (.cons "ExistCount" true false "" .uint32
      (.cons "ReturnedCount" true false "save-CLReturned" .uint16
        (.cons "Characters" true false "len-CLReturned" (.slice tCharListCharacter) .nil)))
    0 [Step.elem] d0 2 v.RequestCount [] _ rfl hrq
    (by rw [hnb0, hdata, hw]; rfl) hoff
  obtain ⟨db, hrb, hdb, hob, hsb, hrtb⟩ := decodeFields_uint_step_ex "ExistCount" false ""
    .uint32 (.cons "ReturnedCount" true false "save-CLReturned" .uint16
        (.cons "Characters" true false "len-CLReturned" (.slice tCharListCharacter) .nil))
    1 [Step.elem] da 4 v.ExistCount (uintBytes 2 false v.RequestCount) _ rfl hex
    (by rw [hnb0, hda, hdata, hw]) (by rw [hoa]; rfl)
  obtain ⟨dc, hrc2, hdc, hoc, hsc, hrtc⟩ := decodeFields_uint_step_ex "ReturnedCount" false
    "save-CLReturned" .uint16
    (.cons "Characters" true false "len-CLReturned" (.slice tCharListCharacter) .nil)
    2 [Step.elem] db 2 v.ReturnedCount
    (uintBytes 2 false v.RequestCount ++ uintBytes 4 false v.ExistCount) _ rfl hrc
    (by rw [hnb1, hdb, hda, hdata, hw, List.append_assoc])
    (by rw [hob]; simp; rfl)
  have hrootc : dc.root = .ptr (.struct [.uint v.RequestCount, .uint v.ExistCount,
      .uint v.ReturnedCount, .nilSlice]) := by
    rw [hrtc, hrtb, hrta, hroot]
    simp [Value.write, Value.child, Value.setChild]
  obtain ⟨d1, hr1, _, _, hrt1⟩ := decodeFields_slice_last "Characters" false "len-CLReturned"
    tCharListCharacter 3 [Step.elem] dc "CLReturned" .uint16 2 [Step.elem, Step.field 2]
    v.ReturnedCount ((v.Characters.take v.ReturnedCount).map CharListCharacter.toValue)
    (charactersWire (v.Characters.take v.ReturnedCount))
    (uintBytes 2 false v.RequestCount ++ uintBytes 4 false v.ExistCount
      ++ uintBytes 2 false v.ReturnedCount)
    (charactersWire (v.Characters.drop v.ReturnedCount)) .nilSlice
    (by decide) (by decide) (by decide) rfl (by omega) (by simp [h2])
    (fun d p pre post cur h1 h2 h3 h4 => hdec1 d p pre post cur h1 h2 h3 h4)
    (by rw [hdc, hdb, hda, hdata, hw]; simp [List.append_assoc])
    (by rw [hoc]; simp; rfl)
    (by
      rw [hsc]
      have : (parseTag "save-CLReturned").get "save" = some "CLReturned" := by decide
      simp [savedAfter, this])
    (by rw [hrootc]; simp [Value.read, Value.child])
    (by rw [hrootc]; simp [Value.read, Value.child])
    rfl
  refine ⟨d1, ?_, ?_⟩
  · rw [hra, hrb, hrc2, hr1]
  · have hrc0 : v.ReturnedCount ≠ 0 := by omega
    have hne : v.Characters ≠ [] := by
      intro hc; rw [hc] at h2; simp at h2; omega
    rw [hrt1, hrootc]
    simp [hrc0, hne, Value.write, Value.child, Value.setChild, CharList.toValue]

/-- C2. A `server.CharList` whose strings hold no zero byte and whose `ReturnedCount` is between
1 and the number of `Characters`: `Marshal` succeeds and writes the three counts and the
characters, with no other element count; `Unmarshal` of those bytes into a zero `CharList`
succeeds and yields the value with `Characters` cut to its first `ReturnedCount` elements, which
is the value itself exactly when `ReturnedCount` is the number of `Characters`. -/
theorem charList_round_trip (v : CharList)
    (hrq : v.RequestCount < 2 ^ 16) (hex : v.ExistCount < 2 ^ 32)
    (hrc : v.ReturnedCount < 2 ^ 16)
    (hz : ∀ c ∈ v.Characters, 0 ∉ c.Name ∧ 0 ∉ c.Statstring)
    (h1 : 1 ≤ v.ReturnedCount) (h2 : v.ReturnedCount ≤ v.Characters.length) :
    Marshal (some (tCharList, v.toValue)) = .ok v.wire ∧
    ∃ d, Unmarshal v.wire (some (.ptr tCharList, .ptr (zeroValue tCharList))) = (.ok (), d) ∧
      d.root = .ptr
        ({ v with Characters := v.Characters.take v.ReturnedCount } : CharList).toValue ∧
      (d.root = .ptr v.toValue ↔ v.ReturnedCount = v.Characters.length) := by
  have hne : v.Characters ≠ [] := by
    intro hc; rw [hc] at h2; simp at h2; omega
  have hb16 := (uintBytes_leastFirst v.RequestCount).1 hrq
  have hb32 := (uintBytes_leastFirst v.ExistCount).2 hex
  have hc16 := (uintBytes_leastFirst v.ReturnedCount).1 hrc
  have hp0 : parseTag "" = [] := by decide
  have hp1 : parseTag "save-CLReturned" = [("save", "CLReturned")] := by decide
  have hp2 : parseTag "len-CLReturned" = [("len", "CLReturned")] := by decide
  constructor
  · have h := typeFields_tCharList
    simp only [tCharList, structOf, FieldList.ofList, fld] at h
    simp only [Marshal, encodeState.marshal, encodeState.reflectValue, typeEncoder, tCharList,
      structOf, FieldList.ofList, fld]
    rw [encoderByIndex, h]
    simp only [List.map, structEncoder.encode, CharList.toValue, fieldByIndex, Value.Field,
      fieldEncoderByIndex, isEmptyValue, List.getElem?_cons_zero, List.getElem?_cons_succ,
      uintEncoder_bytes .uint16 2 rfl, uintEncoder_bytes .uint32 4 rfl,
      encode_character_slice _ _ _ hne, Bool.false_eq_true, if_false, List.length_map,
      beq_iff_eq, List.length_eq_zero, hne]
    simp [TagMap.get, hb16, hb32, hc16, CharList.wire, List.append_assoc]
  · obtain ⟨d1, hrun, hroot⟩ := charList_fields_decode v hrq hex hrc hz h1 h2
      { ({ decodeState.init v.wire .nilPtr with
            root := .ptr (.struct [.uint 0, .uint 0, .uint 0, .nilSlice]) } : decodeState) with
        errorContext := { ({ decodeState.init v.wire .nilPtr with
            root := .ptr (.struct [.uint 0, .uint 0, .uint 0, .nilSlice]) }
              : decodeState).errorContext with Struct := "CharList" },
        structs := ({ decodeState.init v.wire .nilPtr with
            root := .ptr (.struct [.uint 0, .uint 0, .uint 0, .nilSlice]) }
              : decodeState).structs ++ ["CharList"] } rfl rfl rfl
    have hval := value_struct_ok "CharList" _ [Step.elem] _ d1 (by decide) hrun
    refine ⟨{ d1 with structs := d1.structs.dropLast }, ?_, hroot, ?_⟩
    · rw [Unmarshal_ptr]
      exact hval
    · simp only [hroot, CharList.toValue, Value.ptr.injEq, Value.struct.injEq, List.cons.injEq,
        Value.slice.injEq, true_and, and_true]
      constructor
      · intro h
        have := congrArg List.length h
        simp only [List.length_map, List.length_take] at this
        omega
      · intro h
        rw [h, List.take_length]

theorem charList_round_trip_witness :
    Marshal (some (tCharList, sampleCharList.toValue)) = .ok sampleCharList.wire ∧
    ∃ d, Unmarshal sampleCharList.wire
        (some (.ptr tCharList, .ptr (zeroValue tCharList))) = (.ok (), d) ∧
      d.root = .ptr
        ({ sampleCharList with
           Characters := sampleCharList.Characters.take sampleCharList.ReturnedCount }
          : CharList).toValue ∧
      (d.root = .ptr sampleCharList.toValue
        ↔ sampleCharList.ReturnedCount = sampleCharList.Characters.length) :=
  charList_round_trip sampleCharList (by decide) (by decide) (by decide) (by decide)
    (by decide) (by decide)

/-! ## Integers, strings and booleans on the wire -/

/-- C4. An unsigned integer of `w` bytes (`w` in 1, 2, 4, 8) is written as exactly `w` bytes:
least-significant byte first when the tags of the field lack `bigendian`, the same bytes in
reverse order when they have it. The `uint32` value `0x01020304` gives `[4,3,2,1]` by default
and `[1,2,3,4]` with `bigendian`. -/
theorem uintEncoder_byte_order (k : GoType) (w : Nat) (hk : uintWidth k = some w)
    (e : encodeState) (x : Nat) (hx : x < 256 ^ w) :
    (leastFirst w x).length = w ∧
    uintEncoder k e (.uint x)
      = .ok { e with buf := e.buf ++
          if e.tagCache.get "bigendian" = none then leastFirst w x
          else (leastFirst w x).reverse } ∧
    Marshal (some (structOf "S" [fld "F" "" .uint32], .struct [.uint 0x01020304]))
      = .ok [0x04, 0x03, 0x02, 0x01] ∧
    Marshal (some (structOf "S" [fld "F" "bigendian" .uint32], .struct [.uint 0x01020304]))
      = .ok [0x01, 0x02, 0x03, 0x04] := by
  refine ⟨leastFirst_length w x, ?_, by decide!, by decide!⟩
  cases hb : e.tagCache.get "bigendian" with
  | none =>
    cases k <;> simp [uintWidth] at hk <;> subst hk <;>
      simp [uintEncoder, Value.Uint, hb, leastFirst, List.range_succ, LittleEndian.PutUint16,
        LittleEndian.PutUint32, LittleEndian.PutUint64, byte, Nat.shiftRight_eq_div_pow] <;>
      omega
  | some val =>
    cases k <;> simp [uintWidth] at hk <;> subst hk <;>
      simp [uintEncoder, Value.Uint, hb, leastFirst, List.range_succ, BigEndian.PutUint16,
        BigEndian.PutUint32, BigEndian.PutUint64, byte, Nat.shiftRight_eq_div_pow] <;>
      omega

theorem uintEncoder_byte_order_witness :
    (leastFirst 2 0x1234).length = 2 ∧
    uintEncoder .uint16 ⟨[7], [("bigendian", "")]⟩ (.uint 0x1234)
      = .ok { (⟨[7], [("bigendian", "")]⟩ : encodeState) with buf := [7] ++
          if (TagMap.get [("bigendian", "")] "bigendian") = none then leastFirst 2 0x1234
          else (leastFirst 2 0x1234).reverse } ∧
    Marshal (some (structOf "S" [fld "F" "" .uint32], .struct [.uint 0x01020304]))
      = .ok [0x04, 0x03, 0x02, 0x01] ∧
    Marshal (some (structOf "S" [fld "F" "bigendian" .uint32], .struct [.uint 0x01020304]))
      = .ok [0x01, 0x02, 0x03, 0x04] :=
  uintEncoder_byte_order .uint16 2 rfl ⟨[7], [("bigendian", "")]⟩ 0x1234 (by decide)

/-- C5. A string is written as its bytes followed by one zero byte, with no length before it; a
sequence of strings is written as the strings, each so terminated, followed by one more zero
byte. `"Conan"` gives `C,o,n,a,n,0` and `["a","b"]` gives `a,0,b,0,0`. -/
theorem string_wire_format :
    (∀ (e : encodeState) (s : List Nat),
      stringEncoder e (.str s) = .ok { e with buf := e.buf ++ s ++ [0] }) ∧
    (∀ s : List Nat, Marshal (some (.string, .str s)) = .ok (s ++ [0]) ∧
      (s ++ [0]).length = s.length + 1) ∧
    (∀ (e : encodeState) (ss : List (List Nat)),
      encodeStringSlice e (.slice (ss.map .str))
        = .ok { e with buf := e.buf ++ (ss.map (fun s => s ++ [0])).flatten ++ [0] }) ∧
    (∀ ss : List (List Nat), Marshal (some (.slice .string, .slice (ss.map .str)))
        = .ok ((ss.map (fun s => s ++ [0])).flatten ++ [0])) ∧
    Marshal (some (.string, .str [0x43, 0x6f, 0x6e, 0x61, 0x6e]))
      = .ok [0x43, 0x6f, 0x6e, 0x61, 0x6e, 0x00] ∧
    Marshal (some (.slice .string, .slice [.str [0x61], .str [0x62]]))
      = .ok [0x61, 0x00, 0x62, 0x00, 0x00] := by
  refine ⟨fun e s => rfl, fun s => ⟨?_, by simp⟩, ?_, ?_, by decide!, by decide!⟩
  · simp [Marshal, encodeState.marshal, encodeState.reflectValue, typeEncoder, encoderByIndex,
      stringEncoder]
  · intro e ss
    simp [encodeStringSlice, Value.elems, encodeElems_string]
  · intro ss
    simp [Marshal, encodeState.marshal, encodeState.reflectValue, typeEncoder, encoderByIndex,
      encodeStringSlice, Value.elems, encodeElems_string]

/-- C6. A sequence (empty or not) of non-empty strings without zero bytes, written by `encodeStringSlice` after
any bytes already in the buffer, is read back by `readStringList` from the cursor at which those
bytes start: exactly that sequence, in order, without the empty terminator element, and the
cursor ends just past the final zero byte. -/
theorem string_sequence_round_trip (ss : List (List Nat)) (e : encodeState)
    (hall : ∀ s ∈ ss, s ≠ [] ∧ 0 ∉ s) :
    ∃ e1, encodeStringSlice e (.slice (ss.map .str)) = .ok e1 ∧
      ∀ (d : decodeState) (post : List Nat),
        d.data = e1.buf ++ post → d.off = e.buf.length →
        readStringList d = (.ok ss, { d with off := e1.buf.length }) := by
  refine ⟨{ e with buf := e.buf ++ ((ss.map (fun s => s ++ [0])).flatten ++ [0]) },
    by simp [encodeStringSlice, Value.elems, encodeElems_string], ?_⟩
  intro d post hd hoff
  simp only at hd
  have hlen : ss.length < d.data.length + 1 := by
    have hle : ∀ l : List (List Nat), l.length ≤ (l.map (fun s => s ++ [0])).flatten.length := by
      intro l
      induction l with
      | nil => simp
      | cons a l ih => simp at ih ⊢; omega
    have := hle ss
    rw [hd]
    simp only [List.length_append]
    omega
  have h := readStringListLoop_encoded ss (d.data.length + 1) [] d e.buf post hall hlen
    (by simp [hd, List.append_assoc]) hoff
  unfold readStringList
  rw [h]
  simp [List.append_assoc]

theorem string_sequence_round_trip_witness :
    ∃ e1, encodeStringSlice ⟨[7], []⟩ (.slice (([[0x61], [0x62]] : List (List Nat)).map .str))
        = .ok e1 ∧
      ∀ (d : decodeState) (post : List Nat),
        d.data = e1.buf ++ post → d.off = (⟨[7], []⟩ : encodeState).buf.length →
        readStringList d = (.ok [[0x61], [0x62]], { d with off := e1.buf.length }) :=
  string_sequence_round_trip [[0x61], [0x62]] ⟨[7], []⟩ (by decide)

/-- C7. When the first zero byte at or after the cursor stands `k` bytes after it, `readString`
returns exactly the `k` bytes before that zero byte and moves the cursor by `k + 1`, with no
error. -/
theorem readString_terminated (d : decodeState) (k : Nat)
    (hzero : d.data[d.off + k]? = some 0)
    (hfirst : ∀ j, j < k → d.data[d.off + j]? ≠ some 0) :
    readString d = (.ok ((d.data.drop d.off).take k), { d with off := d.off + k + 1 }) ∧
    ((d.data.drop d.off).take k).length = k := by
  have hlen : d.off + k < d.data.length := by
    by_contra hc
    rw [List.getElem?_eq_none (by omega)] at hzero
    exact absurd hzero (by simp)
  have hscan := readStringScan_found d.data d.off k hzero hfirst d.data.length 0
    (by omega) (by omega)
  refine ⟨?_, ?_⟩
  · unfold readString
    rw [hscan]
    simp only [show ¬ (d.off + k > d.data.length) by omega, if_false]
  · simp [List.length_take, List.length_drop]; omega

theorem readString_terminated_witness :
    readString (decodeState.init [0x41, 0x00] .nilPtr)
      = (.ok ((([0x41, 0x00] : List Nat).drop 0).take 1),
         { decodeState.init [0x41, 0x00] .nilPtr with off := 0 + 1 + 1 }) ∧
    ((([0x41, 0x00] : List Nat).drop 0).take 1).length = 1 :=
  readString_terminated (decodeState.init [0x41, 0x00] .nilPtr) 1 (by decide)
    (by intro j hj; interval_cases j; decide)

/-- C8 (the code at the failing input). `Unmarshal` of the three bytes `abc`, which hold no zero
byte, into a string returns no error: the destination becomes `"abc"` and the cursor ends at 4,
one past the end of the buffer. -/
theorem readString_unterminated_returns :
    Unmarshal [0x61, 0x62, 0x63] (some (.ptr .string, .ptr (.str [])))
      = (.ok (), { decodeState.init [0x61, 0x62, 0x63] (.ptr (.str [0x61, 0x62, 0x63]))
                   with off := 4 }) := by
  decide!

/-- C9. A boolean whose field is tagged `size-uint8` is written as the one byte 1 or 0, and one
tagged `size-uint32` (without `bigendian`) as the four bytes `[1,0,0,0]` or `[0,0,0,0]`. -/
theorem boolEncoder_width (e : encodeState) (b : Bool) (size : String)
    (hsize : e.tagCache.get "size" = some size) (hval : size = "uint8" ∨ size = "uint32")
    (hbig : e.tagCache.get "bigendian" = none) :
    boolEncoder e (.bool b)
      = .ok { e with buf := e.buf ++
          if size = "uint8" then [if b then 1 else 0] else [if b then 1 else 0, 0, 0, 0] } ∧
    (∀ c : Bool, Marshal (some (structOf "S" [fld "B" "size-uint8" .bool], .struct [.bool c]))
      = .ok [if c then 0x01 else 0x00]) ∧
    (∀ c : Bool, Marshal (some (structOf "S" [fld "B" "size-uint32" .bool], .struct [.bool c]))
      = .ok [if c then 0x01 else 0x00, 0x00, 0x00, 0x00]) := by
  refine ⟨?_, fun c => by cases c <;> decide!, fun c => by cases c <;> decide!⟩
  rcases hval with h | h <;> subst h <;> cases b <;>
    simp [boolEncoder, hsize, uintEncoder, Value.Uint, hbig, LittleEndian.PutUint32, byte]

theorem boolEncoder_width_witness :
    boolEncoder ⟨[9], [("size", "uint32")]⟩ (.bool true)
      = .ok { (⟨[9], [("size", "uint32")]⟩ : encodeState) with buf := [9] ++
          if "uint32" = "uint8" then [if true then 1 else 0]
          else [if true then 1 else 0, 0, 0, 0] } ∧
    (∀ c : Bool, Marshal (some (structOf "S" [fld "B" "size-uint8" .bool], .struct [.bool c]))
      = .ok [if c then 0x01 else 0x00]) ∧
    (∀ c : Bool, Marshal (some (structOf "S" [fld "B" "size-uint32" .bool], .struct [.bool c]))
      = .ok [if c then 0x01 else 0x00, 0x00, 0x00, 0x00]) :=
  boolEncoder_width ⟨[9], [("size", "uint32")]⟩ true "uint32" (by decide) (by decide) (by decide)

/-- C10. Without a `size` tag a boolean is neither written nor read: `boolEncoder` and
`decodeBool` both fail with `TagDefinitionRequiredError` for the tag `size`; with a `size` value
other than `uint8` and `uint32` both fail with `InvalidTagValueError` carrying that value. The
decoder fails without moving the cursor. The same holds through `Marshal` and `Unmarshal`. -/
theorem bool_requires_size (m : TagMap) (size : Option String)
    (hsize : m.get "size" = size) (hbad : size ≠ some "uint8" ∧ size ≠ some "uint32") :
    (∀ (buf : List Nat) (b : Bool),
      boolEncoder ⟨buf, m⟩ (.bool b) = .error (sizeTagError size "" "")) ∧
    (∀ d : decodeState, d.tagCache = m →
      decodeBool d
        = (.error (sizeTagError size d.errorContext.Struct d.errorContext.Field), d)) ∧
    (∀ b : Bool, Marshal (some (structOf "S" [fld "B" "" .bool], .struct [.bool b]))
      = .error (.TagDefinitionRequiredError "size" "" "")) ∧
    (∀ b : Bool, Marshal (some (structOf "S" [fld "B" "size-uint16" .bool], .struct [.bool b]))
      = .error (.InvalidTagValueError "uint8 or uint32" "uint16" "" "")) ∧
    (Unmarshal [1] (some (.ptr (structOf "S" [fld "B" "" .bool]), .ptr (.struct [.bool false])))).1
      = .error (.TagDefinitionRequiredError "size" "S" "B") ∧
    (Unmarshal [1] (some (.ptr (structOf "S" [fld "B" "" .bool]),
      .ptr (.struct [.bool false])))).2.off = 0 ∧
    (Unmarshal [1] (some (.ptr (structOf "S" [fld "B" "size-uint16" .bool]),
      .ptr (.struct [.bool false])))).1
      = .error (.InvalidTagValueError "uint8 or uint32" "uint16" "S" "B") ∧
    (Unmarshal [1] (some (.ptr (structOf "S" [fld "B" "size-uint16" .bool]),
      .ptr (.struct [.bool false])))).2.off = 0 := by
  refine ⟨?_, ?_, fun b => by cases b <;> decide!, fun b => by cases b <;> decide!,
    by decide!, by decide!, by decide!, by decide!⟩
  · intro buf b
    cases size with
    | none => simp [boolEncoder, hsize, sizeTagError]
    | some val =>
      have h1 : val ≠ "uint8" := fun h => hbad.1 (by rw [h])
      have h2 : val ≠ "uint32" := fun h => hbad.2 (by rw [h])
      simp [boolEncoder, hsize, sizeTagError, h1, h2]
  · intro d hd
    rw [← addErrorContext_sizeTagError]
    cases size with
    | none => simp [decodeBool, hd, hsize, sizeTagError, decodeState.error]
    | some val =>
      have h1 : val ≠ "uint8" := fun h => hbad.1 (by rw [h])
      have h2 : val ≠ "uint32" := fun h => hbad.2 (by rw [h])
      simp [decodeBool, hd, hsize, sizeTagError, decodeState.error, h1, h2, bind, Dec.bind]

theorem bool_requires_size_witness :
    (∀ (buf : List Nat) (b : Bool),
      boolEncoder ⟨buf, [("size", "uint16")]⟩ (.bool b)
        = .error (sizeTagError (some "uint16") "" "")) ∧
    (∀ d : decodeState, d.tagCache = [("size", "uint16")] →
      decodeBool d
        = (.error (sizeTagError (some "uint16") d.errorContext.Struct d.errorContext.Field),
           d)) ∧
    (∀ b : Bool, Marshal (some (structOf "S" [fld "B" "" .bool], .struct [.bool b]))
      = .error (.TagDefinitionRequiredError "size" "" "")) ∧
    (∀ b : Bool, Marshal (some (structOf "S" [fld "B" "size-uint16" .bool], .struct [.bool b]))
      = .error (.InvalidTagValueError "uint8 or uint32" "uint16" "" "")) ∧
    (Unmarshal [1] (some (.ptr (structOf "S" [fld "B" "" .bool]), .ptr (.struct [.bool false])))).1
      = .error (.TagDefinitionRequiredError "size" "S" "B") ∧
    (Unmarshal [1] (some (.ptr (structOf "S" [fld "B" "" .bool]),
      .ptr (.struct [.bool false])))).2.off = 0 ∧
    (Unmarshal [1] (some (.ptr (structOf "S" [fld "B" "size-uint16" .bool]),
      .ptr (.struct [.bool false])))).1
      = .error (.InvalidTagValueError "uint8 or uint32" "uint16" "S" "B") ∧
    (Unmarshal [1] (some (.ptr (structOf "S" [fld "B" "size-uint16" .bool]),
      .ptr (.struct [.bool false])))).2.off = 0 :=
  bool_requires_size [("size", "uint16")] (some "uint16") (by decide) (by decide)

/-! ## Decode errors: booleans and truncated integers -/

theorem addErrorContext_indexOutOfRange (d : decodeState) (n off : Nat) :
    d.addErrorContext (.IndexOutOfRangeError n off "" "")
      = .IndexOutOfRangeError n off d.errorContext.Struct d.errorContext.Field := by
  simp only [decodeState.addErrorContext]
  split
  · rfl
  · rename_i h
    simp only [not_or, not_not] at h
    rw [h.1, h.2]

theorem addErrorContext_invalidValue (d : decodeState) (raw : List Nat) :
    d.addErrorContext (.InvalidValueError "" "" raw)
      = .InvalidValueError d.errorContext.Struct d.errorContext.Field raw := by
  simp only [decodeState.addErrorContext]
  split
  · rfl
  · rename_i h
    simp only [not_or, not_not] at h
    rw [h.1, h.2]

theorem readBytes_short (n : Nat) (d : decodeState) (h : d.data.length < d.off + n) :
    readBytes n d
      = (.error (.IndexOutOfRangeError n d.off d.errorContext.Struct d.errorContext.Field),
         d) := by
  unfold readBytes
  rw [if_pos (by omega)]
  simp only [decodeState.error, addErrorContext_indexOutOfRange]

theorem readBytes_enough (n : Nat) (d : decodeState) (h : d.off + n ≤ d.data.length) :
    readBytes n d = (.ok ((d.data.drop d.off).take n), { d with off := d.off + n }) := by
  unfold readBytes
  rw [if_neg (by omega)]

/-- After a read of `n` bytes that succeeded, the rewind by `n` bytes succeeds and restores the
state before the read. -/
theorem unreadBytes_after_read (n : Nat) (d d1 : decodeState) (raw : List Nat)
    (h : readBytes n d = (.ok raw, d1)) : unreadBytes n d1 = (.ok (), d) := by
  unfold readBytes at h
  split at h
  · simp [decodeState.error] at h
  · simp only [Prod.mk.injEq, Outcome.ok.injEq] at h
    obtain ⟨_, rfl⟩ := h
    simp [unreadBytes]

theorem wireValue_one (big : Bool) (raw : List Nat) (h : raw.length = 1) :
    wireValue big raw = raw.getD 0 0 := by
  obtain ⟨b, rfl⟩ := List.length_eq_one.mp h
  cases big <;> simp [wireValue, BigEndian.Uint, LittleEndian.Uint]

theorem decodeBool_read (d : decodeState) (size : String) (w : Nat)
    (hsize : d.tagCache.get "size" = some size)
    (hw : (size = "uint8" ∧ w = 1) ∨ (size = "uint32" ∧ w = 4))
    (henough : d.off + w ≤ d.data.length) :
    decodeBool d =
      if wireValue (d.tagCache.get "bigendian").isSome ((d.data.drop d.off).take w) ≠ 0 ∧
          wireValue (d.tagCache.get "bigendian").isSome ((d.data.drop d.off).take w) ≠ 1 then
        (.error (.InvalidValueError d.errorContext.Struct d.errorContext.Field
          ((d.data.drop d.off).take w)), { d with off := d.off + w })
      else
        (.ok (decide (wireValue (d.tagCache.get "bigendian").isSome
          ((d.data.drop d.off).take w) = 1)), { d with off := d.off + w }) := by
  rcases hw with ⟨rfl, rfl⟩ | ⟨rfl, rfl⟩
  · have hr := readBytes_enough 1 d henough
    have hlen : ((d.data.drop d.off).take 1).length = 1 := by
      rw [List.length_take, List.length_drop]; omega
    rw [wireValue_one _ _ hlen]
    simp only [decodeBool, hsize, if_true, bind, Dec.bind, decodeUint8, hr, pure]
    split
    · have hu : unreadBytes 1 { d with off := d.off + 1 } = (.ok (), d) :=
        unreadBytes_after_read 1 d _ _ hr
      simp only [Dec.bind, hu, hr, decodeState.error, addErrorContext_invalidValue]
    · rfl
  · have hr := readBytes_enough 4 d henough
    have h8 : ("uint32" : String) ≠ "uint8" := by decide
    simp only [decodeBool, hsize, h8, if_false, if_true, bind, Dec.bind, decodeUint32, decodeUintN,
      wireValue]
    cases hb : (d.tagCache.get "bigendian").isSome <;>
      simp only [Bool.false_eq_true, if_false, if_true, bind, Dec.bind, hr, pure]
    all_goals
      split
      · have hu : unreadBytes 4 { d with off := d.off + 4 } = (.ok (), d) :=
          unreadBytes_after_read 4 d _ _ hr
        simp only [Dec.bind, hu, hr, decodeState.error, addErrorContext_invalidValue]
      · rfl

/-- An error met while the first field of a struct is decoded ends the decoding of the struct
with that error. -/
theorem value_struct_first_error (name fname tag : String) (an : Bool) (t : GoType)
    (rest : FieldList) (p : Path) (d d2 : decodeState) (err : BnetError) (hname : name ≠ "")
    (h : value t (p ++ [Step.field 0]) false
        { d with tagCache := parseTag tag, errorContext := ⟨name, fname⟩,
                 structs := d.structs ++ [name],
                 savedValues := savedAfter (parseTag tag) t (p ++ [Step.field 0]) d.savedValues }
          = (.error err, d2)) :
    value (.struct name (.cons fname true an tag t rest)) p false d = (.error err, d2) := by
  simp only [value, hname, if_false, Bool.false_eq_true, decodeFields, Dec.bind, saveTag,
    Bool.not_true, Bool.or_self]
  simp only [savedAfter] at h
  cases hs : (parseTag tag).get "save" <;> rw [hs] at h <;> simp only [h]

theorem value_bool_error (p : Path) (d d1 : decodeState) (err : BnetError)
    (h : decodeBool d = (.error err, d1)) : value .bool p false d = (.error err, d1) := by
  simp only [value, bind, Dec.bind, h]

theorem unmarshal_bool_rejects (tag size : String) (w : Nat) (raw : List Nat) (b0 : Bool)
    (hsize : (parseTag tag).get "size" = some size)
    (hw : (size = "uint8" ∧ w = 1) ∨ (size = "uint32" ∧ w = 4))
    (hraw : raw.length = w)
    (h0 : wireValue ((parseTag tag).get "bigendian").isSome raw ≠ 0)
    (h1 : wireValue ((parseTag tag).get "bigendian").isSome raw ≠ 1) :
    (Unmarshal raw (some (.ptr (structOf "S" [fld "B" tag .bool]), .ptr (.struct [.bool b0])))).1
      = .error (.InvalidValueError "S" "B" raw) := by
  rw [Unmarshal_ptr]
  simp only [structOf, FieldList.ofList, fld]
  have hd := decodeBool_read
    { data := raw, off := 0, errorContext := ⟨"S", "B"⟩, structs := [] ++ ["S"],
      savedValues := savedAfter (parseTag tag) .bool ([Step.elem] ++ [Step.field 0]) [],
      tagCache := parseTag tag, root := .ptr (.struct [.bool b0]) } size w hsize hw
    (by simp [hraw])
  simp only [List.drop_zero, ← hraw, List.take_length] at hd
  rw [if_pos ⟨h0, h1⟩] at hd
  rw [value_struct_first_error "S" "B" tag false .bool .nil [Step.elem] _ _ _ (by decide)
    (value_bool_error _ _ _ _ hd)]

theorem decodeUintOfWidth_short (w : Nat) (hw : w = 1 ∨ w = 2 ∨ w = 4 ∨ w = 8)
    (d : decodeState) (h : d.data.length < d.off + w) :
    decodeUintOfWidth w d
      = (.error (.IndexOutOfRangeError w d.off d.errorContext.Struct d.errorContext.Field),
         d) := by
  rcases hw with rfl | rfl | rfl | rfl <;>
    simp only [decodeUintOfWidth, decodeUint8, decodeUint16, decodeUint32, decodeUint64,
      decodeUintN, bind, Dec.bind, readBytes_short _ d h, ite_self]

theorem decodeUintOfWidth_enough (w : Nat) (hw : w = 1 ∨ w = 2 ∨ w = 4 ∨ w = 8)
    (d : decodeState) (h : d.off + w ≤ d.data.length) :
    decodeUintOfWidth w d
      = (.ok (wireValue (d.tagCache.get "bigendian").isSome ((d.data.drop d.off).take w)),
         { d with off := d.off + w }) := by
  rcases hw with rfl | rfl | rfl | rfl
  · have hlen : ((d.data.drop d.off).take 1).length = 1 := by
      rw [List.length_take, List.length_drop]; omega
    simp only [decodeUintOfWidth, decodeUint8, bind, Dec.bind, readBytes_enough _ d h, pure,
      wireValue_one _ _ hlen]
  all_goals
    cases hb : (d.tagCache.get "bigendian").isSome <;>
      simp only [decodeUintOfWidth, decodeUint16, decodeUint32, decodeUint64,
        decodeUintN, bind, Dec.bind, readBytes_enough _ d h, pure, hb, wireValue,
        Bool.false_eq_true, if_false, if_true]

theorem value_uint_eq (t : GoType) (w : Nat) (hw : uintWidth t = some w) (p : Path) (ro : Bool) :
    value t p ro = Dec.bind (decodeUintOfWidth w) (fun x => setValue ro p (.uint x)) := by
  cases t <;> simp only [uintWidth, Option.some.injEq, reduceCtorEq] at hw <;> subst hw <;>
    simp only [value, decodeUintOfWidth] <;> rfl

theorem uintWidth_cases (t : GoType) (w : Nat) (hw : uintWidth t = some w) :
    w = 1 ∨ w = 2 ∨ w = 4 ∨ w = 8 := by
  cases t <;> simp only [uintWidth, Option.some.injEq, reduceCtorEq] at hw <;> omega

/-- C12. Truncated buffer. Decoding an unsigned integer of `w` bytes (`w` one of 1, 2, 4, 8) with
fewer than `w` bytes left fails with `IndexOutOfRangeError` whose `N` is `w` and whose `Offset`
is the cursor at the start of the read, and leaves the state, the cursor included, as it was;
with at least `w` bytes left it succeeds, returns the integer the `w` bytes stand for at the
byte order of the field, and advances the cursor by exactly `w`. The same holds for
`decodeState.value` at the unsigned integer type of that width, and `Unmarshal` of two bytes
into a `uint32` fails with `N = 4`, `Offset = 0`. -/
theorem uint_decode_truncated (t : GoType) (w : Nat) (hw : uintWidth t = some w)
    (d : decodeState) (p : Path) :
    (d.data.length < d.off + w →
      decodeUintOfWidth w d
        = (.error (.IndexOutOfRangeError w d.off d.errorContext.Struct d.errorContext.Field),
           d) ∧
      ∀ ro : Bool, value t p ro d
        = (.error (.IndexOutOfRangeError w d.off d.errorContext.Struct d.errorContext.Field),
           d)) ∧
    (d.off + w ≤ d.data.length →
      decodeUintOfWidth w d
        = (.ok (wireValue (d.tagCache.get "bigendian").isSome ((d.data.drop d.off).take w)),
           { d with off := d.off + w }) ∧
      value t p false d
        = (.ok (), { d with
            off := d.off + w,
            root := d.root.write p (.uint
              (wireValue (d.tagCache.get "bigendian").isSome ((d.data.drop d.off).take w))) })) ∧
    Unmarshal [0x01, 0x02] (some (.ptr .uint32, .ptr (.uint 0)))
      = (.error (.IndexOutOfRangeError 4 0 "" ""),
         decodeState.init [0x01, 0x02] (.ptr (.uint 0))) := by
  have hc := uintWidth_cases t w hw
  refine ⟨fun h => ⟨decodeUintOfWidth_short w hc d h, fun ro => ?_⟩,
    fun h => ⟨decodeUintOfWidth_enough w hc d h, ?_⟩, by decide!⟩
  · rw [value_uint_eq t w hw]
    simp only [Dec.bind, decodeUintOfWidth_short w hc d h]
  · rw [value_uint_eq t w hw]
    simp only [Dec.bind, decodeUintOfWidth_enough w hc d h, setValue, Bool.false_eq_true, if_false]

theorem uint_decode_truncated_witness :
    uintWidth .uint32 = some 4 ∧
    decodeUintOfWidth 4 (decodeState.init [0x01, 0x02] (.ptr (.uint 0)))
      = (.error (.IndexOutOfRangeError 4 0 "" ""),
         decodeState.init [0x01, 0x02] (.ptr (.uint 0))) ∧
    ∀ ro : Bool, value .uint32 [Step.elem] ro (decodeState.init [0x01, 0x02] (.ptr (.uint 0)))
      = (.error (.IndexOutOfRangeError 4 0 "" ""),
         decodeState.init [0x01, 0x02] (.ptr (.uint 0))) :=
  ⟨rfl, (uint_decode_truncated .uint32 4 rfl (decodeState.init [0x01, 0x02] (.ptr (.uint 0)))
    [Step.elem]).1 (by decide)⟩

/-- C11. A boolean field whose `size` tag is `uint8` (`w = 1`) or `uint32` (`w = 4`), with `w`
bytes left at the cursor: when the integer those bytes stand for, at the byte order of the
field, is neither 0 nor 1, `decodeBool` fails with `InvalidValueError` whose `Value` is exactly
those `w` bytes as they stand in the buffer; when it is 0 or 1 the result is `false` or `true`.
The rewind that precedes the second read undoes a read that succeeded, so its negative-cursor
failure is never met. Through `Unmarshal`: every single byte other than 0 and 1 (`[0x02]` among
them) under `size-uint8`, and every four bytes whose little-endian (under `bigendian`:
big-endian) value is neither 0 nor 1 under `size-uint32`, is rejected with those bytes. -/
theorem decodeBool_rejects_other_values (d : decodeState) (size : String) (w : Nat)
    (hsize : d.tagCache.get "size" = some size)
    (hw : (size = "uint8" ∧ w = 1) ∨ (size = "uint32" ∧ w = 4))
    (henough : d.off + w ≤ d.data.length) :
    (wireValue (d.tagCache.get "bigendian").isSome ((d.data.drop d.off).take w) ≠ 0 →
      wireValue (d.tagCache.get "bigendian").isSome ((d.data.drop d.off).take w) ≠ 1 →
      decodeBool d
        = (.error (.InvalidValueError d.errorContext.Struct d.errorContext.Field
            ((d.data.drop d.off).take w)), { d with off := d.off + w })) ∧
    (wireValue (d.tagCache.get "bigendian").isSome ((d.data.drop d.off).take w) = 0 →
      decodeBool d = (.ok false, { d with off := d.off + w })) ∧
    (wireValue (d.tagCache.get "bigendian").isSome ((d.data.drop d.off).take w) = 1 →
      decodeBool d = (.ok true, { d with off := d.off + w })) ∧
    (∀ (n : Nat) (d0 d1 : decodeState) (bs : List Nat),
      readBytes n d0 = (.ok bs, d1) → unreadBytes n d1 = (.ok (), d0)) ∧
    (∀ (x : Nat) (b0 : Bool), x ≠ 0 → x ≠ 1 →
      (Unmarshal [x] (some (.ptr (structOf "S" [fld "B" "size-uint8" .bool]),
        .ptr (.struct [.bool b0])))).1 = .error (.InvalidValueError "S" "B" [x])) ∧
    (∀ (x0 x1 x2 x3 : Nat) (b0 : Bool),
      LittleEndian.Uint [x0, x1, x2, x3] ≠ 0 → LittleEndian.Uint [x0, x1, x2, x3] ≠ 1 →
      (Unmarshal [x0, x1, x2, x3] (some (.ptr (structOf "S" [fld "B" "size-uint32" .bool]),
        .ptr (.struct [.bool b0])))).1 = .error (.InvalidValueError "S" "B" [x0, x1, x2, x3])) ∧
    (∀ (x0 x1 x2 x3 : Nat) (b0 : Bool),
      BigEndian.Uint [x0, x1, x2, x3] ≠ 0 → BigEndian.Uint [x0, x1, x2, x3] ≠ 1 →
      (Unmarshal [x0, x1, x2, x3]
        (some (.ptr (structOf "S" [fld "B" "size-uint32,bigendian" .bool]),
          .ptr (.struct [.bool b0])))).1
        = .error (.InvalidValueError "S" "B" [x0, x1, x2, x3])) := by
  have hd := decodeBool_read d size w hsize hw henough
  refine ⟨fun h0 h1 => ?_, fun h0 => ?_, fun h1 => ?_,
    fun n d0 d1 bs h => unreadBytes_after_read n d0 d1 bs h,
    fun x b0 h0 h1 => ?_, fun x0 x1 x2 x3 b0 h0 h1 => ?_, fun x0 x1 x2 x3 b0 h0 h1 => ?_⟩
  · rw [hd, if_pos ⟨h0, h1⟩]
  · rw [hd, if_neg (fun h => h.1 h0), h0]
    rfl
  · rw [hd, if_neg (fun h => h.2 h1), h1]
    rfl
  · exact unmarshal_bool_rejects "size-uint8" "uint8" 1 [x] b0 (by decide) (Or.inl ⟨rfl, rfl⟩) rfl
      (by rw [wireValue_one _ [x] rfl]; exact h0) (by rw [wireValue_one _ [x] rfl]; exact h1)
  · exact unmarshal_bool_rejects "size-uint32" "uint32" 4 [x0, x1, x2, x3] b0 (by decide)
      (Or.inr ⟨rfl, rfl⟩) rfl h0 h1
  · exact unmarshal_bool_rejects "size-uint32,bigendian" "uint32" 4 [x0, x1, x2, x3] b0
      (by decide) (Or.inr ⟨rfl, rfl⟩) rfl h0 h1

theorem decodeBool_rejects_other_values_witness :
    (decodeState.init [0x02] .nilPtr).off + 1 ≤ (decodeState.init [0x02] .nilPtr).data.length ∧
    decodeBool { decodeState.init [0x02] .nilPtr with tagCache := [("size", "uint8")] }
      = (.error (.InvalidValueError "" "" [0x02]),
         { decodeState.init [0x02] .nilPtr with tagCache := [("size", "uint8")], off := 1 }) ∧
    (Unmarshal [0x02] (some (.ptr (structOf "S" [fld "B" "size-uint8" .bool]),
      .ptr (.struct [.bool false])))).1 = .error (.InvalidValueError "S" "B" [0x02]) :=
  have h := decodeBool_rejects_other_values
    { decodeState.init [0x02] .nilPtr with tagCache := [("size", "uint8")] } "uint8" 1
    (by decide) (Or.inl ⟨rfl, rfl⟩) (by decide)
  ⟨by decide, h.1 (by decide) (by decide), h.2.2.2.2.1 2 false (by decide) (by decide)⟩

/-! ## Resolution of a saved count -/

theorem addErrorContext_undefinedSaved (d : decodeState) (name : String) :
    d.addErrorContext (.UndefinedSavedValueError name "" "")
      = .UndefinedSavedValueError name d.errorContext.Struct d.errorContext.Struct := by
  simp only [decodeState.addErrorContext]
  split
  · rfl
  · rename_i h
    simp only [not_or, not_not] at h
    rw [h.1]

theorem addErrorContext_invalidSaved (d : decodeState) (ex : String) (v : SavedText) :
    d.addErrorContext (.InvalidSavedValueError ex v "" "")
      = .InvalidSavedValueError ex v d.errorContext.Struct d.errorContext.Field := by
  simp only [decodeState.addErrorContext]
  split
  · rfl
  · rename_i h
    simp only [not_or, not_not] at h
    rw [h.1, h.2]

theorem tagCache_nonempty (m : TagMap) (k v : String) (h : m.get k = some v) : m.length ≠ 0 := by
  cases m with
  | nil => simp [TagMap.get] at h
  | cons a b => simp

/-- The case `reflect.Slice` of `decodeState.value` for a sequence that is no sequence of
strings, under a `len` tag: the count is resolved and that many elements are decoded. -/
theorem value_slice_counted (t : GoType) (p : Path) (ro : Bool) (d : decodeState) (name : String)
    (hstr : t ≠ .string) (hlen : d.tagCache.get "len" = some name) :
    value (.slice t) p ro d
      = Dec.bind (getSavedValueAsInt name) (fun len => decodeElems ro t p len.toNat) d := by
  simp only [value, hstr, if_false, tagCache_nonempty _ _ _ hlen, hlen, decodeElems]

theorem getSavedValueAsInt_undefined (name : String) (d : decodeState)
    (h : d.saved name = none) :
    getSavedValueAsInt name d
      = (.error (.UndefinedSavedValueError name d.errorContext.Struct d.errorContext.Struct),
         d) := by
  unfold decodeState.saved at h
  simp only [getSavedValueAsInt, h, decodeState.error, addErrorContext_undefinedSaved]

theorem getSavedValueAsInt_string (name : String) (d : decodeState) (bp : Path) (s : List Nat)
    (h : d.saved name = some (.string, bp)) (hread : d.root.read bp = some (.str s)) :
    getSavedValueAsInt name d
      = match Atoi s with
        | some i => (.ok i, d)
        | none => (.error (.InvalidSavedValueError "int type" (.text s) d.errorContext.Struct
            d.errorContext.Field), d) := by
  unfold decodeState.saved at h
  simp only [getSavedValueAsInt, h, hread]
  cases Atoi s <;> simp only [decodeState.error, addErrorContext_invalidSaved]

theorem getSavedValueAsInt_other (name : String) (d : decodeState) (bt : GoType) (bp : Path)
    (h : d.saved name = some (bt, bp)) (hk : uintWidth bt = none) (hs : bt ≠ .string) :
    getSavedValueAsInt name d
      = (.error (.InvalidSavedValueError "int type" (.typeValue bt) d.errorContext.Struct
          d.errorContext.Field), d) := by
  unfold decodeState.saved at h
  cases bt <;> simp only [uintWidth, reduceCtorEq, ne_eq, not_true_eq_false] at hk hs <;>
    simp only [getSavedValueAsInt, h, decodeState.error, addErrorContext_invalidSaved]

theorem toInt_large (x : Nat) (h1 : 2 ^ 63 ≤ x) (h2 : x < 2 ^ 64) :
    toInt x = (x : Int) - 2 ^ 64 ∧ (toInt x).toNat = 0 := by
  unfold toInt
  rw [Nat.mod_eq_of_lt h2, if_neg (by omega)]
  constructor
  · rfl
  · omega

theorem getSavedValueAsInt_eq_uint (name : String) (d : decodeState) (bt : GoType) (w : Nat)
    (bp : Path) (x : Nat) (h : d.saved name = some (bt, bp)) (hk : uintWidth bt = some w)
    (hread : d.root.read bp = some (.uint x)) :
    getSavedValueAsInt name d = (.ok (toInt x), d) :=
  getSavedValueAsInt_uint name d bt w hk bp x h hread

theorem toInt_of_lt (x : Nat) (h : x < 2 ^ 63) : toInt x = (x : Int) := by
  unfold toInt
  rw [Nat.mod_eq_of_lt (by omega), if_pos h]

/-- C13 (the claim fails as stated). A `uint64` field tagged `save-N` that decodes to
`2 ^ 64 - 1`, followed by a sequence tagged `len-N` and one more byte in the buffer: the count
resolved is `-1`, not the decoded value, no element is decoded and `Unmarshal` returns no
error with the cursor left at 8. -/
theorem saved_count_wraps :
    Unmarshal [0xFF, 0xFF, 0xFF, 0xFF, 0xFF, 0xFF, 0xFF, 0xFF, 0x11]
        (some (.ptr (countedStruct "S" "N" "Items" "save-N" "len-N" .uint64 .uint8),
          .ptr (.struct [.uint 0, .nilSlice])))
      = (.ok (), { decodeState.init [0xFF, 0xFF, 0xFF, 0xFF, 0xFF, 0xFF, 0xFF, 0xFF, 0x11]
            (.ptr (.struct [.uint 18446744073709551615, .nilSlice])) with
          off := 8, errorContext := ⟨"S", "Items"⟩,
          savedValues := [("N", .uint64, [Step.elem, Step.field 0])] }) ∧
    (getSavedValueAsInt "N" { decodeState.init [0xFF, 0xFF, 0xFF, 0xFF, 0xFF, 0xFF, 0xFF, 0xFF, 0x11]
            (.ptr (.struct [.uint 18446744073709551615, .nilSlice])) with
          off := 8, savedValues := [("N", .uint64, [Step.elem, Step.field 0])] }).1
      = .ok (-1) ∧
    ((-1 : Int) ≠ ((18446744073709551615 : Nat) : Int)) := by
  refine ⟨by decide!, by decide!, by decide⟩

/-- C13 (amended). Resolution of the `len` name `name` when a sequence that is no sequence of
strings is decoded. With no binding of the name, decoding fails with `UndefinedSavedValueError`
for that name. With the name bound to an unsigned integer field that holds `x`, the count is
`x` converted to `int`: `x` itself when `x < 2 ^ 63` (so for every 8, 16 and 32-bit value), and
then `x` elements are decoded; for a 64-bit `x` of `2 ^ 63` or more it is the negative number
`x - 2 ^ 64`, and no element is decoded. With the name bound to a string field the count is
what `strconv.Atoi` returns for it, and a string that `Atoi` rejects fails with
`InvalidSavedValueError`. A bound field of any other kind fails with
`InvalidSavedValueError`. -/
theorem saved_count_resolution (d : decodeState) (name : String) (t : GoType) (p : Path)
    (ro : Bool) (hstr : t ≠ .string) (hlen : d.tagCache.get "len" = some name) :
    (d.saved name = none →
      value (.slice t) p ro d
        = (.error (.UndefinedSavedValueError name d.errorContext.Struct d.errorContext.Struct),
           d)) ∧
    (∀ (bt : GoType) (bp : Path) (w x : Nat), d.saved name = some (bt, bp) →
      uintWidth bt = some w → d.root.read bp = some (.uint x) → x < 2 ^ 63 →
      getSavedValueAsInt name d = (.ok (x : Int), d) ∧
      value (.slice t) p ro d = decodeElems ro t p x d) ∧
    (∀ (bt : GoType) (w x : Nat), uintWidth bt = some w → w ≠ 8 →
      hasType bt (.uint x) = true → x < 2 ^ 63) ∧
    (∀ (bt : GoType) (bp : Path) (w x : Nat), d.saved name = some (bt, bp) →
      uintWidth bt = some w → d.root.read bp = some (.uint x) → 2 ^ 63 ≤ x → x < 2 ^ 64 →
      getSavedValueAsInt name d = (.ok ((x : Int) - 2 ^ 64), d) ∧
      value (.slice t) p ro d = (.ok (), d)) ∧
    (∀ (bp : Path) (s : List Nat) (i : Int), d.saved name = some (.string, bp) →
      d.root.read bp = some (.str s) → Atoi s = some i →
      getSavedValueAsInt name d = (.ok i, d) ∧
      value (.slice t) p ro d = decodeElems ro t p i.toNat d) ∧
    (∀ (bp : Path) (s : List Nat), d.saved name = some (.string, bp) →
      d.root.read bp = some (.str s) → Atoi s = none →
      value (.slice t) p ro d
        = (.error (.InvalidSavedValueError "int type" (.text s) d.errorContext.Struct
            d.errorContext.Field), d)) ∧
    (∀ (bt : GoType) (bp : Path), d.saved name = some (bt, bp) → uintWidth bt = none →
      bt ≠ .string →
      value (.slice t) p ro d
        = (.error (.InvalidSavedValueError "int type" (.typeValue bt) d.errorContext.Struct
            d.errorContext.Field), d)) ∧
    (Unmarshal [0x01]
        (some (.ptr (structOf "S" [fld "Items" "len-N" (.slice .uint8)]),
          .ptr (.struct [.nilSlice])))).1
      = .error (.UndefinedSavedValueError "N" "S" "S") ∧
    (Unmarshal [0x01, 0x05]
        (some (.ptr (structOf "S" [fld "B" "save-N,size-uint8" .bool,
            fld "Items" "len-N" (.slice .uint8)]),
          .ptr (.struct [.bool false, .nilSlice])))).1
      = .error (.InvalidSavedValueError "int type" (.typeValue .bool) "S" "Items") ∧
    (Unmarshal [0x32, 0x00, 0x11, 0x22]
        (some (.ptr (structOf "S" [fld "N" "save-N" .string,
            fld "Items" "len-N" (.slice .uint8)]),
          .ptr (.struct [.str [], .nilSlice])))).2.root
      = .ptr (.struct [.str [0x32], .slice [.uint 0x11, .uint 0x22]]) ∧
    (Unmarshal [0x78, 0x00, 0x11, 0x22]
        (some (.ptr (structOf "S" [fld "N" "save-N" .string,
            fld "Items" "len-N" (.slice .uint8)]),
          .ptr (.struct [.str [], .nilSlice])))).1
      = .error (.InvalidSavedValueError "int type" (.text [0x78]) "S" "Items") := by
  have hv := value_slice_counted t p ro d name hstr hlen
  refine ⟨fun h => ?_, fun bt bp w x h hk hread hx => ?_, fun bt w x hk hw hty => ?_,
    fun bt bp w x h hk hread h1 h2 => ?_, fun bp s i h hread ha => ?_,
    fun bp s h hread ha => ?_, fun bt bp h hk hs => ?_,
    by decide!, by decide!, by decide!, by decide!⟩
  · rw [hv]
    simp only [Dec.bind, getSavedValueAsInt_undefined name d h]
  · have hg := getSavedValueAsInt_eq_uint name d bt w bp x h hk hread
    rw [toInt_of_lt x hx] at hg
    refine ⟨hg, ?_⟩
    rw [hv]
    simp only [Dec.bind, hg, Int.toNat_ofNat]
  · cases bt <;> simp only [uintWidth, Option.some.injEq, reduceCtorEq] at hk <;>
      simp only [hasType, decide_eq_true_eq] at hty <;> omega
  · have hg := getSavedValueAsInt_eq_uint name d bt w bp x h hk hread
    have hl := toInt_large x h1 h2
    refine ⟨by rw [hg, hl.1], ?_⟩
    rw [hv]
    simp only [Dec.bind, hg, hl.2, decodeElems, forRange]
    rfl
  · have hg := getSavedValueAsInt_string name d bp s h hread
    rw [ha] at hg
    refine ⟨hg, ?_⟩
    rw [hv]
    simp only [Dec.bind, hg]
  · have hg := getSavedValueAsInt_string name d bp s h hread
    rw [ha] at hg
    rw [hv]
    simp only [Dec.bind, hg]
  · rw [hv]
    simp only [Dec.bind, getSavedValueAsInt_other name d bt bp h hk hs]

theorem saved_count_resolution_witness :
    (GoType.uint8 ≠ GoType.string) ∧
    TagMap.get [("len", "N")] "len" = some "N" ∧
    value (.slice .uint8) [Step.elem, Step.field 0] false
        { decodeState.init [0x01] (.ptr (.struct [.nilSlice])) with tagCache := [("len", "N")] }
      = (.error (.UndefinedSavedValueError "N" "" ""),
         { decodeState.init [0x01] (.ptr (.struct [.nilSlice])) with
           tagCache := [("len", "N")] }) :=
  ⟨by decide, by decide,
    (saved_count_resolution
      { decodeState.init [0x01] (.ptr (.struct [.nilSlice])) with tagCache := [("len", "N")] }
      "N" .uint8 [Step.elem, Step.field 0] false (by decide) (by decide)).1 (by decide)⟩

/-! ## Empty fields and nil pointers on encode -/

/-- The loop of `structEncoder.encode` runs the fields in the order of the list: the fields of
a second part meet the state that the first part has left. -/
theorem structEncoder_encode_append (l1 l2 : List (field × encoderFunc)) (v : Value) :
    ∀ e : encodeState, structEncoder.encode (l1 ++ l2) e v
      = match structEncoder.encode l1 e v with
        | .ok e1 => structEncoder.encode l2 e1 v
        | .error err => .error err
        | .crash msg => .crash msg := by
  induction l1 with
  | nil => intro e; simp [structEncoder.encode]
  | cons a l1 ih =>
    intro e
    obtain ⟨f, enc⟩ := a
    simp only [List.cons_append, structEncoder.encode]
    cases fieldByIndex v f.index with
    | error err => rfl
    | crash msg => rfl
    | ok fv =>
      simp only
      split
      · rfl
      · cases enc { e with tagCache := f.tags } fv with
        | ok e1 => exact ih _
        | error err => rfl
        | crash msg => rfl

/-- The loop of `structEncoder.encode` stops with `InvalidValueError` at a field whose value is
empty. -/
theorem structEncoder_encode_empty (f : field) (enc : encoderFunc)
    (rest : List (field × encoderFunc)) (e : encodeState) (v fv : Value)
    (hfv : fieldByIndex v f.index = .ok fv) (hemp : isEmptyValue fv = true) :
    structEncoder.encode ((f, enc) :: rest) e v = .error (.InvalidValueError "" "" []) := by
  simp only [structEncoder.encode, hfv, hemp, if_true]

theorem structEncoder_encode_at_empty (pre post : List (field × encoderFunc)) (f : field)
    (enc : encoderFunc) (e : encodeState) (v fv : Value)
    (hfv : fieldByIndex v f.index = .ok fv) (hemp : isEmptyValue fv = true) :
    structEncoder.encode (pre ++ (f, enc) :: post) e v
      = match structEncoder.encode pre e v with
        | .ok _ => .error (.InvalidValueError "" "" [])
        | .error err => .error err
        | .crash msg => .crash msg := by
  rw [structEncoder_encode_append]
  cases structEncoder.encode pre e v with
  | ok e1 => exact structEncoder_encode_empty f enc post e1 v fv hfv hemp
  | error err => rfl
  | crash msg => rfl

theorem Marshal_struct (name : String) (fs : FieldList) (v : Value) :
    Marshal (some (.struct name fs, v))
      = match structEncoder.encode
          ((typeFields (.struct name fs)).map (fun f => (f, fieldEncoderByIndex fs f.index)))
          ⟨[], []⟩ v with
        | .ok e => .ok e.buf
        | .error err => .error err
        | .crash msg => .crash msg := by
  simp only [Marshal, encodeState.marshal, encodeState.reflectValue, typeEncoder, encoderByIndex]

/-- With an empty field among the fields of a struct, `Marshal` ends as the fields before it
end when one of them fails, and with `InvalidValueError` otherwise. -/
theorem Marshal_struct_at_empty (name : String) (fs : FieldList) (v : Value)
    (pre post : List field) (f : field) (fv : Value)
    (hfields : typeFields (.struct name fs) = pre ++ f :: post)
    (hfv : fieldByIndex v f.index = .ok fv) (hemp : isEmptyValue fv = true) :
    Marshal (some (.struct name fs, v))
      = match structEncoder.encode (pre.map (fun g => (g, fieldEncoderByIndex fs g.index)))
          ⟨[], []⟩ v with
        | .ok _ => .error (.InvalidValueError "" "" [])
        | .error err => .error err
        | .crash msg => .crash msg := by
  rw [Marshal_struct, hfields, List.map_append, List.map_cons,
    structEncoder_encode_at_empty _ _ f _ _ v fv hfv hemp]
  cases structEncoder.encode (pre.map (fun g => (g, fieldEncoderByIndex fs g.index)))
    ⟨[], []⟩ v <;> rfl

theorem encodeElems_skip_nil (t : GoType) (xs ys : List Value) (e : encodeState) :
    encodeElems (encoderByIndex (.ptr t) []) (xs ++ .nilPtr :: ys) e
      = encodeElems (encoderByIndex (.ptr t) []) (xs ++ ys) e := by
  rw [encodeElems_append, encodeElems_append]
  cases encodeElems (encoderByIndex (.ptr t) []) xs e with
  | ok e1 => simp only [encodeElems, encoderByIndex, ptrEncoder.encode]
  | error err => rfl
  | crash msg => rfl

/-- C14 (the claim fails as stated). In a struct with the fields `A uint8`, `P *uint8`,
`B uint8`, a nil `P` is not skipped: `Marshal` fails with `InvalidValueError`, where the claim
gives the encodings `[1, 2]` of the remaining fields (which the struct without `P` encodes
to). -/
theorem nil_pointer_field_rejected :
    Marshal (some (structOf "S" [fld "A" "" .uint8, fld "P" "" (.ptr .uint8), fld "B" "" .uint8],
        .struct [.uint 1, .nilPtr, .uint 2]))
      = .error (.InvalidValueError "" "" []) ∧
    Marshal (some (structOf "S" [fld "A" "" .uint8, fld "P" "" (.ptr .uint8), fld "B" "" .uint8],
        .struct [.uint 1, .nilPtr, .uint 2])) ≠ .ok [1, 2] ∧
    Marshal (some (structOf "S" [fld "A" "" .uint8, fld "B" "" .uint8],
        .struct [.uint 1, .uint 2])) = .ok [1, 2] := by
  refine ⟨by decide!, by decide!, by decide!⟩

/-- C14 (amended). An absent (nil) pointer is skipped where the pointer encoder meets it:
`ptrEncoder.encode` writes nothing for it and raises no error, so `Marshal` of a nil pointer
returns the empty encoding, and a nil element of an array or sequence of pointers adds nothing
to the encodings of the other elements (the encoding is that of the array or sequence without
it). A struct field never reaches the pointer encoder with
a nil pointer: `structEncoder.encode` tests `isEmptyValue` first, so with a nil pointer field
`Marshal` returns no bytes, and fails with `InvalidValueError` when the fields before it were
encoded. -/
theorem nil_pointer_skipped_outside_structs (name : String) (fs : FieldList) (v : Value)
    (pre post : List field) (f : field)
    (hfields : typeFields (.struct name fs) = pre ++ f :: post)
    (hfv : fieldByIndex v f.index = .ok .nilPtr) :
    (∀ (t : GoType) (e : encodeState), encoderByIndex (.ptr t) [] e .nilPtr = .ok e) ∧
    (∀ t : GoType, Marshal (some (.ptr t, .nilPtr)) = .ok []) ∧
    (∀ (t : GoType) (xs ys : List Value) (e : encodeState),
      arrayEncoder.encode (encoderByIndex (.ptr t) []) e (.array (xs ++ .nilPtr :: ys))
        = arrayEncoder.encode (encoderByIndex (.ptr t) []) e (.array (xs ++ ys))) ∧
    (∀ (t : GoType) (xs ys : List Value) (e : encodeState),
      encoderByIndex (.slice (.ptr t)) [] e (.slice (xs ++ .nilPtr :: ys))
        = encoderByIndex (.slice (.ptr t)) [] e (.slice (xs ++ ys))) ∧
    (∀ bytes : List Nat, Marshal (some (.struct name fs, v)) ≠ .ok bytes) ∧
    (∀ e1 : encodeState,
      structEncoder.encode (pre.map (fun g => (g, fieldEncoderByIndex fs g.index))) ⟨[], []⟩ v
        = .ok e1 →
      Marshal (some (.struct name fs, v)) = .error (.InvalidValueError "" "" [])) ∧
    Marshal (some (.array 3 (.ptr .uint8), .array [.ptr (.uint 1), .nilPtr, .ptr (.uint 2)]))
      = .ok [1, 2] := by
  have hm := Marshal_struct_at_empty name fs v pre post f .nilPtr hfields hfv rfl
  refine ⟨fun t e => ?_, fun t => ?_, fun t xs ys e => ?_, fun t xs ys e => ?_,
    fun bytes => ?_, fun e1 h => ?_, by decide!⟩
  · simp only [encoderByIndex, ptrEncoder.encode]
  · simp only [Marshal, encodeState.marshal, encodeState.reflectValue, typeEncoder,
      encoderByIndex, ptrEncoder.encode]
  · simp only [arrayEncoder.encode, Value.elems]
    exact encodeElems_skip_nil t xs ys e
  · rw [encoderByIndex, if_neg (by simp)]
    simp only [sliceEncoder.encode, arrayEncoder.encode, Value.elems]
    exact encodeElems_skip_nil t xs ys e
  · rw [hm]
    cases structEncoder.encode (pre.map (fun g => (g, fieldEncoderByIndex fs g.index)))
      ⟨[], []⟩ v <;> simp
  · rw [hm, h]

theorem nil_pointer_skipped_outside_structs_witness :
    typeFields (structOf "S" [fld "A" "" .uint8, fld "P" "" (.ptr .uint8), fld "B" "" .uint8])
      = [⟨"A", [], [0], .uint8⟩] ++ ⟨"P", [], [1], .uint8⟩ :: [⟨"B", [], [2], .uint8⟩] ∧
    fieldByIndex (.struct [.uint 1, .nilPtr, .uint 2]) [1] = .ok .nilPtr ∧
    (∀ bytes : List Nat,
      Marshal (some (structOf "S" [fld "A" "" .uint8, fld "P" "" (.ptr .uint8),
        fld "B" "" .uint8], .struct [.uint 1, .nilPtr, .uint 2])) ≠ .ok bytes) :=
  ⟨by decide!, by decide!,
    (nil_pointer_skipped_outside_structs "S"
      (FieldList.ofList [fld "A" "" .uint8, fld "P" "" (.ptr .uint8), fld "B" "" .uint8])
      (.struct [.uint 1, .nilPtr, .uint 2]) [⟨"A", [], [0], .uint8⟩] [⟨"B", [], [2], .uint8⟩]
      ⟨"P", [], [1], .uint8⟩ (by decide!) (by decide!)).2.2.2.2.1⟩

/-- C15 (the claim fails as stated). A struct whose sequence field `Items` is nil does not
always fail with `InvalidValueError`: behind an embedded pointer that is nil the promoted field
`A` is met first and `Marshal` fails with `NilPointerError` (with the pointer set, the error is
`InvalidValueError`); behind a boolean without `size` tag it fails with
`TagDefinitionRequiredError`. -/
theorem empty_field_other_error :
    Marshal (some (.struct "S"
          (.cons "Inner" true true "" (.ptr (structOf "Inner" [fld "A" "" .uint8]))
            (.cons "Items" true false "" (.slice .uint8) .nil)),
        .struct [.nilPtr, .nilSlice]))
      = .error .NilPointerError ∧
    Marshal (some (.struct "S"
          (.cons "Inner" true true "" (.ptr (structOf "Inner" [fld "A" "" .uint8]))
            (.cons "Items" true false "" (.slice .uint8) .nil)),
        .struct [.ptr (.struct [.uint 3]), .nilSlice]))
      = .error (.InvalidValueError "" "" []) ∧
    Marshal (some (structOf "S" [fld "B" "" .bool, fld "Items" "" (.slice .uint8)],
        .struct [.bool true, .nilSlice]))
      = .error (.TagDefinitionRequiredError "size" "" "") := by
  refine ⟨by decide!, by decide!, by decide!⟩

/-- C15 (amended). A struct value in which a field of the type descriptor holds an empty value
(a nil or empty sequence, of strings too, or a nil pointer): `Marshal` returns no bytes. It
fails with `InvalidValueError` when the fields before that field, in wire order, were encoded;
when one of them fails, `Marshal` fails with the error of that earlier field. What the fields
after it hold plays no part. -/
theorem empty_field_is_encode_error (name : String) (fs : FieldList) (v : Value)
    (pre post : List field) (f : field) (fv : Value)
    (hfields : typeFields (.struct name fs) = pre ++ f :: post)
    (hfv : fieldByIndex v f.index = .ok fv) (hemp : isEmptyValue fv = true) :
    (∀ bytes : List Nat, Marshal (some (.struct name fs, v)) ≠ .ok bytes) ∧
    (∀ e1 : encodeState,
      structEncoder.encode (pre.map (fun g => (g, fieldEncoderByIndex fs g.index))) ⟨[], []⟩ v
        = .ok e1 →
      Marshal (some (.struct name fs, v)) = .error (.InvalidValueError "" "" [])) ∧
    (∀ err : BnetError,
      structEncoder.encode (pre.map (fun g => (g, fieldEncoderByIndex fs g.index))) ⟨[], []⟩ v
        = .error err →
      Marshal (some (.struct name fs, v)) = .error err) ∧
    (isEmptyValue .nilSlice = true ∧ isEmptyValue (.slice []) = true ∧
      isEmptyValue .nilPtr = true) ∧
    Marshal (some (structOf "S" [fld "A" "" .uint8, fld "Names" "" (.slice .string)],
        .struct [.uint 1, .slice []]))
      = .error (.InvalidValueError "" "" []) ∧
    Marshal (some (structOf "S" [fld "Items" "len-N" (.slice .uint8), fld "A" "" .uint8],
        .struct [.nilSlice, .uint 1]))
      = .error (.InvalidValueError "" "" []) := by
  have hm := Marshal_struct_at_empty name fs v pre post f fv hfields hfv hemp
  refine ⟨fun bytes => ?_, fun e1 h => ?_, fun err h => ?_, ⟨rfl, rfl, rfl⟩, by decide!,
    by decide!⟩
  · rw [hm]
    cases structEncoder.encode (pre.map (fun g => (g, fieldEncoderByIndex fs g.index)))
      ⟨[], []⟩ v <;> simp
  · rw [hm, h]
  · rw [hm, h]

theorem empty_field_is_encode_error_witness :
    typeFields (structOf "S" [fld "A" "" .uint8, fld "Names" "" (.slice .string)])
      = [⟨"A", [], [0], .uint8⟩] ++ ⟨"Names", [], [1], .slice .string⟩ :: [] ∧
    fieldByIndex (.struct [.uint 1, .slice []]) [1] = .ok (.slice []) ∧
    isEmptyValue (.slice []) = true ∧
    Marshal (some (structOf "S" [fld "A" "" .uint8, fld "Names" "" (.slice .string)],
        .struct [.uint 1, .slice []]))
      = .error (.InvalidValueError "" "" []) :=
  ⟨by decide!, by decide!, rfl,
    (empty_field_is_encode_error "S"
      (FieldList.ofList [fld "A" "" .uint8, fld "Names" "" (.slice .string)])
      (.struct [.uint 1, .slice []]) [⟨"A", [], [0], .uint8⟩] []
      ⟨"Names", [], [1], .slice .string⟩ (.slice []) (by decide!) (by decide!) rfl).2.1
      ⟨[1], []⟩ (by decide!)⟩

/-! ## The target of Unmarshal -/

theorem addErrorContext_isTarget (d : decodeState) (err : BnetError)
    (h : err.isTarget = false) : (d.addErrorContext err).isTarget = false := by
  unfold decodeState.addErrorContext
  split
  · cases err <;> simp_all [BnetError.isTarget]
  · exact h

theorem NoTargetError.error {α : Type} (err : BnetError) (h : err.isTarget = false) :
    NoTargetError (decodeState.error err : Dec α) := by
  intro d ty hc
  simp only [decodeState.error, Outcome.error.injEq] at hc
  have := addErrorContext_isTarget d err h
  rw [hc] at this
  simp [BnetError.isTarget] at this

theorem NoTargetError.bind {α β : Type} (m : Dec α) (f : α → Dec β) (hm : NoTargetError m)
    (hf : ∀ a, NoTargetError (f a)) : NoTargetError (Dec.bind m f) := by
  intro d ty
  have h1 := hm d ty
  unfold Dec.bind
  cases hmd : m d with
  | mk o d1 =>
    rw [hmd] at h1
    cases o with
    | ok a => exact hf a d1 ty
    | error err => simpa using h1
    | crash msg => simp

theorem NoTargetError.pure {α : Type} (a : α) : NoTargetError (pure a : Dec α) := by
  intro d ty; simp [Pure.pure]

theorem NoTargetError.modify (f : decodeState → decodeState) : NoTargetError (Dec.modify f) := by
  intro d ty; simp [Dec.modify]

theorem NoTargetError.crash {α : Type} (msg : String) : NoTargetError (Dec.crash msg : Dec α) := by
  intro d ty; simp [Dec.crash]

theorem NoTargetError.ite {α : Type} (c : Prop) [Decidable c] (a b : Dec α)
    (ha : NoTargetError a) (hb : NoTargetError b) : NoTargetError (if c then a else b) := by
  split
  · exact ha
  · exact hb

theorem NoTargetError.readBytes (n : Nat) : NoTargetError (readBytes n) := by
  intro d ty
  unfold Bnet.readBytes
  split
  · exact NoTargetError.error _ (by rfl) d ty
  · simp

theorem NoTargetError.unreadBytes (n : Nat) : NoTargetError (unreadBytes n) := by
  intro d ty
  unfold Bnet.unreadBytes
  split
  · exact NoTargetError.error _ (by rfl) d ty
  · simp

theorem NoTargetError.readString : NoTargetError readString := by
  intro d ty
  unfold Bnet.readString
  split
  · simp
  · split
    · exact NoTargetError.error _ (by rfl) d ty
    · simp

theorem NoTargetError.readStringListLoop :
    ∀ (fuel : Nat) (items : List (List Nat)), NoTargetError (readStringListLoop fuel items)
  | 0, _ => NoTargetError.crash _
  | fuel + 1, items => by
    unfold Bnet.readStringListLoop
    exact NoTargetError.bind _ _ NoTargetError.readString (fun item =>
      NoTargetError.ite _ _ _ (NoTargetError.readStringListLoop fuel _) (NoTargetError.pure _))

theorem NoTargetError.readStringList : NoTargetError readStringList := by
  intro d ty
  exact NoTargetError.readStringListLoop _ _ d ty

theorem NoTargetError.decodeUint8 : NoTargetError decodeUint8 :=
  NoTargetError.bind _ _ (NoTargetError.readBytes 1) (fun _ => NoTargetError.pure _)

theorem NoTargetError.decodeUintN (n : Nat) : NoTargetError (decodeUintN n) := by
  intro d ty
  unfold Bnet.decodeUintN
  split
  · exact NoTargetError.bind _ _ (NoTargetError.readBytes n) (fun _ => NoTargetError.pure _) d ty
  · exact NoTargetError.bind _ _ (NoTargetError.readBytes n) (fun _ => NoTargetError.pure _) d ty

theorem NoTargetError.decodeBool : NoTargetError decodeBool := by
  intro d ty
  unfold Bnet.decodeBool
  split
  · exact NoTargetError.error _ (by rfl) d ty
  · rename_i size _
    refine NoTargetError.bind _ _ ?_ ?_ d ty
    · refine NoTargetError.ite _ _ _ ?_ (NoTargetError.ite _ _ _ ?_ ?_)
      · exact NoTargetError.bind _ _ NoTargetError.decodeUint8 (fun _ => NoTargetError.pure _)
      · exact NoTargetError.bind _ _ (NoTargetError.decodeUintN 4) (fun _ => NoTargetError.pure _)
      · exact NoTargetError.error _ (by rfl)
    · rintro ⟨i, unread⟩
      refine NoTargetError.ite _ _ _ ?_ (NoTargetError.pure _)
      exact NoTargetError.bind _ _ (NoTargetError.unreadBytes _) (fun _ =>
        NoTargetError.bind _ _ (NoTargetError.readBytes _) (fun _ => NoTargetError.error _ (by rfl)))

theorem NoTargetError.saveTag (t : GoType) (p : Path) : NoTargetError (saveTag t p) := by
  intro d ty
  unfold Bnet.saveTag
  split <;> simp

theorem NoTargetError.setValue (ro : Bool) (p : Path) (x : Value) :
    NoTargetError (setValue ro p x) := by
  intro d ty
  unfold Bnet.setValue
  split <;> simp

theorem NoTargetError.getSavedValueAsInt (name : String) :
    NoTargetError (getSavedValueAsInt name) := by
  intro d ty
  unfold Bnet.getSavedValueAsInt
  split
  · exact NoTargetError.error _ (by rfl) d ty
  · split
    any_goals simp
    · split
      · simp
      · exact NoTargetError.error _ (by rfl) d ty
    · exact NoTargetError.error _ (by rfl) d ty

theorem NoTargetError.appendZero (ro : Bool) (elem : GoType) (p : Path) :
    NoTargetError (appendZero ro elem p) := by
  intro d ty
  unfold Bnet.appendZero
  split
  · simp
  · split
    · exact NoTargetError.setValue _ _ _ d ty
    · simp

theorem NoTargetError.forRange (f : Nat → Dec Unit) (hf : ∀ i, NoTargetError (f i)) :
    ∀ (count i : Nat), NoTargetError (forRange f count i)
  | 0, _ => NoTargetError.pure ()
  | count + 1, i => by
    unfold Bnet.forRange
    exact NoTargetError.bind _ _ (hf i) (fun _ => NoTargetError.forRange f hf count (i + 1))

mutual
/-- No case of `decodeState.value` ends with `InvalidUnmarshalError`. -/
theorem NoTargetError.value : ∀ (t : GoType) (p : Path) (ro : Bool), NoTargetError (value t p ro)
  | .array n t, p, ro => by
    unfold Bnet.value
    exact NoTargetError.forRange _ (fun i => NoTargetError.value t _ ro) n 0
  | .bool, p, ro => by
    unfold Bnet.value
    exact NoTargetError.bind _ _ NoTargetError.decodeBool (fun _ => NoTargetError.setValue _ _ _)
  | .uint8, p, ro => by
    unfold Bnet.value
    exact NoTargetError.bind _ _ NoTargetError.decodeUint8 (fun _ => NoTargetError.setValue _ _ _)
  | .uint16, p, ro => by
    unfold Bnet.value
    exact NoTargetError.bind _ _ (NoTargetError.decodeUintN 2)
      (fun _ => NoTargetError.setValue _ _ _)
  | .uint32, p, ro => by
    unfold Bnet.value
    exact NoTargetError.bind _ _ (NoTargetError.decodeUintN 4)
      (fun _ => NoTargetError.setValue _ _ _)
  | .uint64, p, ro => by
    unfold Bnet.value
    exact NoTargetError.bind _ _ (NoTargetError.decodeUintN 8)
      (fun _ => NoTargetError.setValue _ _ _)
  | .ptr t, p, ro => by
    intro d ty
    unfold Bnet.value
    split
    · exact NoTargetError.bind _ _ (NoTargetError.setValue _ _ _)
        (fun _ => NoTargetError.value t _ ro) d ty
    · exact NoTargetError.value t _ ro d ty
  | .slice t, p, ro => by
    unfold Bnet.value
    refine NoTargetError.ite _ _ _ ?_ ?_
    · exact NoTargetError.bind _ _ NoTargetError.readStringList
        (fun _ => NoTargetError.setValue _ _ _)
    · intro d ty
      simp only
      split
      · exact NoTargetError.error _ (by rfl) d ty
      · split
        · exact NoTargetError.error _ (by rfl) d ty
        · exact NoTargetError.bind _ _ (NoTargetError.getSavedValueAsInt _) (fun len =>
            NoTargetError.forRange _ (fun i => NoTargetError.bind _ _
              (NoTargetError.appendZero _ _ _) (fun _ => NoTargetError.value t _ ro)) _ 0) d ty
  | .string, p, ro => by
    unfold Bnet.value
    exact NoTargetError.bind _ _ NoTargetError.readString (fun _ => NoTargetError.setValue _ _ _)
  | .struct name fs, p, ro => by
    intro d ty
    unfold Bnet.value
    simp only
    split
    · simp
    · split
      · simp
      · exact NoTargetError.bind _ _ (NoTargetError.decodeFields fs 0 p ro)
          (fun _ => NoTargetError.modify _) _ ty
  | .other name, p, ro => by
    intro d ty
    unfold Bnet.value
    exact NoTargetError.error _ (by rfl) d ty
/-- Nor does the loop over the fields of a struct. -/
theorem NoTargetError.decodeFields : ∀ (fs : FieldList) (i : Nat) (p : Path) (ro : Bool),
    NoTargetError (decodeFields fs i p ro)
  | .nil, _, _, _ => by
    unfold Bnet.decodeFields
    exact NoTargetError.pure ()
  | .cons fname exported an tag t rest, i, p, ro => by
    intro d ty
    unfold Bnet.decodeFields
    exact NoTargetError.bind _ _ (NoTargetError.saveTag _ _) (fun _ =>
      NoTargetError.bind _ _ (NoTargetError.value t _ _) (fun _ =>
        NoTargetError.bind _ _ (NoTargetError.modify _) (fun _ =>
          NoTargetError.decodeFields rest (i + 1) p ro))) _ ty
end

/-- C16. For every buffer, `Unmarshal` returns `InvalidUnmarshalError` when the target is nil,
is of a type that is no pointer type, or is a nil pointer, and then leaves the decoder as
`init` made it: the cursor at 0, no byte read. When the target is a non-nil pointer,
`Unmarshal` never returns `InvalidUnmarshalError`, whatever the type pointed to and the
buffer. -/
theorem unmarshal_invalid_target (data : List Nat) :
    Unmarshal data none
      = (.error (.InvalidUnmarshalError none), decodeState.init data .nilPtr) ∧
    (∀ (t : GoType) (x : Value), (∀ elem : GoType, t ≠ .ptr elem) →
      Unmarshal data (some (t, x))
        = (.error (.InvalidUnmarshalError (some t)), decodeState.init data .nilPtr)) ∧
    (∀ t : GoType, Unmarshal data (some (.ptr t, .nilPtr))
      = (.error (.InvalidUnmarshalError (some (.ptr t))), decodeState.init data .nilPtr)) ∧
    (decodeState.init data .nilPtr).off = 0 ∧
    (∀ (t : GoType) (x : Value) (ty : Option GoType),
      (Unmarshal data (some (.ptr t, .ptr x))).1 ≠ .error (.InvalidUnmarshalError ty)) := by
  refine ⟨rfl, fun t x ht => ?_, fun t => rfl, rfl, fun t x ty => ?_⟩
  · cases t <;> first | rfl | exact absurd rfl (ht _)
  · rw [Unmarshal_ptr]
    exact NoTargetError.value t _ false _ ty

theorem unmarshal_invalid_target_witness :
    (∀ elem : GoType, GoType.uint32 ≠ .ptr elem) ∧
    Unmarshal [0x01, 0x02] (some (.uint32, .uint 0))
      = (.error (.InvalidUnmarshalError (some .uint32)), decodeState.init [0x01, 0x02] .nilPtr) :=
  ⟨fun _ h => GoType.noConfusion h,
    (unmarshal_invalid_target [0x01, 0x02]).2.1 .uint32 (.uint 0)
      (fun _ h => GoType.noConfusion h)⟩

/-! ## Struct tags -/

theorem splitOn_ne_nil (sep : Char) (l : List Char) : splitOn sep l ≠ [] := by
  induction l with
  | nil => simp [splitOn]
  | cons c cs ih =>
    rw [splitOn]
    split
    · simp
    · split <;> simp

theorem splitOn_eq_lib (sep : Char) (l : List Char) : splitOn sep l = l.splitOn sep := by
  induction l with
  | nil => simp [splitOn, List.splitOn]
  | cons c cs ih =>
    rw [splitOn, List.splitOn, List.splitOnP_cons]
    by_cases h : c = sep
    · subst h
      simp [ih, List.splitOn]
    · have hs := splitOn_ne_nil sep cs
      simp only [h, if_false, beq_iff_eq, ih]
      rw [← List.splitOn, ← ih]
      cases hsp : splitOn sep cs with
      | nil => exact absurd hsp hs
      | cons a b => rfl

/-- The pieces of Go's `strings.Split`: the text before the first separator, and then the
pieces of the text after it. -/
theorem splitOn_cut (sep : Char) (l : List Char) :
    splitOn sep l = l.takeWhile (· != sep) ::
      (if sep ∈ l then splitOn sep ((l.dropWhile (· != sep)).drop 1) else []) := by
  induction l with
  | nil => simp [splitOn]
  | cons c cs ih =>
    rw [splitOn]
    by_cases h : c = sep
    · subst h
      simp [List.takeWhile, List.dropWhile]
    · have hne : (c != sep) = true := by simpa using h
      have hmem : (sep ∈ c :: cs) ↔ sep ∈ cs := by
        simp only [List.mem_cons]
        constructor
        · rintro (h1 | h1)
          · exact absurd h1.symm h
          · exact h1
        · exact Or.inr
      simp only [h, if_false, List.takeWhile, hne, List.dropWhile, hmem]
      rw [ih]

/-- One turn of the loop of `parseTag`: the token's key is set to the text between its first and
its second `-`. -/
theorem parseTagLoop_cons (tok : List Char) (toks : List (List Char)) (out : TagMap) :
    parseTagLoop (tok :: toks) out
      = parseTagLoop toks
          (out.put (tokenKey tok) (String.mk ((tokenAfter tok).takeWhile (· != '-')))) := by
  rw [parseTagLoop]
  rw [splitOn_cut '-' tok]
  by_cases h : '-' ∈ tok
  · simp only [h, if_true]
    rw [splitOn_cut '-' ((tok.dropWhile (· != '-')).drop 1)]
    rfl
  · simp only [h, if_false]
    have hd : tok.dropWhile (· != '-') = [] := by
      rw [List.dropWhile_eq_nil_iff]
      intro x hx
      have : x ≠ '-' := fun hc => h (hc ▸ hx)
      simpa using this
    simp [tokenKey, tokenAfter, hd]

theorem TagMap.get_nil (k2 : String) : TagMap.get [] k2 = none := rfl

theorem TagMap.get_cons (a : String × String) (m : TagMap) (k2 : String) :
    TagMap.get (a :: m) k2 = if a.1 = k2 then some a.2 else TagMap.get m k2 := by
  unfold TagMap.get
  by_cases h : a.1 = k2
  · rw [List.find?_cons_of_pos _ (by simpa using h), if_pos h]
    rfl
  · rw [List.find?_cons_of_neg _ (by simpa using h), if_neg h]

theorem TagMap.get_map_other (m : TagMap) (k v k2 : String) (h : k2 ≠ k) :
    TagMap.get (m.map (fun kv => if kv.1 == k then (k, v) else kv)) k2 = TagMap.get m k2 := by
  induction m with
  | nil => rfl
  | cons a m ih =>
    rw [List.map_cons, TagMap.get_cons, TagMap.get_cons, ih]
    by_cases ha : a.1 = k
    · have h1 : ¬ (k = k2) := fun hc => h hc.symm
      have h2 : ¬ (a.1 = k2) := fun hc => h (hc.symm.trans ha)
      simp [ha, h1]
    · simp [ha]

theorem TagMap.get_map_self (m : TagMap) (k v : String)
    (hany : m.any (fun kv => kv.1 == k) = true) :
    TagMap.get (m.map (fun kv => if kv.1 == k then (k, v) else kv)) k = some v := by
  induction m with
  | nil => simp at hany
  | cons a m ih =>
    rw [List.map_cons, TagMap.get_cons]
    by_cases ha : a.1 = k
    · simp [ha]
    · have hany2 : m.any (fun kv => kv.1 == k) = true := by
        simpa [ha] using hany
      have ih2 := ih hany2
      simp only [beq_iff_eq] at ih2
      simp [ha, ih2]

theorem TagMap.get_append_new (m : TagMap) (k v k2 : String)
    (hany : ¬ (m.any (fun kv => kv.1 == k) = true)) :
    TagMap.get (m ++ [(k, v)]) k2 = if k2 = k then some v else TagMap.get m k2 := by
  induction m with
  | nil =>
    rw [List.nil_append, TagMap.get_cons, TagMap.get_nil]
    by_cases h : k = k2
    · simp [h]
    · have h2 : ¬ (k2 = k) := fun hc => h hc.symm
      simp [h, h2]
  | cons a m ih =>
    have ha : ¬ (a.1 = k) := by
      intro hc
      exact hany (by simp [hc])
    have hany2 : ¬ (m.any (fun kv => kv.1 == k) = true) := by
      intro hc
      exact hany (by simp [hc])
    rw [List.cons_append, TagMap.get_cons, TagMap.get_cons, ih hany2]
    by_cases h : a.1 = k2
    · have h2 : ¬ (k2 = k) := fun hc => ha (h.trans hc)
      simp [h, h2]
    · simp [h]

theorem TagMap.get_put (m : TagMap) (k v k2 : String) :
    (m.put k v).get k2 = if k2 = k then some v else m.get k2 := by
  unfold TagMap.put
  split
  · rename_i hany
    by_cases hk : k2 = k
    · subst hk
      rw [TagMap.get_map_self m k2 v hany, if_pos rfl]
    · rw [TagMap.get_map_other m k v k2 hk, if_neg hk]
  · rename_i hany
    exact TagMap.get_append_new m k v k2 hany

theorem parseTagLoop_get (toks : List (List Char)) :
    ∀ (out : TagMap) (k : String),
      (parseTagLoop toks out).get k
        = match lastToken toks k with
          | some tok => some (String.mk ((tokenAfter tok).takeWhile (· != '-')))
          | none => out.get k := by
  induction toks with
  | nil => intro out k; simp [parseTagLoop, lastToken]
  | cons tok toks ih =>
    intro out k
    rw [parseTagLoop_cons, ih]
    simp only [lastToken, List.reverse_cons, List.find?_append]
    cases hf : toks.reverse.find? (fun tok => tokenKey tok == k) with
    | some t => simp
    | none =>
      simp only [Option.none_or, TagMap.get_put]
      by_cases hk : tokenKey tok = k
      · rw [List.find?_cons_of_pos _ (by simpa using hk), if_pos hk.symm]
      · have hk' : ¬ (k = tokenKey tok) := fun h => hk h.symm
        rw [List.find?_cons_of_neg _ (by simpa using hk), if_neg hk']
        rfl

theorem parseTag_get (tag k : String) : (parseTag tag).get k = annotationMapCut tag k := by
  unfold parseTag annotationMapCut
  split
  · rfl
  · rw [parseTagLoop_get, splitOn_eq_lib]
    cases lastToken (tag.data.splitOn ',') k <;> rfl

theorem tokenAfter_no_dash (tok : List Char) (h : tok.count '-' ≤ 1) :
    (tokenAfter tok).takeWhile (· != '-') = tokenAfter tok := by
  rw [List.takeWhile_eq_self_iff]
  intro x hx
  have hsplit : tok = tok.takeWhile (· != '-') ++ tok.dropWhile (· != '-') :=
    (List.takeWhile_append_dropWhile _ tok).symm
  unfold tokenAfter at hx
  cases hd : tok.dropWhile (· != '-') with
  | nil => rw [hd] at hx; simp at hx
  | cons a rest =>
    rw [hd] at hx hsplit
    simp only [List.drop_succ_cons, List.drop_zero] at hx
    have ha : a = '-' := by
      have := List.head_dropWhile_not (· != '-') tok (by rw [hd]; simp)
      simp only [hd, List.head_cons] at this
      simpa using this
    subst ha
    rw [hsplit, List.count_append, List.count_cons_self] at h
    have hrest : rest.count '-' = 0 := by omega
    have : '-' ∉ rest := List.count_eq_zero.mp hrest
    have hne : x ≠ '-' := fun hc => this (hc ▸ hx)
    simpa using hne

theorem lastToken_mem (toks : List (List Char)) (k : String) (tok : List Char)
    (h : lastToken toks k = some tok) : tok ∈ toks := by
  unfold lastToken at h
  exact List.mem_reverse.mp (List.mem_of_find?_eq_some h)

/-- C17 (the claim fails as stated). The token `len-a-b` maps the key `len` to `a`, not to
`a-b`, the whole text after its first `-`; and the annotation `-`, whose one token would map the
empty key to the empty value, gives the empty map. -/
theorem parseTag_cuts_value :
    parseTag "len-a-b" = [("len", "a")] ∧
    (parseTag "len-a-b").get "len" ≠ some "a-b" ∧
    parseTag "-" = [] ∧ (parseTag "-").get "" ≠ some "" := by
  refine ⟨by decide!, by decide!, by decide!, by decide!⟩

/-- C17 (amended). For every annotation string, `parseTag` splits it on `,` and splits each token
on every `-`: the key of a token is its text before the first `-`, and the value is its text
between the first and the second `-` (the rest of the token when it holds one `-`, the empty
string when it holds none), a later token overriding an earlier one with the same key; what
follows a second `-` is dropped, so the token `len-a-b` maps `len` to `a`. The empty annotation
and the annotation `-` give the empty map. -/
theorem parseTag_rule :
    (∀ tag k : String, (parseTag tag).get k = annotationMapCut tag k) ∧
    (∀ (tok : List Char) (toks : List (List Char)) (out : TagMap),
      parseTagLoop (tok :: toks) out
        = parseTagLoop toks
            (out.put (tokenKey tok) (String.mk ((tokenAfter tok).takeWhile (· != '-'))))) ∧
    parseTag "" = [] ∧ parseTag "-" = [] ∧
    parseTag "len-a-b" = [("len", "a")] ∧
    parseTag "save-N,size-uint8" = [("save", "N"), ("size", "uint8")] ∧
    parseTag "bigendian" = [("bigendian", "")] :=
  ⟨parseTag_get, parseTagLoop_cons, by decide!, by decide!, by decide!, by decide!, by decide!⟩

/-- C18. `parseTag` of the empty string is the empty map. For every other annotation string
except `-`, in which every comma-separated token holds at most one `-`, `parseTag` returns the
map that sends the text of each token before the `-` to its text after the `-` (to the empty
string when the token holds no `-`), a later token overriding an earlier one with the same key:
every lookup in the result is the lookup in that map. So `save-CLReturned` gives
`save ↦ CLReturned` and `bigendian` gives `bigendian ↦ ""`. -/
theorem parseTag_single_dash (tag : String) (hne : tag ≠ "") (hdash : tag ≠ "-")
    (hone : ∀ tok ∈ tag.data.splitOn ',', tok.count '-' ≤ 1) :
    (∀ k : String, (parseTag tag).get k = annotationMap tag k) ∧
    parseTag "" = [] ∧
    parseTag "save-CLReturned" = [("save", "CLReturned")] ∧
    parseTag "bigendian" = [("bigendian", "")] := by
  refine ⟨fun k => ?_, by decide!, by decide!, by decide!⟩
  rw [parseTag_get]
  unfold annotationMapCut annotationMap
  rw [if_neg (by simp [hne, hdash])]
  cases hl : lastToken (tag.data.splitOn ',') k with
  | none => rfl
  | some tok =>
    simp only [Option.map_some']
    rw [tokenAfter_no_dash tok (hone tok (lastToken_mem _ _ _ hl))]

theorem parseTag_single_dash_witness :
    ("save-CLReturned,bigendian" : String) ≠ "" ∧ ("save-CLReturned,bigendian" : String) ≠ "-" ∧
    (∀ k : String, (parseTag "save-CLReturned,bigendian").get k
      = annotationMap "save-CLReturned,bigendian" k) ∧
    annotationMap "save-CLReturned,bigendian" "save" = some "CLReturned" ∧
    annotationMap "save-CLReturned,bigendian" "bigendian" = some "" ∧
    annotationMap "save-CLReturned,bigendian" "len" = none :=
  ⟨by decide, by decide,
    (parseTag_single_dash "save-CLReturned,bigendian" (by decide) (by decide)
      (by decide!)).1,
    by decide!, by decide!, by decide!⟩

/-! ## Promotion of embedded fields -/

/-- C19 (the code at the failing input). In `S`, which embeds `A` and `B`, both embedding `C`,
which embeds `E` with the field `G`, the field `G` is reachable through the two index paths
`[0,0,0,0]` and `[1,0,0,0]` of the same length, and `typeFields` keeps it, with the first path:
`Marshal` writes the `G` reached through `A`. One level up the collision is seen: a field `F`
of `C` itself, reachable through `[0,0,0]` and `[1,0,0]`, is dropped, as are two fields `X` of
two different embedded structs; and a field at the strictly shortest path wins. -/
theorem typeFields_keeps_ambiguous :
    typeFields twiceEmbedded = [⟨"G", [], [0, 0, 0, 0], .uint8⟩] ∧
    typeByIndex twiceEmbedded [0, 0, 0, 0] = some .uint8 ∧
    typeByIndex twiceEmbedded [1, 0, 0, 0] = some .uint8 ∧
    Marshal (some (twiceEmbedded,
      .struct [.struct [.struct [.struct [.uint 7]]], .struct [.struct [.struct [.uint 9]]]]))
      = .ok [7] ∧
    typeFields (structOf "S" [embedded "A" [embedded "C" [fld "F" "" .uint8]],
      embedded "B" [embedded "C" [fld "F" "" .uint8]]]) = [] ∧
    typeFields (structOf "S" [embedded "I1" [fld "X" "" .uint8],
      embedded "I2" [fld "X" "" .uint8]]) = [] ∧
    typeFields (structOf "S" [fld "X" "" .uint8,
      embedded "Inner" [fld "X" "" .uint16, fld "Y" "" .uint8]])
      = [⟨"X", [], [0], .uint8⟩, ⟨"Y", [], [1, 1], .uint8⟩] := by
  refine ⟨by decide!, by decide!, by decide!, by decide!, by decide!, by decide!, by decide!⟩

/-! ## The order of the fields on the wire -/

theorem stringLess_iff (a b : String) : stringLess a b = true ↔ nameKey a < nameKey b := by
  simp [stringLess, nameKey]

theorem nameKey_injective (a b : String) (h : nameKey a = nameKey b) : a = b := by
  unfold nameKey at h
  have hinj : Function.Injective Char.toNat := by
    intro x y hxy
    exact Char.ext (UInt32.ext hxy)
  exact String.ext (List.map_injective_iff.mpr hinj h)

theorem byIndexLess_irrefl : ∀ a : List Nat, byIndexLess a a = false
  | [] => by simp [byIndexLess]
  | x :: xs => by simp [byIndexLess, byIndexLess_irrefl xs]

theorem byIndexLess_trans : ∀ a b c : List Nat,
    byIndexLess a b = true → byIndexLess b c = true → byIndexLess a c = true
  | [], _, [] => by
    intro _ h2
    cases ‹List Nat› <;> simp [byIndexLess] at h2
  | [], _, z :: zs => by intro _ _; simp [byIndexLess]
  | x :: xs, [], _ => by intro h1; simp [byIndexLess] at h1
  | x :: xs, y :: ys, [] => by intro _ h2; simp [byIndexLess] at h2
  | x :: xs, y :: ys, z :: zs => by
    intro h1 h2
    simp only [byIndexLess, ne_eq, ite_not] at h1 h2 ⊢
    by_cases hxy : x = y
    · subst hxy
      simp only [if_true] at h1
      by_cases hxz : x = z
      · subst hxz
        simp only [if_true] at h2 ⊢
        exact byIndexLess_trans xs ys zs h1 h2
      · simp only [hxz, if_false, decide_eq_true_eq] at h2 ⊢
        exact h2
    · simp only [hxy, if_false, decide_eq_true_eq] at h1
      by_cases hyz : y = z
      · subst hyz
        simp only [hxy, if_false, decide_eq_true_eq]
        exact h1
      · simp only [hyz, if_false, decide_eq_true_eq] at h2
        have hxz : ¬ (x = z) := by omega
        simp only [hxz, if_false, decide_eq_true_eq]
        omega

theorem byIndexLess_trichotomy : ∀ a b : List Nat,
    byIndexLess a b = true ∨ a = b ∨ byIndexLess b a = true
  | [], [] => Or.inr (Or.inl rfl)
  | [], y :: ys => Or.inl (by simp [byIndexLess])
  | x :: xs, [] => Or.inr (Or.inr (by simp [byIndexLess]))
  | x :: xs, y :: ys => by
    simp only [byIndexLess, ne_eq, ite_not]
    by_cases hxy : x = y
    · subst hxy
      simp only [if_true, List.cons.injEq, true_and]
      exact byIndexLess_trichotomy xs ys
    · have hyx : ¬ (y = x) := fun h => hxy h.symm
      simp only [hxy, hyx, if_false, decide_eq_true_eq, List.cons.injEq, false_and, false_or]
      omega

theorem byIndexLess_asymm (a b : List Nat) (h : byIndexLess a b = true) :
    ¬ (byIndexLess b a = true) := by
  intro h2
  have := byIndexLess_trans a b a h h2
  rw [byIndexLess_irrefl] at this
  exact absurd this (by simp)

/-- Sorting by insertion with a strict order leaves no later element below an earlier one. -/
theorem orderedInsert_sorted (less : field → field → Bool)
    (hasymm : ∀ a b, less a b = true → ¬ (less b a = true))
    (htrans : ∀ a b c, less a b = true → less b c = true → less a c = true)
    (a : field) : ∀ l : List field, l.Pairwise (fun x y => ¬ (less y x = true)) →
      (List.orderedInsert (fun x y => less x y = true) a l).Pairwise
        (fun x y => ¬ (less y x = true)) := by
  intro l
  induction l with
  | nil => intro _; simp
  | cons b l ih =>
    intro hs
    rw [List.orderedInsert]
    rw [List.pairwise_cons] at hs
    split
    · rename_i hab
      rw [List.pairwise_cons]
      refine ⟨?_, List.pairwise_cons.mpr hs⟩
      intro x hx
      rcases List.mem_cons.mp hx with rfl | hx
      · exact hasymm _ _ hab
      · intro hxa
        exact hs.1 x hx (htrans _ _ _ hxa hab)
    · rename_i hab
      rw [List.pairwise_cons]
      refine ⟨?_, ih hs.2⟩
      intro x hx
      have hx2 := (List.perm_orderedInsert (fun x y => less x y = true) a l).mem_iff.mp hx
      rcases List.mem_cons.mp hx2 with rfl | hx2
      · exact hab
      · exact hs.1 x hx2

theorem sortBy_sorted (less : field → field → Bool)
    (hasymm : ∀ a b, less a b = true → ¬ (less b a = true))
    (htrans : ∀ a b c, less a b = true → less b c = true → less a c = true) :
    ∀ l : List field, (sortBy less l).Pairwise (fun x y => ¬ (less y x = true)) := by
  intro l
  induction l with
  | nil => simp [sortBy]
  | cons a l ih =>
    simp only [sortBy, List.insertionSort] at ih ⊢
    exact orderedInsert_sorted less hasymm htrans a _ ih

theorem nameLess_iff (a b : field) :
    nameLess a b = true ↔
      (a.name ≠ b.name ∧ nameKey a.name < nameKey b.name) ∨
      (a.name = b.name ∧ a.index.length < b.index.length) ∨
      (a.name = b.name ∧ a.index.length = b.index.length ∧
        byIndexLess a.index b.index = true) := by
  unfold nameLess
  by_cases hn : a.name = b.name
  · by_cases hl : a.index.length = b.index.length
    · simp [hn, hl]
    · simp [hn, hl]
  · simp [hn, stringLess_iff]

theorem nameLess_asymm (a b : field) (h : nameLess a b = true) : ¬ (nameLess b a = true) := by
  rw [nameLess_iff] at h ⊢
  rintro (⟨_, h2⟩ | ⟨h2n, h2⟩ | ⟨h2n, h2l, h2⟩)
  · rcases h with ⟨_, h1⟩ | ⟨h1n, _⟩ | ⟨h1n, _, _⟩
    · exact lt_asymm h1 h2
    · rw [h1n] at h2; exact lt_irrefl _ h2
    · rw [h1n] at h2; exact lt_irrefl _ h2
  · rcases h with ⟨h1n, _⟩ | ⟨_, h1⟩ | ⟨_, h1l, _⟩
    · exact h1n h2n.symm
    · omega
    · omega
  · rcases h with ⟨h1n, _⟩ | ⟨_, h1⟩ | ⟨_, _, h1⟩
    · exact h1n h2n.symm
    · omega
    · exact byIndexLess_asymm _ _ h1 h2

theorem nameLess_trans (a b c : field) (h1 : nameLess a b = true) (h2 : nameLess b c = true) :
    nameLess a c = true := by
  rw [nameLess_iff] at h1 h2 ⊢
  rcases h1 with ⟨_, h1⟩ | ⟨h1n, h1⟩ | ⟨h1n, h1l, h1⟩
  · rcases h2 with ⟨_, h2⟩ | ⟨h2n, _⟩ | ⟨h2n, _, _⟩
    · have h3 := lt_trans h1 h2
      exact Or.inl ⟨fun hc => by rw [hc] at h3; exact lt_irrefl _ h3, h3⟩
    · rw [h2n] at h1
      exact Or.inl ⟨fun hc => by rw [hc] at h1; exact lt_irrefl _ h1, h1⟩
    · rw [h2n] at h1
      exact Or.inl ⟨fun hc => by rw [hc] at h1; exact lt_irrefl _ h1, h1⟩
  · rcases h2 with ⟨h2n, h2⟩ | ⟨h2n, h2⟩ | ⟨h2n, h2l, _⟩
    · rw [← h1n] at h2
      exact Or.inl ⟨fun hc => by rw [hc] at h2; exact lt_irrefl _ h2, h2⟩
    · exact Or.inr (Or.inl ⟨h1n.trans h2n, by omega⟩)
    · exact Or.inr (Or.inl ⟨h1n.trans h2n, by omega⟩)
  · rcases h2 with ⟨h2n, h2⟩ | ⟨h2n, h2⟩ | ⟨h2n, h2l, h2⟩
    · rw [← h1n] at h2
      exact Or.inl ⟨fun hc => by rw [hc] at h2; exact lt_irrefl _ h2, h2⟩
    · exact Or.inr (Or.inl ⟨h1n.trans h2n, by omega⟩)
    · exact Or.inr (Or.inr ⟨h1n.trans h2n, h1l.trans h2l,
        byIndexLess_trans _ _ _ h1 h2⟩)

/-- In the list sorted by `nameLess` the names stand in the order of strings. -/
theorem sortBy_nameLess_names (l : List field) :
    (sortBy nameLess l).Pairwise (fun x y => nameKey x.name ≤ nameKey y.name) := by
  refine (sortBy_sorted nameLess nameLess_asymm nameLess_trans l).imp ?_
  intro x y h
  by_contra hc
  have hlt : nameKey y.name < nameKey x.name := not_le.mp hc
  exact h ((nameLess_iff y x).mpr
    (Or.inl ⟨fun he => by rw [he] at hlt; exact lt_irrefl _ hlt, hlt⟩))

theorem keepRun_cases (r : field) (run : List field) :
    keepRun (r :: run) = [r] ∨ keepRun (r :: run) = [] := by
  cases run with
  | nil => exact Or.inl rfl
  | cons a run =>
    simp only [keepRun, dominantField]
    split
    · rename_i heq
      split at heq
      · cases heq
      · simp only [Option.some.injEq] at heq
        exact Or.inl (by rw [heq])
    · exact Or.inr rfl

/-- The loop that deletes hidden fields, on a list in which the names stand in order: the names
of the fields kept increase strictly, and every field kept is one of the list. -/
theorem hideFields_sorted : ∀ (l : List field) (r : field) (run : List field),
    (∀ x ∈ run, x.name = r.name) →
    l.Pairwise (fun x y => nameKey x.name ≤ nameKey y.name) →
    (∀ x ∈ l, nameKey r.name ≤ nameKey x.name) →
    (hideFields l (r :: run)).Pairwise (fun x y => nameKey x.name < nameKey y.name) ∧
    ∀ o ∈ hideFields l (r :: run), nameKey r.name ≤ nameKey o.name ∧ o ∈ (r :: run) ++ l := by
  intro l
  induction l with
  | nil =>
    intro r run _ _ _
    rw [hideFields]
    rcases keepRun_cases r run with h | h <;> rw [h] <;> simp
  | cons f fs ih =>
    intro r run hrun hsorted hge
    rw [List.pairwise_cons] at hsorted
    rw [hideFields]
    split
    · rename_i hne
      have hrf : nameKey r.name < nameKey f.name :=
        lt_of_le_of_ne (hge f (by simp)) (fun hc => hne (nameKey_injective _ _ hc).symm)
      obtain ⟨ih1, ih2⟩ := ih f [] (by simp) hsorted.2 hsorted.1
      constructor
      · rw [List.pairwise_append]
        refine ⟨?_, ih1, ?_⟩
        · rcases keepRun_cases r run with h | h <;> rw [h] <;> simp
        · intro x hx y hy
          have hxr : x = r := by
            rcases keepRun_cases r run with h | h <;> rw [h] at hx <;> simp at hx
            exact hx
          rw [hxr]
          exact lt_of_lt_of_le hrf (ih2 y hy).1
      · intro o ho
        rcases List.mem_append.mp ho with ho | ho
        · have hor : o = r := by
            rcases keepRun_cases r run with h | h <;> rw [h] at ho <;> simp at ho
            exact ho
          rw [hor]
          exact ⟨le_refl _, by simp⟩
        · obtain ⟨h1, h2⟩ := ih2 o ho
          refine ⟨le_trans (le_of_lt hrf) h1, ?_⟩
          simp only [List.cons_append, List.nil_append, List.mem_cons, List.mem_append] at h2 ⊢
          rcases h2 with h2 | h2
          · exact Or.inr (Or.inr (Or.inl h2))
          · exact Or.inr (Or.inr (Or.inr h2))
    · rename_i heq
      have heq2 : f.name = r.name := by simpa using heq
      obtain ⟨ih1, ih2⟩ := ih r (run ++ [f])
        (fun x hx => by
          rcases List.mem_append.mp hx with hx | hx
          · exact hrun x hx
          · simp only [List.mem_singleton] at hx
            rw [hx]; exact heq2)
        hsorted.2 (fun x hx => hge x (by simp [hx]))
      refine ⟨ih1, fun o ho => ⟨(ih2 o ho).1, ?_⟩⟩
      have := (ih2 o ho).2
      simp only [List.cons_append, List.mem_cons, List.mem_append, List.mem_singleton,
        List.append_assoc] at this ⊢
      tauto

theorem hideFields_names (l : List field)
    (hsorted : l.Pairwise (fun x y => nameKey x.name ≤ nameKey y.name)) :
    (hideFields l []).Pairwise (fun x y => x.name ≠ y.name) ∧ ∀ o ∈ hideFields l [], o ∈ l := by
  cases l with
  | nil => simp [hideFields, keepRun]
  | cons f fs =>
    rw [hideFields]
    rw [List.pairwise_cons] at hsorted
    obtain ⟨h1, h2⟩ := hideFields_sorted fs f [] (by simp) hsorted.2 hsorted.1
    refine ⟨h1.imp ?_, fun o ho => by simpa using (h2 o ho).2⟩
    intro x y hlt hc
    rw [hc] at hlt
    exact lt_irrefl _ hlt

theorem typeByIndex_snoc (i : Nat) : ∀ (pre : List Nat) (t : GoType),
    typeByIndex t (pre ++ [i])
      = match typeByIndex t pre with
        | some ty => (ty.derefPtr.structFields[i]?).map (fun sf => sf.typ)
        | none => none := by
  intro pre
  induction pre with
  | nil =>
    intro t
    simp only [List.nil_append, typeByIndex]
    cases t.derefPtr.structFields[i]? <;> rfl
  | cons j pre ih =>
    intro t
    simp only [List.cons_append, typeByIndex]
    cases t.derefPtr.structFields[j]? with
    | none => rfl
    | some sf => exact ih sf.typ

theorem located_same_index (t : GoType) (f g : field) (hf : Located t f) (hg : Located t g)
    (h : f.index = g.index) : f.name = g.name := by
  obtain ⟨pre, i, ty, sf, hi, hty, hsf, hn⟩ := hf
  obtain ⟨pre2, i2, ty2, sf2, hi2, hty2, hsf2, hn2⟩ := hg
  rw [hi, hi2] at h
  obtain ⟨hp, hl⟩ := List.append_inj' h rfl
  simp only [List.cons.injEq, and_true] at hl
  subst hp hl
  rw [hty] at hty2
  cases hty2
  rw [hsf] at hsf2
  cases hsf2
  rw [hn, hn2]

theorem scanField_inv (t : GoType) (count : List (GoType × Nat)) (f : field) (i : Nat)
    (sf : StructField) (s : scanState) (hq : Queued t f)
    (hsf : f.typ.structFields[i]? = some sf) (hs : ScanInv t s) :
    ScanInv t (scanField count f i sf s) := by
  obtain ⟨ty, hty, htyp⟩ := hq
  have hloc : Located t ⟨sf.name, parseTag sf.tag, f.index ++ [i], sf.typ.derefPtr⟩ :=
    ⟨f.index, i, ty, sf, rfl, hty, by rw [← htyp]; exact hsf, rfl⟩
  have hqueue : Queued t ⟨sf.typ.derefPtr.name, [], f.index ++ [i], sf.typ.derefPtr⟩ := by
    refine ⟨sf.typ, ?_, rfl⟩
    rw [typeByIndex_snoc, hty]
    simp only [← htyp, hsf, Option.map_some']
  unfold scanField
  simp only
  split
  · exact hs
  · split
    · exact hs
    · split
      · split
        · refine ⟨fun x hx => ?_, hs.2⟩
          simp only [List.mem_append, List.mem_cons, List.mem_singleton, List.not_mem_nil,
            or_false, or_self] at hx
          rcases hx with hx | hx
          · exact hs.1 x hx
          · rw [hx]; exact hloc
        · refine ⟨fun x hx => ?_, hs.2⟩
          simp only [List.mem_append, List.mem_singleton] at hx
          rcases hx with hx | hx
          · exact hs.1 x hx
          · rw [hx]; exact hloc
      · split
        · refine ⟨hs.1, fun x hx => ?_⟩
          simp only [List.mem_append, List.mem_singleton] at hx
          rcases hx with hx | hx
          · exact hs.2 x hx
          · rw [hx]; exact hqueue
        · exact hs

theorem scanFields_inv (t : GoType) (count : List (GoType × Nat)) (f : field)
    (hq : Queued t f) : ∀ (sfs : List StructField) (i : Nat) (s : scanState),
    (∀ k, sfs[k]? = f.typ.structFields[i + k]?) → ScanInv t s →
    ScanInv t (scanFields count f i sfs s) := by
  intro sfs
  induction sfs with
  | nil => intro i s _ hs; exact hs
  | cons sf sfs ih =>
    intro i s hk hs
    rw [scanFields]
    refine ih (i + 1) _ (fun k => ?_) (scanField_inv t count f i sf s hq ?_ hs)
    · have := hk (k + 1)
      simp only [List.getElem?_cons_succ] at this
      rw [this]
      congr 1
      omega
    · have := hk 0
      simpa using this.symm

theorem scanLevel_inv (t : GoType) (count : List (GoType × Nat)) :
    ∀ (current : List field) (s : scanState), (∀ g ∈ current, Queued t g) → ScanInv t s →
    ScanInv t (scanLevel count current s) := by
  intro current
  induction current with
  | nil => intro s _ hs; exact hs
  | cons f fs ih =>
    intro s hq hs
    rw [scanLevel]
    split
    · exact ih s (fun g hg => hq g (by simp [hg])) hs
    · refine ih _ (fun g hg => hq g (by simp [hg])) ?_
      exact scanFields_inv t count f (hq f (by simp)) _ 0 _ (fun k => by simp) hs

theorem scanLevels_located (t : GoType) : ∀ (fuel : Nat) (visited : List GoType)
    (fields next : List field) (nextCount : List (GoType × Nat)),
    (∀ f ∈ fields, Located t f) → (∀ g ∈ next, Queued t g) →
    ∀ f ∈ scanLevels fuel visited fields next nextCount, Located t f := by
  intro fuel
  induction fuel with
  | zero => intro visited fields next nextCount hf _; simpa [scanLevels] using hf
  | succ fuel ih =>
    intro visited fields next nextCount hf hq
    rw [scanLevels]
    split
    · have hinv := scanLevel_inv t nextCount next ⟨visited, fields, [], []⟩ hq
        ⟨hf, by simp⟩
      exact ih _ _ _ _ hinv.1 hinv.2
    · exact hf

/-- The list that `typeFields` returns for a struct type increases strictly in the order of
`byIndex.Less` on the index paths. -/
theorem typeFields_increasing (name : String) (fs : FieldList) :
    (typeFields (.struct name fs)).Pairwise
      (fun a b => byIndexLess a.index b.index = true) := by
  have hF := scanLevels_located (.struct name fs) ((GoType.struct name fs).nesting + 1) [] []
    [⟨"", [], [], .struct name fs⟩] [] (by simp)
    (by
      intro g hg
      simp only [List.mem_singleton] at hg
      subst hg
      exact ⟨.struct name fs, rfl, rfl⟩)
  unfold typeFields
  simp only
  generalize scanLevels ((GoType.struct name fs).nesting + 1) [] []
    [⟨"", [], [], .struct name fs⟩] [] = F at hF
  have hp1 := sortBy_perm nameLess F
  obtain ⟨hnames, hmem⟩ := hideFields_names (sortBy nameLess F) (sortBy_nameLess_names F)
  have hidx : (hideFields (sortBy nameLess F) []).Pairwise (fun x y => x.index ≠ y.index) := by
    refine hnames.imp_of_mem ?_
    intro x y hx hy hne hc
    exact hne (located_same_index _ x y (hF x (hp1.mem_iff.mp (hmem x hx)))
      (hF y (hp1.mem_iff.mp (hmem y hy))) hc)
  have hp2 := sortBy_perm (fun a b => byIndexLess a.index b.index)
    (hideFields (sortBy nameLess F) [])
  have hidx2 := (hp2.pairwise_iff (R := fun x y : field => x.index ≠ y.index)
    (fun h => Ne.symm h)).mpr hidx
  have hsorted := sortBy_sorted (fun a b => byIndexLess a.index b.index)
    (fun a b h => byIndexLess_asymm _ _ h) (fun a b c h1 h2 => byIndexLess_trans _ _ _ h1 h2)
    (hideFields (sortBy nameLess F) [])
  refine (hsorted.and hidx2).imp ?_
  intro a b h
  rcases byIndexLess_trichotomy a.index b.index with h1 | h1 | h1
  · exact h1
  · exact absurd h1 h.2
  · exact absurd h1 h.1

theorem scanFields_exported (count : List (GoType × Nat)) (f : field)
    (hcount : countOf count f.typ = 0) (hidx : f.index = []) :
    ∀ (sfs : List StructField) (i : Nat) (s : scanState),
      (∀ sf ∈ sfs, sf.anonymous = false) →
      scanFields count f i sfs s = { s with fields := s.fields ++ exportedFields i sfs } := by
  intro sfs
  induction sfs with
  | nil => intro i s _; simp [scanFields, exportedFields]
  | cons sf sfs ih =>
    intro i s h
    have han : sf.anonymous = false := h sf (by simp)
    rw [scanFields, ih (i + 1) _ (fun x hx => h x (by simp [hx]))]
    cases hex : sf.exported
    · simp [scanField, hex, han, exportedFields]
    · simp [scanField, hex, han, hcount, hidx, exportedFields]

theorem scanLevels_exported (name : String) (fs : FieldList) (fuel : Nat)
    (h : ∀ sf ∈ fs.toList, sf.anonymous = false) :
    scanLevels (fuel + 1) [] [] [⟨"", [], [], .struct name fs⟩] []
      = exportedFields 0 fs.toList := by
  have hs := scanFields_exported [] ⟨"", [], [], .struct name fs⟩ (by simp [countOf]) rfl
    fs.toList 0 ⟨[.struct name fs], [], [], []⟩ h
  simp only [scanLevels, List.length_singleton, Nat.lt_one_iff, gt_iff_lt, zero_lt_one, if_true,
    scanLevel, List.contains_nil, Bool.false_eq_true, if_false, GoType.structFields]
  rw [hs]
  cases fuel <;> simp [scanLevels]

theorem exportedFields_spec (sfs : List StructField) : ∀ i : Nat,
    (∀ x ∈ exportedFields i sfs, ∃ k, i ≤ k ∧ x.index = [k]) ∧
    (exportedFields i sfs).Pairwise (fun a b => byIndexLess a.index b.index = true) ∧
    ((exportedFields i sfs).map (fun f => f.name)).Sublist (sfs.map (fun sf => sf.name)) := by
  induction sfs with
  | nil => intro i; simp [exportedFields]
  | cons sf sfs ih =>
    intro i
    obtain ⟨h1, h2, h3⟩ := ih (i + 1)
    rw [exportedFields]
    split
    · refine ⟨?_, ?_, ?_⟩
      · intro x hx
        rcases List.mem_cons.mp hx with rfl | hx
        · exact ⟨i, le_refl _, rfl⟩
        · obtain ⟨k, hk, hx⟩ := h1 x hx
          exact ⟨k, by omega, hx⟩
      · rw [List.pairwise_cons]
        refine ⟨?_, h2⟩
        intro x hx
        obtain ⟨k, hk, hx⟩ := h1 x hx
        rw [hx, byIndexLess_singleton]
        simp only [decide_eq_true_eq]
        omega
      · simp only [List.map_cons]
        exact h3.cons₂ _
    · refine ⟨?_, h2, ?_⟩
      · intro x hx
        obtain ⟨k, hk, hx⟩ := h1 x hx
        exact ⟨k, by omega, hx⟩
      · simp only [List.map_cons]
        exact h3.cons _

theorem byIndexLess_antisymm :
    IsAntisymm field (fun a b => byIndexLess a.index b.index = true) :=
  ⟨fun _ _ h1 h2 => absurd h2 (byIndexLess_asymm _ _ h1)⟩

/-- For a struct type without embedded fields, whose field names are distinct, `typeFields`
returns exactly the exported fields in declaration order, the field at position `i` with the
index path `[i]`. -/
theorem typeFields_exported (name : String) (fs : FieldList)
    (hemb : ∀ sf ∈ fs.toList, sf.anonymous = false)
    (hnames : (fs.toList.map (fun sf => sf.name)).Nodup) :
    typeFields (.struct name fs) = exportedFields 0 fs.toList := by
  have hinc := typeFields_increasing name fs
  obtain ⟨_, hsorted, hsub⟩ := exportedFields_spec fs.toList 0
  have hperm : (typeFields (.struct name fs)).Perm (exportedFields 0 fs.toList) := by
    unfold typeFields
    simp only [scanLevels_exported name fs _ hemb]
    have hp1 := sortBy_perm nameLess (exportedFields 0 fs.toList)
    have hn1 : ((sortBy nameLess (exportedFields 0 fs.toList)).map (fun f => f.name)).Nodup := by
      rw [(hp1.map _).nodup_iff]
      exact hsub.nodup hnames
    rw [hideFields_nodup_nil _ hn1]
    exact (sortBy_perm _ _).trans hp1
  haveI := byIndexLess_antisymm
  exact List.eq_of_perm_of_sorted hperm hinc hsorted

theorem GoType.nesting_derefPtr (t : GoType) : t.derefPtr.nesting = t.nesting := by
  cases t <;> simp [GoType.derefPtr, GoType.nesting]

theorem GoType.isStruct_nesting (t : GoType) (h : t.isStruct = true) : 1 ≤ t.nesting := by
  cases t <;> simp [GoType.isStruct, GoType.nesting] at h ⊢

theorem FieldList.nesting_mem : ∀ (fs : FieldList) (sf : StructField), sf ∈ fs.toList →
    sf.typ.nesting ≤ fs.nesting
  | .nil, _, h => by simp [FieldList.toList] at h
  | .cons n ex an tg t rest, sf, h => by
    simp only [FieldList.toList, List.mem_cons] at h
    simp only [FieldList.nesting]
    rcases h with rfl | h
    · exact le_max_left _ _
    · exact le_trans (FieldList.nesting_mem rest sf h) (le_max_right _ _)

theorem GoType.structFields_nesting (t : GoType) (sf : StructField)
    (h : sf ∈ t.structFields) : sf.typ.nesting < t.nesting := by
  cases t <;> simp only [GoType.structFields, List.not_mem_nil] at h
  rename_i name fs
  have := FieldList.nesting_mem fs sf h
  simp only [GoType.nesting]
  omega

theorem scanField_nest (b : Nat) (count : List (GoType × Nat)) (f : field) (i : Nat)
    (sf : StructField) (s : scanState) (hf : f.typ.nesting ≤ b) (hsf : sf ∈ f.typ.structFields)
    (hs : NestInv b s) : NestInv b (scanField count f i sf s) := by
  have hlt := GoType.structFields_nesting f.typ sf hsf
  unfold scanField
  simp only
  split
  · exact hs
  · split
    · exact hs
    · split
      · split <;> exact hs
      · rename_i hstruct
        split
        · intro g hg
          simp only [List.mem_append, List.mem_singleton] at hg
          rcases hg with hg | hg
          · exact hs g hg
          · subst hg
            simp only [Bool.or_eq_true, Bool.not_eq_true', not_or, Bool.not_eq_false] at hstruct
            refine ⟨GoType.isStruct_nesting _ hstruct.2, ?_⟩
            rw [GoType.nesting_derefPtr]
            omega
        · exact hs

theorem scanFields_nest (b : Nat) (count : List (GoType × Nat)) (f : field)
    (hf : f.typ.nesting ≤ b) : ∀ (sfs : List StructField) (i : Nat) (s : scanState),
    (∀ sf ∈ sfs, sf ∈ f.typ.structFields) → NestInv b s →
    NestInv b (scanFields count f i sfs s) := by
  intro sfs
  induction sfs with
  | nil => intro i s _ hs; exact hs
  | cons sf sfs ih =>
    intro i s hmem hs
    rw [scanFields]
    exact ih (i + 1) _ (fun x hx => hmem x (by simp [hx]))
      (scanField_nest b count f i sf s hf (hmem sf (by simp)) hs)

theorem scanLevel_nest (b : Nat) (count : List (GoType × Nat)) :
    ∀ (current : List field) (s : scanState), (∀ g ∈ current, g.typ.nesting ≤ b) →
    NestInv b s → NestInv b (scanLevel count current s) := by
  intro current
  induction current with
  | nil => intro s _ hs; exact hs
  | cons f fs ih =>
    intro s hq hs
    rw [scanLevel]
    split
    · exact ih s (fun g hg => hq g (by simp [hg])) hs
    · exact ih _ (fun g hg => hq g (by simp [hg]))
        (scanFields_nest b count f (hq f (by simp)) _ 0 _ (fun _ h => h) hs)

/-- The scan of `typeFields` has ended before its fuel: with struct types queued that are nested
at most `fuel` deep, more fuel than `fuel + 1` changes nothing. -/
theorem scanLevels_fuel : ∀ (fuel : Nat) (visited : List GoType) (fields next : List field)
    (nextCount : List (GoType × Nat)),
    (∀ g ∈ next, 1 ≤ g.typ.nesting ∧ g.typ.nesting ≤ fuel) →
    ∀ k, scanLevels (fuel + 1 + k) visited fields next nextCount
      = scanLevels (fuel + 1) visited fields next nextCount := by
  intro fuel
  induction fuel with
  | zero =>
    intro visited fields next nextCount h k
    have hnil : next = [] := by
      cases next with
      | nil => rfl
      | cons g gs => have := h g (by simp); omega
    subst hnil
    rw [show 0 + 1 + k = k + 1 by omega]
    simp [scanLevels]
  | succ fuel ih =>
    intro visited fields next nextCount h k
    rw [show fuel + 1 + 1 + k = (fuel + 1 + k) + 1 by omega, scanLevels, scanLevels]
    split
    · simp only
      have hinv := scanLevel_nest (fuel + 1) nextCount next ⟨visited, fields, [], []⟩
        (fun g hg => (h g hg).2) (by intro g hg; simp at hg)
      exact ih _ _ _ _ (fun g hg => ⟨(hinv g hg).1, by have := (hinv g hg).2; omega⟩) k
    · rfl

theorem Appends.uintEncoder (k : GoType) : Appends (uintEncoder k) := by
  intro e v e1 h
  unfold Bnet.uintEncoder at h
  simp only at h
  split at h
  · cases h
  · split at h <;> simp only [Outcome.ok.injEq] at h <;> subst h
    · exact ⟨_, rfl⟩
    · exact ⟨_, rfl⟩
    · exact ⟨_, rfl⟩
    · exact ⟨_, rfl⟩
    · exact ⟨[], by simp⟩

theorem Appends.boolEncoder : Appends boolEncoder := by
  intro e v e1 h
  unfold Bnet.boolEncoder at h
  split at h
  · split at h
    · split at h
      · split at h <;> exact Appends.uintEncoder _ _ _ _ h
      · split at h
        · split at h <;> exact Appends.uintEncoder _ _ _ _ h
        · cases h
    · split at h <;> cases h
  · cases h

theorem Appends.stringEncoder : Appends stringEncoder := by
  intro e v e1 h
  unfold Bnet.stringEncoder at h
  split at h
  · simp only [Outcome.ok.injEq] at h
    subst h
    exact ⟨_, List.append_assoc _ _ _⟩
  · cases h

theorem Appends.encodeElems (enc : encoderFunc) (henc : Appends enc) :
    ∀ (xs : List Value) (e e1 : encodeState), encodeElems enc xs e = .ok e1 →
      ∃ bs : List Nat, e1.buf = e.buf ++ bs := by
  intro xs
  induction xs with
  | nil =>
    intro e e1 h
    simp only [Bnet.encodeElems, Outcome.ok.injEq] at h
    subst h
    exact ⟨[], by simp⟩
  | cons x xs ih =>
    intro e e1 h
    rw [Bnet.encodeElems] at h
    cases hx : enc e x with
    | ok e2 =>
      rw [hx] at h
      obtain ⟨bs1, h1⟩ := henc e x e2 hx
      obtain ⟨bs2, h2⟩ := ih e2 e1 h
      exact ⟨bs1 ++ bs2, by rw [h2, h1, List.append_assoc]⟩
    | error err => rw [hx] at h; cases h
    | crash msg => rw [hx] at h; cases h

theorem Appends.encodeStringSlice : Appends encodeStringSlice := by
  intro e v e1 h
  unfold Bnet.encodeStringSlice at h
  cases hx : Bnet.encodeElems Bnet.stringEncoder v.elems e with
  | ok e2 =>
    rw [hx] at h
    simp only [Outcome.ok.injEq] at h
    subst h
    obtain ⟨bs, hbs⟩ := Appends.encodeElems _ Appends.stringEncoder _ _ _ hx
    exact ⟨bs ++ [0], by simp [hbs]⟩
  | error err => rw [hx] at h; cases h
  | crash msg => rw [hx] at h; cases h

theorem Appends.arrayEncoder (enc : encoderFunc) (henc : Appends enc) :
    Appends (arrayEncoder.encode enc) :=
  fun e v e1 h => Appends.encodeElems enc henc v.elems e e1 h

theorem Appends.sliceEncoder (enc : encoderFunc) (henc : Appends enc) :
    Appends (sliceEncoder.encode enc) := by
  intro e v e1 h
  unfold sliceEncoder.encode at h
  split at h
  · simp only [Outcome.ok.injEq] at h
    subst h
    exact ⟨[], by simp⟩
  · exact henc e v e1 h

theorem Appends.ptrEncoder (enc : encoderFunc) (henc : Appends enc) :
    Appends (ptrEncoder.encode enc) := by
  intro e v e1 h
  unfold ptrEncoder.encode at h
  split at h
  · simp only [Outcome.ok.injEq] at h
    subst h
    exact ⟨[], by simp⟩
  · exact henc e _ e1 h
  · cases h

/-- The loop of `structEncoder.encode` that succeeds has written one chunk for each field, in the
order of the list. -/
theorem structEncoder_writes (l : List (field × encoderFunc)) (v : Value)
    (hl : ∀ p ∈ l, Appends p.2) : ∀ (e e1 : encodeState),
    structEncoder.encode l e v = .ok e1 →
    ∃ bss : List (List Nat), WritesInOrder l v e.buf bss ∧ e1.buf = e.buf ++ bss.flatten := by
  induction l with
  | nil =>
    intro e e1 h
    simp only [structEncoder.encode, Outcome.ok.injEq] at h
    subst h
    exact ⟨[], trivial, by simp⟩
  | cons a l ih =>
    intro e e1 h
    obtain ⟨f, enc⟩ := a
    rw [structEncoder.encode] at h
    cases hfv : fieldByIndex v f.index with
    | error err => rw [hfv] at h; cases h
    | crash msg => rw [hfv] at h; cases h
    | ok fv =>
      rw [hfv] at h
      simp only at h
      split at h
      · cases h
      · cases henc : enc { e with tagCache := f.tags } fv with
        | error err => rw [henc] at h; cases h
        | crash msg => rw [henc] at h; cases h
        | ok e2 =>
          rw [henc] at h
          simp only at h
          obtain ⟨bs, hbs⟩ := hl (f, enc) (by simp) _ _ _ henc
          simp only at hbs
          obtain ⟨bss, hw, hbuf⟩ := ih (fun p hp => hl p (by simp [hp])) _ _ h
          simp only [hbs] at hw hbuf
          refine ⟨bs :: bss, ⟨⟨fv, e2.tagCache, hfv, ?_⟩, hw⟩, ?_⟩
          · rw [henc, ← hbs]
          · rw [hbuf]
            simp [List.append_assoc]

theorem Appends.structEncoder (l : List (field × encoderFunc)) (hl : ∀ p ∈ l, Appends p.2) :
    Appends (structEncoder.encode l) := by
  intro e v e1 h
  obtain ⟨bss, _, hbuf⟩ := structEncoder_writes l v hl e e1 h
  exact ⟨_, hbuf⟩

mutual
/-- Every encoder of the engine only appends to the buffer. -/
theorem Appends.encoderByIndex : ∀ (t : GoType) (index : List Nat),
    Appends (encoderByIndex t index)
  | .bool, [] => by rw [Bnet.encoderByIndex]; exact Appends.boolEncoder
  | .uint8, [] => by rw [Bnet.encoderByIndex]; exact Appends.uintEncoder _
  | .uint16, [] => by rw [Bnet.encoderByIndex]; exact Appends.uintEncoder _
  | .uint32, [] => by rw [Bnet.encoderByIndex]; exact Appends.uintEncoder _
  | .uint64, [] => by rw [Bnet.encoderByIndex]; exact Appends.uintEncoder _
  | .string, [] => by rw [Bnet.encoderByIndex]; exact Appends.stringEncoder
  | .struct name fs, [] => by
    rw [Bnet.encoderByIndex]
    apply Appends.structEncoder
    intro p hp
    obtain ⟨f, _, rfl⟩ := List.mem_map.mp hp
    exact Appends.fieldEncoderByIndex fs f.index
  | .slice t, [] => by
    rw [Bnet.encoderByIndex]
    split
    · exact Appends.encodeStringSlice
    · exact Appends.sliceEncoder _ (Appends.arrayEncoder _ (Appends.encoderByIndex t []))
  | .array _ t, [] => by
    rw [Bnet.encoderByIndex]
    exact Appends.arrayEncoder _ (Appends.encoderByIndex t [])
  | .ptr t, [] => by
    rw [Bnet.encoderByIndex]
    exact Appends.ptrEncoder _ (Appends.encoderByIndex t [])
  | .other name, [] => by
    rw [Bnet.encoderByIndex]
    intro e v e1 h
    cases h
  | .struct _ fs, i :: index => by
    rw [Bnet.encoderByIndex]
    exact Appends.fieldEncoderByIndex fs (i :: index)
  | .ptr (.struct _ fs), i :: index => by
    rw [Bnet.encoderByIndex]
    exact Appends.fieldEncoderByIndex fs (i :: index)
  | .bool, _ :: _ => by intro e v e1 h; simp [Bnet.encoderByIndex] at h
  | .uint8, _ :: _ => by intro e v e1 h; simp [Bnet.encoderByIndex] at h
  | .uint16, _ :: _ => by intro e v e1 h; simp [Bnet.encoderByIndex] at h
  | .uint32, _ :: _ => by intro e v e1 h; simp [Bnet.encoderByIndex] at h
  | .uint64, _ :: _ => by intro e v e1 h; simp [Bnet.encoderByIndex] at h
  | .string, _ :: _ => by intro e v e1 h; simp [Bnet.encoderByIndex] at h
  | .slice _, _ :: _ => by intro e v e1 h; simp [Bnet.encoderByIndex] at h
  | .array _ _, _ :: _ => by intro e v e1 h; simp [Bnet.encoderByIndex] at h
  | .other _, _ :: _ => by intro e v e1 h; simp [Bnet.encoderByIndex] at h
  | .ptr .bool, _ :: _ => by intro e v e1 h; simp [Bnet.encoderByIndex] at h
  | .ptr .uint8, _ :: _ => by intro e v e1 h; simp [Bnet.encoderByIndex] at h
  | .ptr .uint16, _ :: _ => by intro e v e1 h; simp [Bnet.encoderByIndex] at h
  | .ptr .uint32, _ :: _ => by intro e v e1 h; simp [Bnet.encoderByIndex] at h
  | .ptr .uint64, _ :: _ => by intro e v e1 h; simp [Bnet.encoderByIndex] at h
  | .ptr .string, _ :: _ => by intro e v e1 h; simp [Bnet.encoderByIndex] at h
  | .ptr (.slice _), _ :: _ => by intro e v e1 h; simp [Bnet.encoderByIndex] at h
  | .ptr (.array _ _), _ :: _ => by intro e v e1 h; simp [Bnet.encoderByIndex] at h
  | .ptr (.ptr _), _ :: _ => by intro e v e1 h; simp [Bnet.encoderByIndex] at h
  | .ptr (.other _), _ :: _ => by intro e v e1 h; simp [Bnet.encoderByIndex] at h
/-- The same for the encoder of a field reached by an index. -/
theorem Appends.fieldEncoderByIndex : ∀ (fs : FieldList) (index : List Nat),
    Appends (fieldEncoderByIndex fs index)
  | .cons _ _ _ _ t _, 0 :: index => by
    rw [Bnet.fieldEncoderByIndex]
    exact Appends.encoderByIndex t index
  | .cons _ _ _ _ _ rest, (i + 1) :: index => by
    rw [Bnet.fieldEncoderByIndex]
    exact Appends.fieldEncoderByIndex rest (i :: index)
  | .nil, _ => by intro e v e1 h; simp [Bnet.fieldEncoderByIndex] at h
  | .cons _ _ _ _ _ _, [] => by intro e v e1 h; simp [Bnet.fieldEncoderByIndex] at h
end

/-- C20. For every struct type the list that `typeFields` returns increases strictly in the
order of `byIndex.Less` on the index paths, the depth-first declaration order, so no index path
stands twice in it (and the scan that collects the fields has ended before the fuel of the
model: more fuel gives the same list). For a struct type without embedded fields, whose field
names are distinct as Go requires, the list is exactly the exported fields in declaration order,
the field declared at position `i` with the index path `[i]`. `Marshal` writes the encodings of
the fields in the order of that list: its result is the concatenation of one chunk for each
field, where the encoder of a field has met the buffer holding exactly the chunks of the fields
before it. -/
theorem typeFields_wire_order (name : String) (fs : FieldList) :
    (typeFields (.struct name fs)).Pairwise
      (fun a b => byIndexLess a.index b.index = true) ∧
    ((typeFields (.struct name fs)).map (fun f => f.index)).Nodup ∧
    (∀ k : Nat,
      scanLevels ((GoType.struct name fs).nesting + 1 + k) [] [] [⟨"", [], [], .struct name fs⟩] []
        = scanLevels ((GoType.struct name fs).nesting + 1) [] []
            [⟨"", [], [], .struct name fs⟩] []) ∧
    ((∀ sf ∈ fs.toList, sf.anonymous = false) → (fs.toList.map (fun sf => sf.name)).Nodup →
      typeFields (.struct name fs) = exportedFields 0 fs.toList) ∧
    (∀ (v : Value) (bytes : List Nat), Marshal (some (.struct name fs, v)) = .ok bytes →
      ∃ bss : List (List Nat),
        WritesInOrder
          ((typeFields (.struct name fs)).map (fun f => (f, fieldEncoderByIndex fs f.index)))
          v [] bss ∧
        bytes = bss.flatten) ∧
    typeFields (.struct "S" sampleMixed)
      = [⟨"A", [], [0], .uint8⟩, ⟨"C", [("bigendian", "")], [2], .uint16⟩,
         ⟨"D", [], [3], .string⟩] ∧
    Marshal (some (.struct "S" sampleMixed,
        .struct [.uint 1, .uint 9, .uint 0x0203, .str [0x61]]))
      = .ok [0x01, 0x02, 0x03, 0x61, 0x00] := by
  have hinc := typeFields_increasing name fs
  refine ⟨hinc, ?_, ?_, typeFields_exported name fs, ?_, by decide!, by decide!⟩
  · rw [List.Nodup, List.pairwise_map]
    refine hinc.imp ?_
    intro a b h hc
    rw [hc, byIndexLess_irrefl] at h
    exact absurd h (by simp)
  · intro k
    refine scanLevels_fuel _ [] [] _ [] ?_ k
    intro g hg
    simp only [List.mem_singleton] at hg
    subst hg
    simp [GoType.nesting]
  · intro v bytes h
    rw [Marshal_struct] at h
    cases hs : structEncoder.encode
        ((typeFields (.struct name fs)).map (fun f => (f, fieldEncoderByIndex fs f.index)))
        ⟨[], []⟩ v with
    | ok e1 =>
      rw [hs] at h
      simp only [Outcome.ok.injEq] at h
      obtain ⟨bss, hw, hbuf⟩ := structEncoder_writes _ v
        (by
          intro p hp
          obtain ⟨f, _, rfl⟩ := List.mem_map.mp hp
          exact Appends.fieldEncoderByIndex fs f.index) _ _ hs
      exact ⟨bss, hw, by rw [← h, hbuf]; simp⟩
    | error err => rw [hs] at h; cases h
    | crash msg => rw [hs] at h; cases h

theorem typeFields_wire_order_witness :
    (∀ sf ∈ sampleMixed.toList, sf.anonymous = false) ∧
    (sampleMixed.toList.map (fun sf => sf.name)).Nodup ∧
    typeFields (.struct "S" sampleMixed) = exportedFields 0 sampleMixed.toList ∧
    ∃ bss : List (List Nat),
      WritesInOrder
        ((typeFields (.struct "S" sampleMixed)).map
          (fun f => (f, fieldEncoderByIndex sampleMixed f.index)))
        (.struct [.uint 1, .uint 9, .uint 0x0203, .str [0x61]]) [] bss ∧
      [0x01, 0x02, 0x03, 0x61, 0x00] = bss.flatten :=
  ⟨by decide!, by decide!,
    (typeFields_wire_order "S" sampleMixed).2.2.2.1 (by decide!) (by decide!),
    (typeFields_wire_order "S" sampleMixed).2.2.2.2.1
      (.struct [.uint 1, .uint 9, .uint 0x0203, .str [0x61]]) [0x01, 0x02, 0x03, 0x61, 0x00]
      (by decide!)⟩

/-! ## The context of decode errors, and strings without a terminator -/

/-- C23 (the code at the failing input). For `T{Inner I; B uint32}` with `I{A uint8}`, `Unmarshal`
of the single byte `0x01` decodes `Inner.A` and then fails on `B`, declared directly in `T`, with
an `IndexOutOfRangeError` whose `Field` is `B` and whose `Struct` is `I`, the nested type that
traversal has already left, not `T`; without the nested field before it (`T{A uint8; B uint32}`)
the same failure names `T`. -/
theorem index_error_names_left_struct :
    (Unmarshal [0x01] (some (.ptr nestedThenField, .ptr (.struct [.struct [.uint 0], .uint 0])))).1
      = .error (.IndexOutOfRangeError 4 1 "I" "B") ∧
    (Unmarshal [0x01] (some (.ptr nestedThenField, .ptr (.struct [.struct [.uint 0], .uint 0])))).1
      ≠ .error (.IndexOutOfRangeError 4 1 "T" "B") ∧
    (Unmarshal [0x01] (some (.ptr nestedThenField,
        .ptr (.struct [.struct [.uint 0], .uint 0])))).2.structs = ["T"] ∧
    (Unmarshal [0x01] (some (.ptr (structOf "T" [fld "A" "" .uint8, fld "B" "" .uint32]),
        .ptr (.struct [.uint 0, .uint 0])))).1
      = .error (.IndexOutOfRangeError 4 1 "T" "B") := by
  refine ⟨by decide!, by decide!, by decide!, by decide!⟩

/-- C24 (the code at the failing input). For `S{Items []uint8}` with `Items` tagged `len-N` and no
field tagged `save-N`, `Unmarshal` fails with an `UndefinedSavedValueError` for the name `N` whose
`Struct` is `S` and whose `Field` is `S` too, the name of the struct, not `Items`. -/
theorem undefined_saved_value_field :
    (Unmarshal [0x01] (some (.ptr unboundLen, .ptr (.struct [.nilSlice])))).1
      = .error (.UndefinedSavedValueError "N" "S" "S") ∧
    (Unmarshal [0x01] (some (.ptr unboundLen, .ptr (.struct [.nilSlice])))).1
      ≠ .error (.UndefinedSavedValueError "N" "S" "Items") ∧
    (Unmarshal [0x01] (some (.ptr unboundLen, .ptr (.struct [.nilSlice])))).2.errorContext
      = ⟨"S", "Items"⟩ := by
  refine ⟨by decide!, by decide!, by decide!⟩

theorem readStringScan_none (data : List Nat) (off : Nat)
    (hno : ∀ j, off ≤ j → data[j]? ≠ some 0) :
    ∀ (left n : Nat), 1 ≤ left → data.length < off + n + left →
      readStringScan data off left n = none := by
  intro left
  induction left with
  | zero => intro n h; omega
  | succ left ih =>
    intro n _ hlen
    rw [readStringScan]
    cases hb : data[off + n]? with
    | none => rfl
    | some b =>
      have hlt : off + n < data.length := by
        by_contra hc
        rw [List.getElem?_eq_none (by omega)] at hb
        exact absurd hb (by simp)
      have hb0 : b ≠ 0 := by
        intro hc
        exact hno (off + n) (by omega) (by rw [hb, hc])
      simp only [hb0, if_false]
      exact ih (n + 1) (by omega) (by omega)

/-- Reading a string with the cursor at 1 or more and no zero byte from the cursor on indexes the
buffer out of range. -/
theorem readString_crash (d : decodeState) (hne : d.data ≠ []) (hoff : 1 ≤ d.off)
    (hno : ∀ j, d.off ≤ j → d.data[j]? ≠ some 0) :
    readString d = (.crash "runtime error: index out of range", d) := by
  have hlen : 1 ≤ d.data.length := by
    cases hd : d.data with
    | nil => exact absurd hd hne
    | cons a l => simp
  unfold readString
  rw [readStringScan_none d.data d.off hno d.data.length 0 hlen (by omega)]

theorem decodeFields_string_crash (fname tag : String) (an : Bool) (rest : FieldList) (i : Nat)
    (p : Path) (d : decodeState) (hne : d.data ≠ []) (hoff : 1 ≤ d.off)
    (hno : ∀ j, d.off ≤ j → d.data[j]? ≠ some 0) :
    (decodeFields (.cons fname true an tag .string rest) i p false d).1
      = .crash "runtime error: index out of range" := by
  have hsave : ∀ d0 : decodeState, ∃ d1, saveTag .string (p ++ [Step.field i]) d0 = (.ok (), d1) ∧
      d1.data = d0.data ∧ d1.off = d0.off := by
    intro d0
    unfold saveTag
    cases (parseTag tag).get "save" <;> cases d0.tagCache.get "save" <;> simp
  obtain ⟨d1, h1, hdata, hoff1⟩ := hsave
    { d with tagCache := parseTag tag, errorContext := { d.errorContext with Field := fname } }
  have hcrash := readString_crash d1 (by rw [hdata]; exact hne) (by rw [hoff1]; exact hoff)
    (by rw [hdata, hoff1]; exact hno)
  simp only [decodeFields, Dec.bind, h1, Bool.not_true, Bool.or_false, value, bind, decodeString,
    hcrash]

/-- C25. With a non-empty buffer, the cursor at 1 or more and no zero byte from the cursor on
(so also with the cursor at or past the end of the buffer), `readString` ends in the run-time
panic of an index out of range and returns no error value; so does the decoding of a string
field at that point, and `Unmarshal`, which raises a run-time panic again: for a struct
`(A uint8, B string)` and any buffer of one byte followed by bytes without a zero byte, the
outcome of `Unmarshal` is that panic, neither success nor an error value. -/
theorem readString_unterminated_crashes (d : decodeState) (p : Path) (a a0 : Nat)
    (rest s0 : List Nat) (hne : d.data ≠ []) (hoff : 1 ≤ d.off)
    (hno : ∀ j, d.off ≤ j → d.data[j]? ≠ some 0) (ha : a < 256) (hrest : 0 ∉ rest) :
    readString d = (.crash "runtime error: index out of range", d) ∧
    (value .string p false d).1 = .crash "runtime error: index out of range" ∧
    (Unmarshal (a :: rest) (some (.ptr byteThenString, .ptr (.struct [.uint a0, .str s0])))).1
      = .crash "runtime error: index out of range" ∧
    (∀ err, (Unmarshal (a :: rest)
        (some (.ptr byteThenString, .ptr (.struct [.uint a0, .str s0])))).1 ≠ .error err) := by
  have hread := readString_crash d hne hoff hno
  have hU : (Unmarshal (a :: rest)
      (some (.ptr byteThenString, .ptr (.struct [.uint a0, .str s0])))).1
      = .crash "runtime error: index out of range" := by
    rw [Unmarshal_ptr]
    simp only [byteThenString, structOf, FieldList.ofList, fld]
    obtain ⟨d1, hstep, hdata, hoff1, _, _⟩ := decodeFields_uint_step_ex "A" false "" .uint8
      (.cons "B" true false "" .string .nil) 0 [Step.elem]
      { decodeState.init (a :: rest) .nilPtr with
        root := .ptr (.struct [.uint a0, .str s0]),
        errorContext := ⟨"P", ""⟩, structs := ["P"] }
      1 a [] rest rfl (by simpa using ha)
      (by simp [decodeState.init, uintBytes, Nat.mod_eq_of_lt ha])
      (by simp [decodeState.init])
    have hc := decodeFields_string_crash "B" "" false .nil 1 [Step.elem] d1
      (by rw [hdata]; simp [decodeState.init])
      (by rw [hoff1]; simp)
      (by
        intro j hj
        rw [hdata]
        rw [hoff1] at hj
        simp only [decodeState.init, List.length_nil, Nat.zero_add] at hj ⊢
        obtain ⟨j, rfl⟩ : ∃ k, j = k + 1 := ⟨j - 1, by omega⟩
        rw [List.getElem?_cons_succ]
        intro h0
        obtain ⟨hlt, hget⟩ := List.getElem?_eq_some.mp h0
        exact hrest (hget ▸ List.getElem_mem hlt))
    simp only [value, show ("P" : String) ≠ "" by decide, if_false, Bool.false_eq_true, Dec.bind,
      decodeState.init, List.nil_append]
    simp only [decodeState.init] at hstep
    rw [hstep]
    cases hr : decodeFields (.cons "B" true false "" .string .nil) 1 [Step.elem] false d1 with
    | mk o d2 =>
      rw [hr] at hc
      simp only at hc
      subst hc
      rfl
  refine ⟨hread, ?_, hU, ?_⟩
  · simp only [value, bind, Dec.bind, decodeString, hread]
  · intro err
    rw [hU]
    simp

theorem readString_unterminated_crashes_witness :
    readString { decodeState.init [0x01] .nilPtr with off := 1 }
      = (.crash "runtime error: index out of range",
         { decodeState.init [0x01] .nilPtr with off := 1 }) ∧
    (value .string [] false { decodeState.init [0x01] .nilPtr with off := 1 }).1
      = .crash "runtime error: index out of range" ∧
    (Unmarshal (0x01 :: []) (some (.ptr byteThenString, .ptr (.struct [.uint 0, .str []])))).1
      = .crash "runtime error: index out of range" ∧
    (∀ err, (Unmarshal (0x01 :: [])
        (some (.ptr byteThenString, .ptr (.struct [.uint 0, .str []])))).1 ≠ .error err) :=
  readString_unterminated_crashes { decodeState.init [0x01] .nilPtr with off := 1 } [] 0x01 0
    [] [] (by decide)
    (by decide)
    (by
      intro j hj
      simp only [decodeState.init] at hj ⊢
      rw [List.getElem?_eq_none (by simpa using hj)]
      simp)
    (by decide) (by simp)

/-! ## The header and message scenario -/

theorem typeFields_tHeader :
    typeFields tHeader = [⟨"Length", [], [0], .uint16⟩, ⟨"MessageID", [], [1], .uint8⟩] := by
  decide!

theorem encode_header (L M : Nat) (hL : L < 2 ^ 16) (hM : M < 2 ^ 8) (buf : List Nat)
    (m : TagMap) :
    encoderByIndex tHeader [] ⟨buf, m⟩ (.struct [.uint L, .uint M])
      = .ok ⟨buf ++ [L % 256, L / 256, M], []⟩ := by
  have h := typeFields_tHeader
  simp only [tHeader, structOf, FieldList.ofList, fld] at h
  simp only [tHeader, structOf, FieldList.ofList, fld]
  rw [encoderByIndex, h]
  simp only [List.map, structEncoder.encode, fieldByIndex, Value.Field,
    fieldEncoderByIndex, isEmptyValue, List.getElem?_cons_zero, List.getElem?_cons_succ,
    uintEncoder_bytes .uint16 2 rfl, uintEncoder_bytes .uint8 1 rfl, Bool.false_eq_true, if_false]
  have h1 : L / 256 % 256 = L / 256 := Nat.mod_eq_of_lt (by omega)
  simp [TagMap.get, uintBytes, LittleEndian.PutUint16, byte, Nat.shiftRight_eq_div_pow]
  omega

/-- Decoding a header from the three bytes at the start of the buffer, into any header. -/
theorem decode_header (L M l0 m0 : Nat) (hL : L < 2 ^ 16) (hM : M < 2 ^ 8) (post : List Nat) :
    ∃ d, Unmarshal ([L % 256, L / 256, M] ++ post)
        (some (.ptr tHeader, .ptr (.struct [.uint l0, .uint m0]))) = (.ok (), d) ∧
      d.root = .ptr (.struct [.uint L, .uint M]) ∧ d.off = 3 := by
  have hb : uintBytes 2 ((parseTag "").get "bigendian").isSome L = [L % 256, L / 256] := by
    have h1 : L / 256 % 256 = L / 256 := Nat.mod_eq_of_lt (by omega)
    have hp : ((parseTag "").get "bigendian").isSome = false := by decide
    rw [hp]
    simp [uintBytes, LittleEndian.PutUint16, byte, Nat.shiftRight_eq_div_pow]
    omega
  have hb1 : uintBytes 1 ((parseTag "").get "bigendian").isSome M = [M] := by
    simp [uintBytes]
    omega
  obtain ⟨d1, hstep1, hdata1, hoff1, _, hroot1⟩ := decodeFields_uint_step_ex "Length" false ""
    .uint16 (.cons "MessageID" true false "" .uint8 .nil) 0 [Step.elem]
    { decodeState.init ([L % 256, L / 256, M] ++ post) .nilPtr with
      root := .ptr (.struct [.uint l0, .uint m0]),
      errorContext := ⟨"Header", ""⟩, structs := ["Header"] }
    2 L [] (M :: post) rfl (by simpa using hL)
    (by rw [hb]; simp [decodeState.init])
    (by simp [decodeState.init])
  obtain ⟨d2, hstep2, _, hoff2, _, hroot2⟩ := decodeFields_uint_step_ex "MessageID" false ""
    .uint8 .nil 1 [Step.elem] d1 1 M [L % 256, L / 256] post rfl (by simpa using hM)
    (by rw [hb1, hdata1]; simp [decodeState.init])
    (by rw [hoff1]; simp)
  have hrun : decodeFields (.cons "Length" true false "" .uint16
      (.cons "MessageID" true false "" .uint8 .nil)) 0 [Step.elem] false
      { decodeState.init ([L % 256, L / 256, M] ++ post) .nilPtr with
        root := .ptr (.struct [.uint l0, .uint m0]),
        errorContext := { (decodeState.init ([L % 256, L / 256, M] ++ post)
          .nilPtr).errorContext with Struct := "Header" },
        structs := (decodeState.init ([L % 256, L / 256, M] ++ post) .nilPtr).structs
          ++ ["Header"] }
      = (.ok (), d2) := by
    have h := hstep1.trans hstep2
    simp only [decodeFields, pure] at h
    exact h
  have hval := value_struct_ok "Header" _ [Step.elem]
    { decodeState.init ([L % 256, L / 256, M] ++ post) .nilPtr with
        root := .ptr (.struct [.uint l0, .uint m0]) } d2 (by decide) hrun
  refine ⟨{ d2 with structs := d2.structs.dropLast }, ?_, ?_, ?_⟩
  · rw [Unmarshal_ptr]
    exact hval
  · simp only [hroot2, hroot1]
    simp [Value.write, Value.child, Value.setChild]
  · simp only [hoff2]
    simp

/-- Decoding a `CharLogon` body from the four bytes of the 32-bit integer 1, into any body. -/
theorem decode_charLogon_one (r0 : Nat) :
    ∃ d, Unmarshal [0x01, 0x00, 0x00, 0x00]
        (some (.ptr tCharLogon, .ptr (.struct [.uint r0]))) = (.ok (), d) ∧
      d.root = .ptr (.struct [.uint 1]) := by
  obtain ⟨d1, hstep1, _, _, _, hroot1⟩ := decodeFields_uint_step_ex "Result" false ""
    .uint32 .nil 0 [Step.elem]
    { decodeState.init [0x01, 0x00, 0x00, 0x00] .nilPtr with
      root := .ptr (.struct [.uint r0]),
      errorContext := ⟨"CharLogon", ""⟩, structs := ["CharLogon"] }
    4 1 [] [] rfl (by decide)
    (by
      have hb : uintBytes 4 ((parseTag "").get "bigendian").isSome 1 = [1, 0, 0, 0] := by decide
      rw [hb]
      simp [decodeState.init])
    (by simp [decodeState.init])
  have hrun : decodeFields (.cons "Result" true false "" .uint32 .nil) 0 [Step.elem] false
      { decodeState.init [0x01, 0x00, 0x00, 0x00] .nilPtr with
        root := .ptr (.struct [.uint r0]),
        errorContext := { (decodeState.init [0x01, 0x00, 0x00, 0x00]
          .nilPtr).errorContext with Struct := "CharLogon" },
        structs := (decodeState.init [0x01, 0x00, 0x00, 0x00] .nilPtr).structs
          ++ ["CharLogon"] }
      = (.ok (), d1) := by
    have h := hstep1
    simp only [decodeFields, pure] at h
    exact h
  have hval := value_struct_ok "CharLogon" _ [Step.elem]
    { decodeState.init [0x01, 0x00, 0x00, 0x00] .nilPtr with
        root := .ptr (.struct [.uint r0]) } d1 (by decide) hrun
  refine ⟨{ d1 with structs := d1.structs.dropLast }, ?_, ?_⟩
  · rw [Unmarshal_ptr]
    exact hval
  · simp only [hroot1]
    simp [Value.write, Value.child, Value.setChild]

/-- C21. The header/message scenario. For every 16-bit `L` and 8-bit `M`, `Marshal` of the header
`(Length = L, MessageID = M)`, given as the struct or, as in the example, through pointers to
it, returns exactly the three bytes `[L mod 256, L div 256, M]`, and `Unmarshal` of these three
bytes into any header returns no error and leaves `Length = L` and `MessageID = M`; `Unmarshal`
of the four bytes `[0x01, 0x00, 0x00, 0x00]` into a body whose first field is a `uint32` leaves
1 in that field. The buffer `[0x09, 0x00, 0x07, 0x01, 0x00, 0x00, 0x00]` of the example, split at
offset 3, gives `Length = 0x0009`, `MessageID = 0x07` and the first body field 1. -/
theorem header_message_scenario (L M l0 m0 r0 : Nat) (hL : L < 2 ^ 16) (hM : M < 2 ^ 8) :
    Marshal (some (tHeader, .struct [.uint L, .uint M])) = .ok [L % 256, L / 256, M] ∧
    Marshal (some (.ptr (.ptr tHeader), .ptr (.ptr (.struct [.uint L, .uint M]))))
      = .ok [L % 256, L / 256, M] ∧
    (∃ d, Unmarshal [L % 256, L / 256, M]
        (some (.ptr tHeader, .ptr (.struct [.uint l0, .uint m0]))) = (.ok (), d) ∧
      d.root = .ptr (.struct [.uint L, .uint M])) ∧
    (∃ d, Unmarshal [0x01, 0x00, 0x00, 0x00]
        (some (.ptr tCharLogon, .ptr (.struct [.uint r0]))) = (.ok (), d) ∧
      d.root = .ptr (.struct [.uint 1])) ∧
    (Unmarshal (charLogonData.take 3) (some (.ptr tHeader, .ptr (zeroValue tHeader))))
      = (.ok (), { decodeState.init [0x09, 0x00, 0x07] (.ptr (.struct [.uint 0x0009, .uint 0x07]))
          with off := 3, errorContext := ⟨"Header", "MessageID"⟩ }) ∧
    (Unmarshal (charLogonData.drop 3) (some (.ptr tCharLogon, .ptr (zeroValue tCharLogon))))
      = (.ok (), { decodeState.init [0x01, 0x00, 0x00, 0x00] (.ptr (.struct [.uint 1]))
          with off := 4, errorContext := ⟨"CharLogon", "Result"⟩ }) := by
  refine ⟨?_, ?_, ?_, decode_charLogon_one r0, by decide!, by decide!⟩
  · simp [Marshal, encodeState.marshal, encodeState.reflectValue, typeEncoder,
      encode_header L M hL hM]
  · have h1 : encoderByIndex (.ptr (.ptr tHeader)) [] ⟨[], []⟩
        (.ptr (.ptr (.struct [.uint L, .uint M])))
        = encoderByIndex tHeader [] ⟨[], []⟩ (.struct [.uint L, .uint M]) := by
      rw [encoderByIndex, ptrEncoder.encode, encoderByIndex, ptrEncoder.encode]
    simp [Marshal, encodeState.marshal, encodeState.reflectValue, typeEncoder, h1,
      encode_header L M hL hM]
  · obtain ⟨d, hrun, hroot, _⟩ := decode_header L M l0 m0 hL hM []
    exact ⟨d, by simpa using hrun, hroot⟩

theorem header_message_scenario_witness :
    Marshal (some (tHeader, .struct [.uint 0x0009, .uint 0x07]))
      = .ok [0x0009 % 256, 0x0009 / 256, 0x07] ∧
    Marshal (some (.ptr (.ptr tHeader), .ptr (.ptr (.struct [.uint 0x0009, .uint 0x07]))))
      = .ok [0x0009 % 256, 0x0009 / 256, 0x07] ∧
    (∃ d, Unmarshal [0x0009 % 256, 0x0009 / 256, 0x07]
        (some (.ptr tHeader, .ptr (.struct [.uint 0, .uint 0]))) = (.ok (), d) ∧
      d.root = .ptr (.struct [.uint 0x0009, .uint 0x07])) ∧
    (∃ d, Unmarshal [0x01, 0x00, 0x00, 0x00]
        (some (.ptr tCharLogon, .ptr (.struct [.uint 0]))) = (.ok (), d) ∧
      d.root = .ptr (.struct [.uint 1])) ∧
    (Unmarshal (charLogonData.take 3) (some (.ptr tHeader, .ptr (zeroValue tHeader))))
      = (.ok (), { decodeState.init [0x09, 0x00, 0x07] (.ptr (.struct [.uint 0x0009, .uint 0x07]))
          with off := 3, errorContext := ⟨"Header", "MessageID"⟩ }) ∧
    (Unmarshal (charLogonData.drop 3) (some (.ptr tCharLogon, .ptr (zeroValue tCharLogon))))
      = (.ok (), { decodeState.init [0x01, 0x00, 0x00, 0x00] (.ptr (.struct [.uint 1]))
          with off := 4, errorContext := ⟨"CharLogon", "Result"⟩ }) :=
  header_message_scenario 0x0009 0x07 0 0 0 (by decide) (by decide)

/-! ## A sequence of strings with an empty element -/

theorem flatten_terminated_length_ge (l : List (List Nat)) :
    l.length ≤ (l.map (fun s => s ++ [0])).flatten.length := by
  induction l with
  | nil => simp
  | cons a l ih => simp at ih ⊢; omega

theorem split_at_first_empty (ss : List (List Nat)) (k : Nat) (hk : ss[k]? = some []) :
    ss = ss.take k ++ [] :: ss.drop (k + 1) := by
  obtain ⟨hlt, hget⟩ := List.getElem?_eq_some.mp hk
  have h := (List.take_append_drop k ss).symm
  rw [List.drop_eq_getElem_cons hlt, hget] at h
  exact h

/-- C26. A sequence of strings without zero bytes whose first empty element stands at index `k`
(so it has at least one element): `Marshal` succeeds and writes every element with its
terminator and one final zero byte; `Unmarshal` of these bytes into a sequence of strings
succeeds and leaves only the first `k` elements (the nil slice when `k = 0`), whatever the
destination held; the cursor stops just past the zero byte of the empty element, before the end
of the buffer, so the bytes of the later elements and the final zero byte stay unread. -/
theorem string_sequence_truncated (ss : List (List Nat)) (k : Nat) (cur : Value)
    (hzf : ∀ s ∈ ss, 0 ∉ s) (hk : ss[k]? = some [])
    (hfirst : ∀ j, j < k → ss[j]? ≠ some []) :
    Marshal (some (.slice .string, .slice (ss.map .str)))
      = .ok ((ss.map (fun s => s ++ [0])).flatten ++ [0]) ∧
    ∃ d, Unmarshal ((ss.map (fun s => s ++ [0])).flatten ++ [0])
        (some (.ptr (.slice .string), .ptr cur)) = (.ok (), d) ∧
      d.root = .ptr (if k = 0 then .nilSlice else .slice ((ss.take k).map .str)) ∧
      d.off = (((ss.take k).map (fun s => s ++ [0])).flatten).length + 1 ∧
      d.off < ((ss.map (fun s => s ++ [0])).flatten ++ [0]).length ∧
      d.data.drop d.off = ((ss.drop (k + 1)).map (fun s => s ++ [0])).flatten ++ [0] := by
  have hsplit := split_at_first_empty ss k hk
  have hklt : k < ss.length := (List.getElem?_eq_some.mp hk).1
  have hbytes : (ss.map (fun s => s ++ [0])).flatten ++ [0]
      = [] ++ (((ss.take k).map (fun s => s ++ [0])).flatten
          ++ 0 :: (((ss.drop (k + 1)).map (fun s => s ++ [0])).flatten ++ [0])) := by
    conv_lhs => rw [hsplit]
    simp [List.append_assoc]
  have hall : ∀ s ∈ ss.take k, s ≠ [] ∧ 0 ∉ s := by
    intro s hs
    refine ⟨?_, hzf s (List.mem_of_mem_take hs)⟩
    obtain ⟨j, hj, hget⟩ := List.getElem_of_mem hs
    intro hc
    have hjk : j < k := by
      rw [List.length_take] at hj
      omega
    apply hfirst j hjk
    rw [List.getElem_take] at hget
    rw [List.getElem?_eq_getElem (by omega), hget, hc]
  constructor
  · simp [Marshal, encodeState.marshal, encodeState.reflectValue, typeEncoder, encoderByIndex,
      encodeStringSlice, Value.elems, encodeElems_string]
  · have hloop := readStringListLoop_encoded (ss.take k)
      (((ss.map (fun s => s ++ [0])).flatten ++ [0]).length + 1) []
      { decodeState.init ((ss.map (fun s => s ++ [0])).flatten ++ [0]) .nilPtr with
        root := .ptr cur }
      [] (((ss.drop (k + 1)).map (fun s => s ++ [0])).flatten ++ [0]) hall
      (by
        have h1 := flatten_terminated_length_ge ss
        rw [List.length_take, List.length_append]
        omega)
      (by simpa [decodeState.init] using hbytes)
      (by simp [decodeState.init])
    have hrun : ∃ d, Unmarshal ((ss.map (fun s => s ++ [0])).flatten ++ [0])
          (some (.ptr (.slice .string), .ptr cur)) = (.ok (), d) ∧
        d.data = (ss.map (fun s => s ++ [0])).flatten ++ [0] ∧
        d.off = (((ss.take k).map (fun s => s ++ [0])).flatten).length + 1 ∧
        d.root = .ptr (if ss.take k = [] then .nilSlice else .slice ((ss.take k).map .str)) := by
      rw [Unmarshal_ptr]
      simp only [value, if_true, bind, Dec.bind, readStringList]
      simp only [decodeState.init] at hloop ⊢
      rw [hloop]
      simp only [setValue, Bool.false_eq_true, if_false]
      refine ⟨_, rfl, rfl, ?_, ?_⟩
      · simp
      · simp [Value.write, Value.child, Value.setChild, Value.read]
    obtain ⟨d, hrun, hdata, hoff, hroot⟩ := hrun
    have hk0 : ss.take k = [] ↔ k = 0 := take_eq_nil_iff_zero ss k (by omega)
    refine ⟨d, hrun, ?_, hoff, ?_, ?_⟩
    · rw [hroot]
      by_cases h0 : k = 0
      · simp [h0]
      · simp [h0, hk0]
    · rw [hoff]
      conv_rhs => rw [hbytes]
      simp only [List.nil_append, List.length_append, List.length_cons, List.length_nil]
      omega
    · rw [hoff, hdata]
      conv_lhs => rw [hbytes]
      simp only [List.nil_append]
      rw [show ((ss.take k).map (fun s => s ++ [0])).flatten
          ++ 0 :: (((ss.drop (k + 1)).map (fun s => s ++ [0])).flatten ++ [0])
        = (((ss.take k).map (fun s => s ++ [0])).flatten ++ [0])
          ++ (((ss.drop (k + 1)).map (fun s => s ++ [0])).flatten ++ [0]) by simp]
      rw [show (((ss.take k).map (fun s => s ++ [0])).flatten).length + 1
        = (((ss.take k).map (fun s => s ++ [0])).flatten ++ [0]).length by simp]
      rw [List.drop_left]

theorem string_sequence_truncated_witness :
    Marshal (some (.slice .string,
        .slice (([[0x61], [], [0x62]] : List (List Nat)).map .str)))
      = .ok ((([[0x61], [], [0x62]] : List (List Nat)).map (fun s => s ++ [0])).flatten ++ [0]) ∧
    ∃ d, Unmarshal ((([[0x61], [], [0x62]] : List (List Nat)).map (fun s => s ++ [0])).flatten
          ++ [0])
        (some (.ptr (.slice .string), .ptr .nilSlice)) = (.ok (), d) ∧
      d.root = .ptr (if 1 = 0 then .nilSlice
        else .slice ((([[0x61], [], [0x62]] : List (List Nat)).take 1).map .str)) ∧
      d.off = (((([[0x61], [], [0x62]] : List (List Nat)).take 1).map
        (fun s => s ++ [0])).flatten).length + 1 ∧
      d.off < ((([[0x61], [], [0x62]] : List (List Nat)).map (fun s => s ++ [0])).flatten
        ++ [0]).length ∧
      d.data.drop d.off = ((([[0x61], [], [0x62]] : List (List Nat)).drop (1 + 1)).map
        (fun s => s ++ [0])).flatten ++ [0] :=
  string_sequence_truncated [[0x61], [], [0x62]] 1 .nilSlice (by decide) (by decide)
    (by intro j hj; interval_cases j; decide)

/-! ## The layout of `server.LogonRealmEx` -/

theorem typeFields_tLogonRealmEx :
    typeFields tLogonRealmEx
      = [⟨"MCPCookie", [], [0], .uint32⟩, ⟨"MCPStatus", [], [1], .uint32⟩,
         ⟨"Chunk1", [], [2], .array 2 .uint32⟩, ⟨"IP", [], [3], .array 4 .uint8⟩,
         ⟨"Port", [("bigendian", "")], [4], .uint16⟩, ⟨"Unknown1", [], [5], .array 2 .uint8⟩,
         ⟨"Chunk2", [], [6], .array 12 .uint32⟩, ⟨"Name", [], [7], .string⟩] := by decide!

theorem encodeElems_uint (ct : GoType) (w : Nat) (hk : uintWidth ct = some w) (xs : List Nat)
    (e : encodeState) :
    encodeElems (encoderByIndex ct []) (xs.map .uint) e
      = .ok { e with buf := e.buf
          ++ (xs.map (uintBytes w (e.tagCache.get "bigendian").isSome)).flatten } := by
  induction xs generalizing e with
  | nil => simp [encodeElems]
  | cons x xs ih =>
    simp only [List.map_cons, encodeElems, uintEncoder_bytes ct w hk, ih]
    simp [List.append_assoc]

theorem encode_uint_array (n : Nat) (ct : GoType) (w : Nat) (hk : uintWidth ct = some w)
    (xs : List Nat) (e : encodeState) :
    encoderByIndex (.array n ct) [] e (.array (xs.map .uint))
      = .ok { e with buf := e.buf
          ++ (xs.map (uintBytes w (e.tagCache.get "bigendian").isSome)).flatten } := by
  rw [encoderByIndex]
  simp only [arrayEncoder.encode, Value.elems, encodeElems_uint ct w hk]

theorem uintBytes_four_leastFirst (x : Nat) : uintBytes 4 false x = leastFirst 4 x := by
  simp [uintBytes, leastFirst, List.range_succ, LittleEndian.PutUint32, byte,
    Nat.shiftRight_eq_div_pow]
  omega

theorem uintBytes_two_big (x : Nat) (h : x < 2 ^ 16) :
    uintBytes 2 true x = [x / 256, x % 256] := by
  simp [uintBytes, BigEndian.PutUint16, byte, Nat.shiftRight_eq_div_pow]
  omega

theorem uintBytes_one_flatten (xs : List Nat) (b : Bool) (h : ∀ x ∈ xs, x < 2 ^ 8) :
    (xs.map (uintBytes 1 b)).flatten = xs := by
  induction xs with
  | nil => rfl
  | cons x xs ih =>
    have hx := h x (by simp)
    simp only [List.map_cons, List.flatten_cons, ih (fun y hy => h y (by simp [hy]))]
    simp [uintBytes]
    omega

theorem leastFirst_flatten_length (w : Nat) (xs : List Nat) :
    ((xs.map (leastFirst w)).flatten).length = w * xs.length := by
  induction xs with
  | nil => simp
  | cons x xs ih =>
    simp only [List.map_cons, List.flatten_cons, List.length_append, ih, leastFirst_length,
      List.length_cons]
    ring

/-- What Go's typing says of a `LogonRealmEx`: the widths of the integers and the lengths of the
arrays. -/
theorem logonRealmEx_typed (v : LogonRealmEx) (h : hasType tLogonRealmEx v.toValue = true) :
    v.MCPCookie < 2 ^ 32 ∧ v.MCPStatus < 2 ^ 32 ∧
    (v.Chunk1.length = 2 ∧ ∀ x ∈ v.Chunk1, x < 2 ^ 32) ∧
    (v.IP.length = 4 ∧ ∀ x ∈ v.IP, x < 2 ^ 8) ∧ v.Port < 2 ^ 16 ∧
    (v.Unknown1.length = 2 ∧ ∀ x ∈ v.Unknown1, x < 2 ^ 8) ∧
    (v.Chunk2.length = 12 ∧ ∀ x ∈ v.Chunk2, x < 2 ^ 32) := by
  simpa [tLogonRealmEx, structOf, FieldList.ofList, fld, LogonRealmEx.toValue, hasType,
    hasFieldTypes, List.all_eq_true] using h

/-- C22. For every `server.LogonRealmEx` value, `Marshal` returns exactly the fields in
declaration order with nothing between them: `MCPCookie` and `MCPStatus` (4 bytes each,
least-significant byte first), `Chunk1` (2 x 4, each least-significant first), `IP` (4 x 1),
`Port` most-significant byte first, `Unknown1` (2 x 1), `Chunk2` (12 x 4, each
least-significant first, although it follows the `bigendian` field), the bytes of `Name` and
one zero byte. That is `73 + len(Name)` bytes, with `Port` at the byte offsets 20 and 21 and
`Chunk2` in the 48 bytes from offset 24 on. -/
theorem logonRealmEx_layout (v : LogonRealmEx) (hty : hasType tLogonRealmEx v.toValue = true) :
    Marshal (some (tLogonRealmEx, v.toValue)) = .ok v.wire ∧
    v.wire.length = 73 + v.Name.length ∧
    (v.wire.drop 20).take 2 = [v.Port / 256, v.Port % 256] ∧
    (v.wire.drop 24).take 48 = (v.Chunk2.map (leastFirst 4)).flatten ∧
    v.wire.drop 72 = v.Name ++ [0] := by
  obtain ⟨_, _, ⟨hl1, _⟩, ⟨hl2, hip⟩, hport, ⟨hl3, hu1⟩, ⟨hl4, _⟩⟩ :=
    logonRealmEx_typed v hty
  have hf1 := leastFirst_flatten_length 4 v.Chunk1
  have hf2 := leastFirst_flatten_length 4 v.Chunk2
  have hw : v.wire = (leastFirst 4 v.MCPCookie ++ leastFirst 4 v.MCPStatus
      ++ (v.Chunk1.map (leastFirst 4)).flatten ++ v.IP)
      ++ ([v.Port / 256, v.Port % 256] ++ (v.Unknown1
      ++ ((v.Chunk2.map (leastFirst 4)).flatten ++ (v.Name ++ [0])))) := by
    simp [LogonRealmEx.wire, List.append_assoc]
  have hpre : (leastFirst 4 v.MCPCookie ++ leastFirst 4 v.MCPStatus
      ++ (v.Chunk1.map (leastFirst 4)).flatten ++ v.IP).length = 20 := by
    simp only [List.length_append, leastFirst_length, hf1, hl1, hl2]
  refine ⟨?_, ?_, ?_, ?_, ?_⟩
  · have h := typeFields_tLogonRealmEx
    simp only [tLogonRealmEx, structOf, FieldList.ofList, fld] at h
    simp only [Marshal, encodeState.marshal, encodeState.reflectValue, typeEncoder,
      tLogonRealmEx, structOf, FieldList.ofList, fld]
    rw [encoderByIndex, h]
    simp only [List.map, structEncoder.encode, LogonRealmEx.toValue, fieldByIndex, Value.Field,
      fieldEncoderByIndex, isEmptyValue, List.getElem?_cons_zero, List.getElem?_cons_succ,
      uintEncoder_bytes .uint16 2 rfl, uintEncoder_bytes .uint32 4 rfl,
      encode_uint_array 2 .uint32 4 rfl, encode_uint_array 4 .uint8 1 rfl,
      encode_uint_array 2 .uint8 1 rfl, encode_uint_array 12 .uint32 4 rfl,
      stringEncoder, Bool.false_eq_true, if_false, List.length_map,
      beq_iff_eq, hl1, hl2, hl3, hl4]
    have hfun : uintBytes 4 false = leastFirst 4 := funext uintBytes_four_leastFirst
    simp [TagMap.get, uintBytes_four_leastFirst, uintBytes_two_big v.Port hport,
      uintBytes_one_flatten _ _ hip, uintBytes_one_flatten _ _ hu1, LogonRealmEx.wire,
      List.append_assoc, encoderByIndex, stringEncoder, hfun]
  · rw [hw, List.length_append, hpre]
    simp only [List.length_append, List.length_cons, List.length_nil, hf2, hl3, hl4]
    omega
  · rw [hw, ← hpre, List.drop_left]
    simp
  · have hw2 : v.wire = (leastFirst 4 v.MCPCookie ++ leastFirst 4 v.MCPStatus
        ++ (v.Chunk1.map (leastFirst 4)).flatten ++ v.IP ++ [v.Port / 256, v.Port % 256]
        ++ v.Unknown1) ++ ((v.Chunk2.map (leastFirst 4)).flatten ++ (v.Name ++ [0])) := by
      simp [LogonRealmEx.wire, List.append_assoc]
    have hpre2 : (leastFirst 4 v.MCPCookie ++ leastFirst 4 v.MCPStatus
        ++ (v.Chunk1.map (leastFirst 4)).flatten ++ v.IP ++ [v.Port / 256, v.Port % 256]
        ++ v.Unknown1).length = 24 := by
      simp only [List.length_append, leastFirst_length, hf1, hl1, hl2, hl3, List.length_cons,
        List.length_nil]
    have h48 : ((v.Chunk2.map (leastFirst 4)).flatten).length = 48 := by rw [hf2, hl4]
    rw [hw2, ← hpre2, List.drop_left, ← h48, List.take_left]
  · have hw3 : v.wire = (leastFirst 4 v.MCPCookie ++ leastFirst 4 v.MCPStatus
        ++ (v.Chunk1.map (leastFirst 4)).flatten ++ v.IP ++ [v.Port / 256, v.Port % 256]
        ++ v.Unknown1 ++ (v.Chunk2.map (leastFirst 4)).flatten) ++ (v.Name ++ [0]) := by
      simp [LogonRealmEx.wire, List.append_assoc]
    have hpre3 : (leastFirst 4 v.MCPCookie ++ leastFirst 4 v.MCPStatus
        ++ (v.Chunk1.map (leastFirst 4)).flatten ++ v.IP ++ [v.Port / 256, v.Port % 256]
        ++ v.Unknown1 ++ (v.Chunk2.map (leastFirst 4)).flatten).length = 72 := by
      simp only [List.length_append, leastFirst_length, hf1, hf2, hl1, hl2, hl3, hl4,
        List.length_cons, List.length_nil]
    rw [hw3, ← hpre3, List.drop_left]

theorem logonRealmEx_layout_witness :
    hasType tLogonRealmEx sampleLogonRealmEx.toValue = true ∧
    (Marshal (some (tLogonRealmEx, sampleLogonRealmEx.toValue)) = .ok sampleLogonRealmEx.wire ∧
    sampleLogonRealmEx.wire.length = 73 + sampleLogonRealmEx.Name.length ∧
    (sampleLogonRealmEx.wire.drop 20).take 2
      = [sampleLogonRealmEx.Port / 256, sampleLogonRealmEx.Port % 256] ∧
    (sampleLogonRealmEx.wire.drop 24).take 48
      = (sampleLogonRealmEx.Chunk2.map (leastFirst 4)).flatten ∧
    sampleLogonRealmEx.wire.drop 72 = sampleLogonRealmEx.Name ++ [0]) :=
  ⟨by decide!, logonRealmEx_layout sampleLogonRealmEx (by decide!)⟩

/-! ## Decoding into a destination that holds elements -/

theorem Value.write_index_slice (xs : List Value) (j : Nat) (v : Value) :
    (Value.slice xs).write [Step.index j] v = .slice (xs.set j v) := by
  simp only [Value.write, Value.child]
  cases h : xs[j]? with
  | none =>
    have hlen : xs.length ≤ j := by
      by_contra hc
      rw [List.getElem?_eq_getElem (by omega)] at h
      exact absurd h (by simp)
    simp [List.set_eq_of_length_le hlen]
  | some c => simp [Value.setChild]

theorem set_after_append {α : Type} (ys : List α) (z v : α) (j : Nat) (hj : j ≤ ys.length) :
    (ys ++ [z]).set j v = ys.take j ++ v :: (ys ++ [z]).drop (j + 1) := by
  rw [List.set_eq_take_append_cons_drop]
  rw [if_pos (by simp; omega), List.take_append_of_le_length hj]

/-- One turn of the loop of `decodeSlice` on the elements of the destination: the element
appended and the element written at `j` give the list that the remaining turns start from. -/
theorem reuse_step {α : Type} (ys vs : List α) (z v : α) (j : Nat) (hj : j ≤ ys.length) :
    ((ys ++ [z]).set j v).take (j + 1) ++ vs
        ++ ((ys ++ [z]).set j v ++ List.replicate vs.length z).drop (j + 1 + vs.length)
      = ys.take j ++ (v :: vs)
        ++ (ys ++ List.replicate (vs.length + 1) z).drop (j + (vs.length + 1)) := by
  have hlen : (ys.take j).length = j := by simp [hj]
  have h1 : ((ys ++ [z]).set j v).take (j + 1) = ys.take j ++ [v] := by
    rw [set_after_append ys z v j hj]
    rw [show ys.take j ++ v :: (ys ++ [z]).drop (j + 1)
      = (ys.take j ++ [v]) ++ (ys ++ [z]).drop (j + 1) by simp]
    rw [List.take_left' (by simp [hlen])]
  have h2 : ((ys ++ [z]).set j v ++ List.replicate vs.length z).drop (j + 1 + vs.length)
      = (ys ++ List.replicate (vs.length + 1) z).drop (j + (vs.length + 1)) := by
    rw [set_after_append ys z v j hj]
    rw [show ys.take j ++ v :: (ys ++ [z]).drop (j + 1) ++ List.replicate vs.length z
      = (ys.take j ++ [v]) ++ ((ys ++ [z]).drop (j + 1) ++ List.replicate vs.length z) by simp]
    rw [show j + 1 + vs.length = (ys.take j ++ [v]).length + vs.length by simp [hlen]]
    rw [← List.drop_drop, List.drop_left]
    rw [← List.drop_append_of_le_length (by simp; omega)]
    rw [List.drop_drop]
    rw [show ys ++ [z] ++ List.replicate vs.length z
      = ys ++ List.replicate (vs.length + 1) z by
        simp [List.replicate_succ]]
    congr 1
    omega
  rw [h1, h2]
  simp

theorem slice_elems_reused (t : GoType) (ih : RoundTrips t) :
    ∀ (vs : List Value) (m : TagMap), fixedShape t m = true →
      (∀ x ∈ vs, hasType t x = true ∧ zeroFree t x = true) →
      ∃ bs,
        (∀ buf : List Nat, encodeElems (encoderByIndex t []) vs ⟨buf, m⟩
          = .ok ⟨buf ++ bs, if vs = [] then m else tagsAfter t m⟩) ∧
        (∀ (d : decodeState) (p : Path) (pre post : List Nat) (cur : Value) (j : Nat),
          d.data = pre ++ (bs ++ post) → d.off = pre.length → d.tagCache = m →
          d.root.read p = some cur → j ≤ cur.elems.length →
          (∀ y ∈ cur.elems, hasType t y = true) →
          ∃ d1, forRange (fun i => Dec.bind (appendZero false t p)
                (fun _ => value t (p ++ [Step.index i]) false)) vs.length j d
              = (.ok (), d1) ∧ d1.data = d.data ∧
            d1.off = pre.length + bs.length ∧
            d1.root = (if vs = [] then d.root
              else d.root.write p (.slice (cur.elems.take j ++ vs
                ++ (cur.elems ++ List.replicate vs.length (zeroValue t)).drop
                    (j + vs.length))))) := by
  intro vs
  induction vs with
  | nil =>
    intro m _ _
    refine ⟨[], fun buf => by simp [encodeElems], ?_⟩
    intro d p pre post cur j hd hoff htag hread _ _
    exact ⟨d, by simp [forRange, pure], rfl, by simp [hoff], by simp⟩
  | cons v vs ihvs =>
    intro m hm hall
    obtain ⟨hv, hz⟩ := hall v (by simp)
    obtain ⟨bs1, henc1, hdec1⟩ := ih m v hm hv hz
    obtain ⟨bs2, henc2, hdec2⟩ := ihvs (tagsAfter t m) (fixedShape_tagsAfter t m hm)
      (fun x hx => hall x (by simp [hx]))
    have htags : (if vs = [] then tagsAfter t m else tagsAfter t (tagsAfter t m))
        = tagsAfter t m := by
      split
      · rfl
      · exact tagsAfter_idem t m
    refine ⟨bs1 ++ bs2, ?_, ?_⟩
    · intro buf
      simp only [encodeElems, henc1 buf, henc2 (buf ++ bs1), htags]
      simp [List.append_assoc]
    · intro d p pre post cur j hd hoff htag hread hj htyped
      have happ := appendZero_spec t p d cur (fixedShape_not_ptr t m hm) hread
      have hread0 : (d.root.write p (.slice (cur.elems ++ [zeroValue t]))).read p
          = some (.slice (cur.elems ++ [zeroValue t])) := Value.read_write p d.root _ _ hread
      have hjlt : j < (cur.elems ++ [zeroValue t]).length := by simp; omega
      have hci : (Value.slice (cur.elems ++ [zeroValue t])).read [Step.index j]
          = some ((cur.elems ++ [zeroValue t])[j]) := by
        simp [Value.read, Value.child, List.getElem?_eq_getElem hjlt]
      have helt : hasType t ((cur.elems ++ [zeroValue t])[j]) = true := by
        have hmem := List.getElem_mem hjlt
        rcases List.mem_append.mp hmem with h | h
        · exact htyped _ h
        · rw [List.mem_singleton.mp h]
          exact hasType_zeroValue t
      obtain ⟨d1, hrun1, hdata1, hoff1, htag1, hroot1⟩ := hdec1
        { d with root := d.root.write p (.slice (cur.elems ++ [zeroValue t])) }
        (p ++ [Step.index j]) pre (bs2 ++ post) ((cur.elems ++ [zeroValue t])[j])
        (by simpa [List.append_assoc] using hd) hoff htag
        (by rw [Value.read_append]; simp only [hread0]; exact hci) helt
      have hroot1b : d1.root
          = d.root.write p (.slice ((cur.elems ++ [zeroValue t]).set j v)) := by
        rw [hroot1]
        simp only
        rw [Value.write_append p _ _ _ v hread0, Value.write_write p d.root _ _ _ hread,
          Value.write_index_slice]
      have htyped2 : ∀ y ∈ (Value.slice ((cur.elems ++ [zeroValue t]).set j v)).elems,
          hasType t y = true := by
        intro y hy
        simp only [Value.elems] at hy
        rcases List.mem_or_eq_of_mem_set hy with h | h
        · rcases List.mem_append.mp h with h | h
          · exact htyped _ h
          · rw [List.mem_singleton.mp h]
            exact hasType_zeroValue t
        · rw [h]; exact hv
      obtain ⟨d2, hrun2, hdata2, hoff2, hroot2⟩ := hdec2 d1 p (pre ++ bs1) post
        (.slice ((cur.elems ++ [zeroValue t]).set j v)) (j + 1)
        (by rw [hdata1]; simp [hd, List.append_assoc])
        (by rw [hoff1]; simp) htag1
        (by rw [hroot1b]; exact Value.read_write p d.root _ _ hread)
        (by
          show j + 1 ≤ ((cur.elems ++ [zeroValue t]).set j v).length
          rw [List.length_set, List.length_append, List.length_singleton]
          omega) htyped2
      refine ⟨d2, ?_, by rw [hdata2, hdata1], ?_, ?_⟩
      · simp only [List.length_cons, forRange, bind, Dec.bind, happ, hrun1]
        exact hrun2
      · rw [hoff2]; simp; omega
      · rw [hroot2, hroot1b]
        simp only [reduceCtorEq, if_false, List.length_cons]
        rw [← reuse_step cur.elems vs (zeroValue t) v j hj]
        split
        · rename_i h
          subst h
          simp only [Value.elems, List.append_nil, List.length_nil, Nat.add_zero,
            List.replicate_zero]
          rw [List.take_append_drop]
        · simp only [Value.elems]
          exact Value.write_write p d.root _ _ _ hread

/-- The last field of a struct, a sequence that takes its length from a saved count: the loop of
`decodeSlice` decides the result. -/
theorem decodeFields_counted_last (fname : String) (an : Bool) (tag : String) (t : GoType)
    (i : Nat) (p : Path) (d d1 : decodeState) (name : String) (ct : GoType) (w : Nat) (cp : Path)
    (n : Nat) (hstr : t ≠ .string) (hlen : (parseTag tag).get "len" = some name)
    (hnosave : (parseTag tag).get "save" = none)
    (hk : uintWidth ct = some w) (hn : n < 2 ^ 63)
    (hfind : (d.savedValues.find? (fun kv => kv.1 == name)).map (fun kv => kv.2) = some (ct, cp))
    (hcount : d.root.read cp = some (.uint n))
    (hloop : decodeElems false t (p ++ [Step.field i]) n
        { d with tagCache := parseTag tag, errorContext := { d.errorContext with Field := fname } }
      = (.ok (), d1)) :
    decodeFields (.cons fname true an tag (.slice t) .nil) i p false d
      = (.ok (), { d1 with tagCache := [] }) := by
  have hsave : saveTag (.slice t) (p ++ [Step.field i])
      { d with tagCache := parseTag tag, errorContext := { d.errorContext with Field := fname } }
      = (.ok (), { d with tagCache := parseTag tag,
                          errorContext := { d.errorContext with Field := fname } }) := by
    unfold saveTag
    simp [hnosave]
  have hval : value (.slice t) (p ++ [Step.field i]) false
      { d with tagCache := parseTag tag, errorContext := { d.errorContext with Field := fname } }
      = (.ok (), d1) := by
    have hget := getSavedValueAsInt_uint name
      { d with tagCache := parseTag tag, errorContext := { d.errorContext with Field := fname } }
      ct w hk cp n hfind hcount
    rw [value_slice_counted t _ false _ name hstr hlen]
    simp only [Dec.bind, hget, toInt_small n hn]
    exact hloop
  simp only [decodeFields, Dec.bind, hsave, Bool.not_true, Bool.or_false, hval, Dec.modify, pure]

/-- C27. In a struct whose unsigned-integer field `Count` is tagged `save-C` and whose sequence
field `Items`, declared after it, is tagged `len-C`, with elements of a fixed-shape type other
than `string` (so of every scalar type): when the destination's `Items` already holds the `k`
elements `old`, `Unmarshal` of the encoding of `Count = n` followed by the encodings of the `n`
elements `elems` succeeds and leaves in `Items` the `n` decoded elements in wire order at the
positions `0..n-1`, followed by the last `k` of the old elements and the `n` appended zero
values: `k + n` elements in all, and exactly the decoded sequence only when `k = 0`. -/
theorem reused_destination_appends (sname cname iname ctag itag name : String)
    (ct elem : GoType) (w n c0 : Nat) (elems old : List Value) (post : List Nat)
    (hsname : sname ≠ "") (hct : uintWidth ct = some w)
    (hsave : (parseTag ctag).get "save" = some name)
    (hlen : (parseTag itag).get "len" = some name)
    (hnosave : (parseTag itag).get "save" = none)
    (helem : fixedShape elem (parseTag itag) = true) (hstr : elem ≠ .string)
    (hn : n < 256 ^ w) (hn63 : n < 2 ^ 63)
    (helems : ∀ x ∈ elems, hasType elem x = true ∧ zeroFree elem x = true)
    (hcount : elems.length = n) (hold : ∀ y ∈ old, hasType elem y = true) :
    ∃ cbytes ebytes e1 e2,
      encoderByIndex ct [] ⟨[], parseTag ctag⟩ (.uint n) = .ok e1 ∧ e1.buf = cbytes ∧
      encodeElems (encoderByIndex elem []) elems ⟨[], parseTag itag⟩ = .ok e2 ∧
      e2.buf = ebytes ∧
      ∃ d items, Unmarshal (cbytes ++ ebytes ++ post)
          (some (.ptr (countedStruct sname cname iname ctag itag ct elem),
            .ptr (.struct [.uint c0, .slice old]))) = (.ok (), d) ∧
        d.root = .ptr (.struct [.uint n, .slice items]) ∧
        items = elems ++ (old ++ List.replicate n (zeroValue elem)).drop n ∧
        items.length = old.length + n ∧ items.take n = elems ∧
        (items = elems ↔ old.length = 0) := by
  obtain ⟨bs1, henc1, hdec1⟩ := slice_elems_reused elem (fixed_round_trips elem)
    elems (parseTag itag) helem helems
  refine ⟨uintBytes w ((parseTag ctag).get "bigendian").isSome n, bs1, _, _,
    uintEncoder_bytes ct w hct n _, by simp, henc1 [], by simp, ?_⟩
  -- the struct is entered and the count field is read
  have hstep1 := decodeFields_uint_step cname false ctag ct
    (.cons iname true false itag (.slice elem) .nil) 0 [Step.elem]
    { decodeState.init (uintBytes w ((parseTag ctag).get "bigendian").isSome n
          ++ bs1 ++ post) .nilPtr with
      root := .ptr (.struct [.uint c0, .slice old]),
      errorContext := ⟨sname, ""⟩, structs := [sname] }
    w n [] (bs1 ++ post) hct hn (by simp [decodeState.init, List.append_assoc])
    (by simp [decodeState.init])
  have hwlen : (uintBytes w ((parseTag ctag).get "bigendian").isSome n).length = w := by
    cases ct <;> simp only [uintWidth, Option.some.injEq, reduceCtorEq] at hct <;> subst hct <;>
      cases ((parseTag ctag).get "bigendian").isSome <;> rfl
  -- the loop of decodeSlice on the destination that holds the old elements
  obtain ⟨d1, hloop, _, _, hroot⟩ := hdec1
    { decodeState.init (uintBytes w ((parseTag ctag).get "bigendian").isSome n
          ++ bs1 ++ post) .nilPtr with
      off := 0 + w, tagCache := parseTag itag, errorContext := ⟨sname, iname⟩,
      structs := [sname],
      savedValues := [(name, ct, [Step.elem, Step.field 0])],
      root := .ptr (.struct [.uint n, .slice old]) }
    ([Step.elem] ++ [Step.field 1])
    (uintBytes w ((parseTag ctag).get "bigendian").isSome n) post (.slice old) 0
    (by simp [decodeState.init, List.append_assoc])
    (by simp only [decodeState.init]; rw [hwlen]; simp)
    rfl (by simp [Value.read, Value.child]) (Nat.zero_le _) hold
  -- the sequence field is read with the saved count
  have hfield := decodeFields_counted_last iname false itag elem 1 [Step.elem]
    { decodeState.init (uintBytes w ((parseTag ctag).get "bigendian").isSome n
          ++ bs1 ++ post) .nilPtr with
      off := 0 + w, tagCache := [], errorContext := ⟨sname, cname⟩, structs := [sname],
      savedValues := [(name, ct, [Step.elem, Step.field 0])],
      root := .ptr (.struct [.uint n, .slice old]) }
    d1 name ct w [Step.elem, Step.field 0] n hstr hlen hnosave hct hn63
    (by simp)
    (by simp [Value.read, Value.child])
    (by
      unfold decodeElems
      rw [hcount] at hloop
      exact hloop)
  have hitems : (elems ++ (old ++ List.replicate n (zeroValue elem)).drop n).length
      = old.length + n := by
    simp only [List.length_append, List.length_drop, List.length_replicate]
    omega
  have hrun : ∃ d,
      Unmarshal (uintBytes w ((parseTag ctag).get "bigendian").isSome n ++ bs1 ++ post)
        (some (.ptr (countedStruct sname cname iname ctag itag ct elem),
          .ptr (.struct [.uint c0, .slice old]))) = (.ok (), d) ∧ d.root = d1.root := by
    simp only [Unmarshal, decodeState.unmarshal, countedStruct, value, Value.read, hsname,
      if_false, Bool.false_eq_true, Dec.bind, decodeState.init, List.nil_append,
      List.length_nil] at hstep1 ⊢
    rw [hstep1]
    simp only [savedAfter, hsave, List.singleton_append, Value.write, Value.child, Value.setChild,
      List.getElem?_cons_zero, List.set_cons_zero, Dec.modify, decodeState.init,
      Nat.zero_add] at hfield ⊢
    rw [hfield]
    exact ⟨_, rfl, rfl⟩
  obtain ⟨d, hrun, hrootd⟩ := hrun
  refine ⟨d, elems ++ (old ++ List.replicate n (zeroValue elem)).drop n, hrun, ?_, rfl, hitems,
    ?_, ?_⟩
  · rw [hrootd]
    simp only [hroot]
    by_cases h0 : elems = []
    · subst h0
      simp only [List.length_nil] at hcount
      subst hcount
      simp
    · simp [h0, Value.write, Value.child, Value.setChild, Value.elems, hcount]
  · rw [← hcount, List.take_left]
  · constructor
    · intro h
      have := congrArg List.length h
      rw [hitems] at this
      omega
    · intro h
      have h1 : ((old ++ List.replicate n (zeroValue elem)).drop n).length = 0 := by
        simp only [List.length_drop, List.length_append, List.length_replicate]
        omega
      rw [List.length_eq_zero.mp h1, List.append_nil]

theorem reused_destination_appends_witness :
    ∃ cbytes ebytes e1 e2,
      encoderByIndex .uint8 [] ⟨[], parseTag "save-C"⟩ (.uint 2) = .ok e1 ∧ e1.buf = cbytes ∧
      encodeElems (encoderByIndex .uint8 []) [.uint 0x11, .uint 0x22]
        ⟨[], parseTag "len-C"⟩ = .ok e2 ∧
      e2.buf = ebytes ∧
      ∃ d items, Unmarshal (cbytes ++ ebytes ++ [])
          (some (.ptr (countedStruct "T" "Count" "Items" "save-C" "len-C" .uint8 .uint8),
            .ptr (.struct [.uint 0, .slice [.uint 7, .uint 8, .uint 9]]))) = (.ok (), d) ∧
        d.root = .ptr (.struct [.uint 2, .slice items]) ∧
        items = [.uint 0x11, .uint 0x22]
          ++ (([.uint 7, .uint 8, .uint 9] : List Value)
            ++ List.replicate 2 (zeroValue .uint8)).drop 2 ∧
        items.length = ([.uint 7, .uint 8, .uint 9] : List Value).length + 2 ∧
        items.take 2 = [.uint 0x11, .uint 0x22] ∧
        (items = [.uint 0x11, .uint 0x22]
          ↔ ([.uint 7, .uint 8, .uint 9] : List Value).length = 0) :=
  reused_destination_appends "T" "Count" "Items" "save-C" "len-C" "C" .uint8 .uint8 1 2 0
    [.uint 0x11, .uint 0x22] [.uint 7, .uint 8, .uint 9] []
    (by decide) rfl (by decide) (by decide) (by decide) (by decide!) (by decide) (by decide)
    (by decide) (by decide!) (by decide) (by decide!)

/-! ## The saved count and the kind of the elements -/

/-- The last field of a struct, a sequence of strings: the strings at the cursor are read up to
the first empty one and stored, whatever the tags of the field say. -/
theorem decodeFields_strings_last (fname tag : String) (an : Bool) (i : Nat) (p : Path)
    (d : decodeState) (ss : List (List Nat)) (pre post : List Nat)
    (hss : ∀ s ∈ ss, s ≠ [] ∧ 0 ∉ s)
    (hd : d.data = pre ++ ((ss.map (fun s => s ++ [0])).flatten ++ 0 :: post))
    (hoff : d.off = pre.length) :
    ∃ d1, decodeFields (.cons fname true an tag (.slice .string) .nil) i p false d
        = (.ok (), d1) ∧
      d1.root = d.root.write (p ++ [Step.field i])
        (if ss = [] then .nilSlice else .slice (ss.map .str)) := by
  have hsave : ∀ d0 : decodeState, ∃ d1,
      saveTag (.slice .string) (p ++ [Step.field i]) d0 = (.ok (), d1) ∧
      d1.data = d0.data ∧ d1.off = d0.off ∧ d1.root = d0.root := by
    intro d0
    unfold saveTag
    cases d0.tagCache.get "save" <;> simp
  obtain ⟨d1, h1, hdata, hoff1, hroot1⟩ := hsave
    { d with tagCache := parseTag tag, errorContext := { d.errorContext with Field := fname } }
  have hfuel : ss.length < d1.data.length + 1 := by
    have h := flatten_terminated_length_ge ss
    rw [hdata]
    simp only [hd, List.length_append, List.length_cons]
    omega
  have hloop := readStringListLoop_encoded ss (d1.data.length + 1) [] d1 pre post hss hfuel
    (by rw [hdata]; exact hd) (by rw [hoff1]; exact hoff)
  simp only [decodeFields, Dec.bind, h1, Bool.not_true, Bool.or_false, value, if_true, bind,
    readStringList, hloop, setValue, Bool.false_eq_true, if_false, Dec.modify, pure]
  exact ⟨_, rfl, by simp [hroot1]⟩

/-- A sequence of strings under a `len` tag: the count is read into `Count` and is not used for
the sequence. -/
theorem counted_strings_decode (sname cname iname ctag itag : String) (ct : GoType)
    (w n c0 : Nat) (ss : List (List Nat)) (items0 : Value) (post : List Nat)
    (hsname : sname ≠ "") (hct : uintWidth ct = some w) (hn : n < 256 ^ w)
    (hss : ∀ s ∈ ss, s ≠ [] ∧ 0 ∉ s) :
    ∃ d, Unmarshal (uintBytes w ((parseTag ctag).get "bigendian").isSome n
          ++ ((ss.map (fun s => s ++ [0])).flatten ++ [0]) ++ post)
        (some (.ptr (countedStruct sname cname iname ctag itag ct .string),
          .ptr (.struct [.uint c0, items0]))) = (.ok (), d) ∧
      d.root = .ptr (.struct [.uint n, if ss = [] then .nilSlice else .slice (ss.map .str)]) := by
  have hstep1 := decodeFields_uint_step cname false ctag ct
    (.cons iname true false itag (.slice .string) .nil) 0 [Step.elem]
    { decodeState.init (uintBytes w ((parseTag ctag).get "bigendian").isSome n
          ++ ((ss.map (fun s => s ++ [0])).flatten ++ [0]) ++ post) .nilPtr with
      root := .ptr (.struct [.uint c0, items0]),
      errorContext := ⟨sname, ""⟩, structs := [sname] }
    w n [] (((ss.map (fun s => s ++ [0])).flatten ++ [0]) ++ post) hct hn
    (by simp [decodeState.init, List.append_assoc])
    (by simp [decodeState.init])
  have hwlen : (uintBytes w ((parseTag ctag).get "bigendian").isSome n).length = w := by
    cases ct <;> simp only [uintWidth, Option.some.injEq, reduceCtorEq] at hct <;> subst hct <;>
      cases ((parseTag ctag).get "bigendian").isSome <;> rfl
  obtain ⟨d1, hfield, hroot⟩ := decodeFields_strings_last iname itag false 1 [Step.elem]
    { decodeState.init (uintBytes w ((parseTag ctag).get "bigendian").isSome n
          ++ ((ss.map (fun s => s ++ [0])).flatten ++ [0]) ++ post) .nilPtr with
      off := 0 + w, tagCache := [], errorContext := ⟨sname, cname⟩, structs := [sname],
      savedValues := savedAfter (parseTag ctag) ct ([Step.elem] ++ [Step.field 0]) [],
      root := .ptr (.struct [.uint n, items0]) }
    ss (uintBytes w ((parseTag ctag).get "bigendian").isSome n) post hss
    (by simp [decodeState.init, List.append_assoc])
    (by simp only [decodeState.init]; rw [hwlen]; simp)
  have hrun : ∃ d,
      Unmarshal (uintBytes w ((parseTag ctag).get "bigendian").isSome n
          ++ ((ss.map (fun s => s ++ [0])).flatten ++ [0]) ++ post)
        (some (.ptr (countedStruct sname cname iname ctag itag ct .string),
          .ptr (.struct [.uint c0, items0]))) = (.ok (), d) ∧ d.root = d1.root := by
    simp only [Unmarshal, decodeState.unmarshal, countedStruct, value, Value.read, hsname,
      if_false, Bool.false_eq_true, Dec.bind, decodeState.init, List.nil_append,
      List.length_nil] at hstep1 ⊢
    rw [hstep1]
    simp only [List.singleton_append, Value.write, Value.child, Value.setChild,
      List.getElem?_cons_zero, List.set_cons_zero, Dec.modify, decodeState.init,
      Nat.zero_add, List.nil_append] at hfield ⊢
    rw [hfield]
    exact ⟨_, rfl, rfl⟩
  obtain ⟨d, hrun, hrootd⟩ := hrun
  refine ⟨d, hrun, ?_⟩
  rw [hrootd, hroot]
  simp [Value.write, Value.child, Value.setChild]

/-- C3 (counterexample). For `T{Count uint8; Items []string}` with `Count` tagged `save-C` and
`Items` tagged `len-C`, the buffer `[1, 0x61, 0, 0x62, 0, 0]` holds the encoding of `Count = 1`
followed by the encodings of three elements, the strings `a`, `b` and the empty string.
`Unmarshal` into a destination whose `Items` is empty returns no error and leaves two elements
in `Items`, `a` and `b`: not exactly the first one. For elements that are pointers
(`Items []*uint8`), `Unmarshal` of `[1, 0x11]`, the encoding of `Count = 1` followed by the
encoding of one element, ends in a run-time panic of `reflect` and sets nothing. -/
theorem len_count_not_used_for_strings :
    encoderByIndex .uint8 [] ⟨[], parseTag "save-C"⟩ (.uint 1) = .ok ⟨[1], parseTag "save-C"⟩ ∧
    encodeElems (encoderByIndex .string []) [.str [0x61], .str [0x62], .str []]
        ⟨[], parseTag "len-C"⟩
      = .ok ⟨[0x61, 0, 0x62, 0, 0], parseTag "len-C"⟩ ∧
    Unmarshal [1, 0x61, 0, 0x62, 0, 0]
        (some (.ptr (countedStruct "T" "Count" "Items" "save-C" "len-C" .uint8 .string),
          .ptr (.struct [.uint 0, .nilSlice])))
      = (.ok (), { decodeState.init [1, 0x61, 0, 0x62, 0, 0]
            (.ptr (.struct [.uint 1, .slice [.str [0x61], .str [0x62]]])) with
          off := 6, errorContext := ⟨"T", "Items"⟩,
          savedValues := [("C", .uint8, [Step.elem, Step.field 0])] }) ∧
    (Unmarshal [1, 0x61, 0, 0x62, 0, 0]
        (some (.ptr (countedStruct "T" "Count" "Items" "save-C" "len-C" .uint8 .string),
          .ptr (.struct [.uint 0, .nilSlice])))).2.root
      ≠ .ptr (.struct [.uint 1, .slice [.str [0x61]]]) ∧
    encodeElems (encoderByIndex (.ptr .uint8) []) [.ptr (.uint 0x11)] ⟨[], parseTag "len-C"⟩
      = .ok ⟨[0x11], parseTag "len-C"⟩ ∧
    (Unmarshal [1, 0x11]
        (some (.ptr (countedStruct "T" "Count" "Items" "save-C" "len-C" .uint8 (.ptr .uint8)),
          .ptr (.struct [.uint 0, .nilSlice])))).1
      = .crash "reflect.Set: value is not assignable to the pointer type" := by
  refine ⟨by decide!, by decide!, by decide!, by decide!, by decide!, by decide!⟩

/-- C3 (amended). In a struct whose unsigned-integer field `Count` is tagged `save-C` and whose
sequence field `Items`, declared after it, is tagged `len-C`. When the elements of `Items` are
of a fixed-shape type other than `string` (unsigned integers, booleans with a `size` tag,
non-empty arrays and named structs of exported fields built from these and from strings): from
a buffer that holds the encoding of `Count = n` followed by the encodings of at least `n`
elements, `Unmarshal` into a destination whose `Items` is empty stores `n` in `Count` and makes
`Items` exactly the first `n` encoded elements in wire order, whatever `Count` held in the
destination before (`c0`); `Items` carries no `save` tag of its own, and `n` is below `2 ^ 63`,
as the length of every Go slice is. With `Count = 2` and the elements `[0x11,0x22]`,
`[0x33,0x44]` the result is exactly these two elements in this order. When `Items` is a
sequence of strings the count is read into `Count` and not used for `Items`: from a buffer that
holds the encoding of `Count = n` followed by the encodings of the non-empty strings `ss` and a
zero byte, `Items` becomes all of `ss`, whatever `n` is. -/
theorem saved_len_binding (sname cname iname ctag itag name : String) (ct elem : GoType)
    (w n c0 : Nat) (elems : List Value) (items0 : Value) (post : List Nat)
    (ss : List (List Nat))
    (hsname : sname ≠ "") (hct : uintWidth ct = some w)
    (hsave : (parseTag ctag).get "save" = some name)
    (hlen : (parseTag itag).get "len" = some name)
    (hnosave : (parseTag itag).get "save" = none)
    (helem : fixedShape elem (parseTag itag) = true) (hstr : elem ≠ .string)
    (hn : n < 256 ^ w) (hn63 : n < 2 ^ 63)
    (helems : ∀ x ∈ elems, hasType elem x = true ∧ zeroFree elem x = true)
    (hcount : n ≤ elems.length) (hitems0 : items0.elems = [])
    (hss : ∀ s ∈ ss, s ≠ [] ∧ 0 ∉ s) :
    (∃ cbytes ebytes e1 e2,
      encoderByIndex ct [] ⟨[], parseTag ctag⟩ (.uint n) = .ok e1 ∧ e1.buf = cbytes ∧
      encodeElems (encoderByIndex elem []) elems ⟨[], parseTag itag⟩ = .ok e2 ∧
      e2.buf = ebytes ∧
      ∃ d, Unmarshal (cbytes ++ ebytes ++ post)
          (some (.ptr (countedStruct sname cname iname ctag itag ct elem),
            .ptr (.struct [.uint c0, items0]))) = (.ok (), d) ∧
        d.root = .ptr (.struct [.uint n, if n = 0 then items0 else .slice (elems.take n)]) ∧
        (Unmarshal [2, 0x11, 0x22, 0x33, 0x44]
          (some (.ptr (countedStruct "T" "Count" "Items" "save-C" "len-C" .uint8
              (.array 2 .uint8)), .ptr (.struct [.uint 0, .nilSlice])))).2.root
          = .ptr (.struct [.uint 2, .slice [.array [.uint 0x11, .uint 0x22],
              .array [.uint 0x33, .uint 0x44]]])) ∧
    (∃ cbytes sbytes e1 e2,
      encoderByIndex ct [] ⟨[], parseTag ctag⟩ (.uint n) = .ok e1 ∧ e1.buf = cbytes ∧
      encodeElems (encoderByIndex .string []) (ss.map .str) ⟨[], parseTag itag⟩ = .ok e2 ∧
      e2.buf = sbytes ∧
      ∃ d, Unmarshal (cbytes ++ (sbytes ++ [0]) ++ post)
          (some (.ptr (countedStruct sname cname iname ctag itag ct .string),
            .ptr (.struct [.uint c0, items0]))) = (.ok (), d) ∧
        d.root = .ptr (.struct [.uint n,
          if ss = [] then .nilSlice else .slice (ss.map .str)])) := by
  refine ⟨counted_elements_decode sname cname iname ctag itag name ct elem w n c0 elems items0
    post hsname hct hsave hlen hnosave helem hstr hn hn63 helems hcount hitems0, ?_⟩
  refine ⟨uintBytes w ((parseTag ctag).get "bigendian").isSome n,
    (ss.map (fun s => s ++ [0])).flatten, _,
    ⟨(ss.map (fun s => s ++ [0])).flatten, parseTag itag⟩,
    uintEncoder_bytes ct w hct n _, by simp, ?_, rfl,
    counted_strings_decode sname cname iname ctag itag ct w n c0 ss items0 post hsname hct
      hn hss⟩
  rw [encoderByIndex, encodeElems_string]
  simp

theorem saved_len_binding_witness :
    (∃ cbytes ebytes e1 e2,
      encoderByIndex .uint8 [] ⟨[], parseTag "save-C"⟩ (.uint 2) = .ok e1 ∧ e1.buf = cbytes ∧
      encodeElems (encoderByIndex (.array 2 .uint8) [])
        [.array [.uint 0x11, .uint 0x22], .array [.uint 0x33, .uint 0x44]]
        ⟨[], parseTag "len-C"⟩ = .ok e2 ∧
      e2.buf = ebytes ∧
      ∃ d, Unmarshal (cbytes ++ ebytes ++ [])
          (some (.ptr (countedStruct "T" "Count" "Items" "save-C" "len-C" .uint8
              (.array 2 .uint8)),
            .ptr (.struct [.uint 9, .nilSlice]))) = (.ok (), d) ∧
        d.root = .ptr (.struct [.uint 2, if 2 = 0 then .nilSlice
          else .slice (([.array [.uint 0x11, .uint 0x22],
            .array [.uint 0x33, .uint 0x44]] : List Value).take 2)]) ∧
        (Unmarshal [2, 0x11, 0x22, 0x33, 0x44]
          (some (.ptr (countedStruct "T" "Count" "Items" "save-C" "len-C" .uint8
              (.array 2 .uint8)), .ptr (.struct [.uint 0, .nilSlice])))).2.root
          = .ptr (.struct [.uint 2, .slice [.array [.uint 0x11, .uint 0x22],
              .array [.uint 0x33, .uint 0x44]]])) ∧
    (∃ cbytes sbytes e1 e2,
      encoderByIndex .uint8 [] ⟨[], parseTag "save-C"⟩ (.uint 2) = .ok e1 ∧ e1.buf = cbytes ∧
      encodeElems (encoderByIndex .string [])
        (([[0x61], [0x62], [0x63]] : List (List Nat)).map .str) ⟨[], parseTag "len-C"⟩
        = .ok e2 ∧
      e2.buf = sbytes ∧
      ∃ d, Unmarshal (cbytes ++ (sbytes ++ [0]) ++ [])
          (some (.ptr (countedStruct "T" "Count" "Items" "save-C" "len-C" .uint8 .string),
            .ptr (.struct [.uint 9, .nilSlice]))) = (.ok (), d) ∧
        d.root = .ptr (.struct [.uint 2,
          if ([[0x61], [0x62], [0x63]] : List (List Nat)) = [] then .nilSlice
          else .slice (([[0x61], [0x62], [0x63]] : List (List Nat)).map .str)])) :=
  saved_len_binding "T" "Count" "Items" "save-C" "len-C" "C" .uint8 (.array 2 .uint8) 1 2 9
    [.array [.uint 0x11, .uint 0x22], .array [.uint 0x33, .uint 0x44]] .nilSlice []
    [[0x61], [0x62], [0x63]]
    (by decide) rfl (by decide) (by decide) (by decide) (by decide!) (by decide) (by decide)
    (by decide) (by decide!) (by decide) rfl (by decide)

end Bnet
